import Mathlib

/-! # GLC trajectory planner: the search core of `glc_planner.h`

A shallow embedding of `glcm::trajectory_planner` (constructor, `add_child`,
`expand`, `plan`) and the properties of the search that the specification
states about it.

Conventions of the embedding.

* Numbers.  `double` values (costs, merits, times, state components) are
  elements of an arbitrary linearly ordered commutative ring `K` with a floor
  function, so every theorem holds for the rationals and the reals, and the
  definitions can be evaluated over the integers.  Rounding is not modelled.
* Pointers.  A `nodePtr` is a natural number, an index into `heap`, the list
  of all nodes that were ever allocated; a node that is dropped stays in the list and is never
  referenced again.  `node::inf_cost_node` is `none`.
* Collaborators (`dynamical_system`, `costFunction`, `heuristic`, `obstacles`,
  `goalRegion`) are total functions collected in `collaborators`.
* The constructor.  `scaling` is the part that computes `expand_time`,
  `depth_limit`, `partition_scale` and `eps`, over an ordered field with the
  functions of `<cmath>` as a parameter; `construct` is the rest.
* The fields `hist_popped`, `hist_offered`, `hist_admitted`, `hist_pushed`
  record calls (`queue.pop`, the bucket lookup of a new arc, `add_child`,
  `queue.push`).  No branch of the program reads them.
* Reads outside a vector.  The reads `time[num-1]` and `controls[u_idx][0]` of
  the goal branch give `none` where the element does not exist, and the planner
  then has `fault` set; what is stated of `UPPER` is stated of runs whose reads
  exist.
-/

set_option linter.unusedSectionVars false

namespace glcm

/-- The type `traj`: sampled times and states of an arc. -/
structure traj (K : Type) where
  time : List K
  states : List (List K)
deriving DecidableEq

/-- The type `node`, with the data members the planner reads and writes. -/
structure node (K : Type) where
  parent : Option ℕ
  children : List (Option ℕ)
  x : List K
  cost : K
  merit : K
  t : K
  u_idx : ℕ
  depth : ℤ
deriving DecidableEq

/-- The type `domain`: a cell of the partition.  `label = none` is the
infinite-cost sentinel. -/
structure domain where
  coordinate : List ℤ
  label : Option ℕ
  candidates : List ℕ
deriving DecidableEq

/-- One call `add_child(parent, child)` made while domain `b` was refreshed:
`label` is the label of `b` when the call was made and `arc` is
`traj_from_parent[child]`. -/
structure admission (K : Type) where
  b : List ℤ
  label : Option ℕ
  parent : ℕ
  child : ℕ
  arc : traj K
deriving DecidableEq

/-- One new arc of an expansion: the cell `b` it maps to, its node and its
trajectory. -/
structure offer (K : Type) where
  b : List ℤ
  child : ℕ
  arc : traj K
deriving DecidableEq

/-- The data members of `trajectory_planner` (the clock values `t`, `tstart`
and the unused `sim_count`, `eta`, `params` are left out), the heap of nodes,
the call history, and `fault`, which is set when the goal branch of `expand`
reads `time[num-1]` or `controls[u_idx][0]` where no such element exists. -/
structure trajectory_planner (K : Type) where
  heap : List (node K)
  num : ℤ
  best : Option ℕ
  root_ptr : ℕ
  queue : List ℕ
  domain_labels : List domain
  UPPER : K
  eps : K
  depth_limit : ℤ
  expand_time : K
  partition_scale : K
  iter : ℤ
  foundGoal : Bool
  live : Bool
  controls : List (List K)
  hist_popped : List ℕ
  hist_offered : List (offer K)
  hist_admitted : List (admission K)
  hist_pushed : List ℕ
  fault : Bool

/-- The collaborators the planner holds pointers to.  `inGoal` returns its
result together with the value it leaves in `num`.  `address` is the address
of the set element of a domain during a given iteration, which orders
`std::set<glcm::domain*>`. -/
structure collaborators (K : Type) where
  sim : K → K → List K → List K → traj K
  cost : traj K → List K → K
  Lip_cost : K
  cost_to_go : List K → K
  collisionFree : traj K → Bool
  inGoal : traj K → Bool × ℤ
  address : ℤ → List ℤ → ℕ

/-- What the constructor receives or computes before the search starts.
The scaling functions of the constructor (`expand_time`, `depth_limit`,
`partition_scale`, `eps`) use `log`, `pow`, `exp` and `sqrt`; the search only
reads their values, which are inputs here.  `upper0` is `DBL_MAX/2.0`,
`num0` the value of the uninitialised member `num`, and `d0_coordinate` the
coordinate that `glcm::domain d0(root_ptr)` gives the root's cell. -/
structure setup (K : Type) where
  x0 : List K
  controls : List (List K)
  expand_time : K
  depth_limit : ℤ
  partition_scale : K
  eps : K
  upper0 : K
  num0 : ℤ
  d0_coordinate : List ℤ

section model

variable {K : Type} [LinearOrderedCommRing K] [FloorRing K]

instance : Inhabited (node K) := ⟨⟨none, [], [], 0, 0, 0, 0, 0⟩⟩

/-- Modelled from the spec: the root constructor `node(params, card)` of
`glc_utils.h`.  The root has the initial state, cost 0, depth 0, no parent and
`card` empty child slots. -/
def node_root (x0 : List K) (card : ℕ) : node K :=
  { parent := none, children := List.replicate card none, x := x0,
    cost := 0, merit := 0, t := 0, u_idx := 0, depth := 0 }

/-- Modelled from the spec: the constructor `node(card)` of `glc_utils.h`:
`card` empty child slots and no parent. -/
def node_fresh (card : ℕ) : node K :=
  { parent := none, children := List.replicate card none, x := [],
    cost := 0, merit := 0, t := 0, u_idx := 0, depth := 0 }

/-- Modelled from the spec: `vec_floor` of `glc_utils.h`, the componentwise
floor. -/
def vec_floor (w : List K) : List ℤ := w.map (fun a => ⌊a⌋)

/-- Modelled from the spec: the product of a scalar and a `vctr`. -/
def scale (s : K) (x : List K) : List K := x.map (fun a => s * a)

/-- Modelled from the spec: `sqr` of `glc_utils.h`. -/
def sqr (a : K) : K := a * a

/-- The node a pointer refers to. -/
def deref (h : List (node K)) (p : ℕ) : node K := h.getD p default

/-- An assignment through a pointer: `p->... = ...`. -/
def store (h : List (node K)) (p : ℕ) (f : node K → node K) : List (node K) :=
  h.set p (f (deref h p))

/-- The member `states.back()` of a trajectory. -/
def traj.back_state (τ : traj K) : List K := τ.states.getLastD []

/-- The member `time.back()` of a trajectory. -/
def traj.back_time (τ : traj K) : K := τ.time.getLastD 0

/-- The top of a `std::priority_queue` whose elements were pushed in list
order: the first element that no other element comes strictly before. -/
def pq_top (before : ℕ → ℕ → Bool) : List ℕ → Option ℕ
  | [] => none
  | a :: l =>
    match pq_top before l with
    | none => some a
    | some b => if before b a then some b else some a

/-- Modelled from the spec: `queue_order` of `glc_utils.h` for the open queue:
ascending merit, ties broken by ascending cost, then by insertion. -/
def queue_order (h : List (node K)) (a b : ℕ) : Bool :=
  decide ((deref h a).merit < (deref h b).merit ∨
    ((deref h a).merit = (deref h b).merit ∧ (deref h a).cost < (deref h b).cost))

/-- Modelled from the spec: the order of `domain::candidates`: ascending cost,
ties broken by insertion. -/
def candidate_order (h : List (node K)) (a b : ℕ) : Bool :=
  decide ((deref h a).cost < (deref h b).cost)

/-- The test `c < label->cost + eps`.  Modelled from the spec: the cost of
`node::inf_cost_node` compares greater than every cost. -/
def below_label (h : List (node K)) (eps : K) (label : Option ℕ) (c : K) : Bool :=
  match label with
  | none => true
  | some l => decide (c < (deref h l).cost + eps)

/-- The test `c < best->cost`, with the same sentinel. -/
def below_best (h : List (node K)) (best : Option ℕ) (c : K) : Bool :=
  match best with
  | none => true
  | some l => decide (c < (deref h l).cost)

/-- The constructor of `trajectory_planner`. -/
def construct (E : collaborators K) (I : setup K) : trajectory_planner K :=
  { heap := [{ (node_root I.x0 I.controls.length : node K) with merit := E.cost_to_go I.x0 }],
    num := I.num0,
    best := none,
    root_ptr := 0,
    queue := [0],
    domain_labels := [⟨I.d0_coordinate, some 0, []⟩],
    UPPER := I.upper0,
    eps := I.eps,
    depth_limit := I.depth_limit,
    expand_time := I.expand_time,
    partition_scale := I.partition_scale,
    iter := 0,
    foundGoal := false,
    live := true,
    controls := I.controls,
    hist_popped := [],
    hist_offered := [],
    hist_admitted := [],
    hist_pushed := [0],
    fault := false }

/-- The method `trajectory_planner::add_child`, statement by statement. -/
def add_child (P : trajectory_planner K) (parent child : ℕ) : trajectory_planner K :=
  let h1 := store P.heap child (fun c => { c with parent := some parent })
  let h2 := store h1 child (fun c => { c with depth := (deref h1 parent).depth + 1 })
  let h3 := store h2 child (fun c => { c with t := (deref h2 parent).t + P.expand_time })
  let h4 := store h3 parent
    (fun p => { p with children := p.children.set (deref h3 child).u_idx (some child) })
  { P with heap := h4 }

/-- The locals of `expand` that live across its two loops. -/
structure expansion (K : Type) where
  P : trajectory_planner K
  domains_needing_update : List (List ℤ)
  traj_from_parent : ℕ → traj K

/-- The arc that control `i` gives from the node `current_node`. -/
def arc_of (E : collaborators K) (P : trajectory_planner K) (current_node : ℕ)
    (i : ℕ) : traj K :=
  E.sim (deref P.heap current_node).t ((deref P.heap current_node).t + P.expand_time)
    (deref P.heap current_node).x (P.controls.getD i [])

/-- The node `new_arc` after the assignments of the first loop of `expand`. -/
def arc_node (E : collaborators K) (P : trajectory_planner K) (current_node : ℕ)
    (i : ℕ) : node K :=
  let τ := arc_of E P current_node i
  { (node_fresh P.controls.length : node K) with
    cost := E.cost τ (P.controls.getD i []) + (deref P.heap current_node).cost
    merit := E.cost τ (P.controls.getD i []) + (deref P.heap current_node).cost
      + E.cost_to_go τ.back_state
    u_idx := i
    x := τ.back_state
    t := τ.back_time }

/-- The coordinate `vec_floor(partition_scale * states.back())` of an arc. -/
def arc_coordinate (E : collaborators K) (P : trajectory_planner K) (current_node : ℕ)
    (i : ℕ) : List ℤ :=
  vec_floor (scale P.partition_scale (arc_of E P current_node i).back_state)

/-- The call `domain_labels.insert(d_new)`: the set is unchanged when it has a
domain with this coordinate, and gets a domain with the sentinel label and no
candidates otherwise. -/
def insert_domain (dl : List domain) (b : List ℤ) : List domain :=
  if dl.any (fun d => decide (d.coordinate = b)) then dl else dl ++ [⟨b, none, []⟩]

/-- The element of the set with coordinate `b`. -/
def find_domain (dl : List domain) (b : List ℤ) : Option domain :=
  dl.find? (fun d => decide (d.coordinate = b))

/-- The label of the element with coordinate `b`. -/
def label_at (dl : List domain) (b : List ℤ) : Option ℕ :=
  match find_domain dl b with
  | none => none
  | some d => d.label

/-- The call `bucket.candidates.push(c)` on the element with coordinate `b`. -/
def push_candidate (dl : List domain) (b : List ℤ) (c : ℕ) : List domain :=
  dl.map (fun d => if d.coordinate = b then { d with candidates := d.candidates ++ [c] } else d)

/-- The call `domains_needing_update.insert(&bucket)`. -/
def insert_pointer (l : List (List ℤ)) (b : List ℤ) : List (List ℤ) :=
  if b ∈ l then l else l ++ [b]

/-- The body of the first loop of `expand`, for control index `i`. -/
def simulate (E : collaborators K) (current_node : ℕ) (X : expansion K) (i : ℕ) :
    expansion K :=
  let new_arc : ℕ := X.P.heap.length
  let c := arc_node E X.P current_node i
  let τ := arc_of E X.P current_node i
  let b := arc_coordinate E X.P current_node i
  let dl := insert_domain X.P.domain_labels b
  let dl2 := if below_label X.P.heap X.P.eps (label_at dl b) c.cost then push_candidate dl b new_arc
    else dl
  { P := { X.P with
      heap := X.P.heap ++ [c]
      domain_labels := dl2
      hist_offered := X.P.hist_offered ++ [⟨b, new_arc, τ⟩] }
    domains_needing_update := insert_pointer X.domains_needing_update b
    traj_from_parent := Function.update X.traj_from_parent new_arc τ }

/-- The state of the second loop of `expand` while one domain is refreshed:
the planner, the members `label` and `candidates` of `current_domain`, and the
local `found_best`. -/
structure refresher (K : Type) where
  P : trajectory_planner K
  label : Option ℕ
  candidates : List ℕ
  found_best : Bool

/-- The read `v[i]` of a vector through an `int` index: `none` when the vector
has no such element, where the read is undefined in C++. -/
def read_at {α : Type} (v : List α) (i : ℤ) : Option α :=
  if 0 ≤ i then v[i.toNat]? else none

/-- The tail cost `(time.back() - time[num-1]) * (1 + Lip_cost * sqr(controls[u_idx][0]))`:
`none` when `time[num-1]` or `controls[u_idx][0]` does not exist. -/
def tail_cost (E : collaborators K) (controls : List (List K)) (τ : traj K) (num : ℤ)
    (u_idx : ℕ) : Option K :=
  (read_at τ.time (num - 1)).bind fun tk =>
    (controls[u_idx]?).bind fun u =>
      (u[0]?).map fun u0 => (τ.back_time - tk) * (1 + E.Lip_cost * sqr u0)

/-- The goal check at the end of the body of the `while` loop, for the
candidate `curr`.  In the goal branch `foundGoal`, `live` and `best` are
assigned before the tail cost is computed; when a read of the tail cost is
outside its vector, the behaviour of the program is undefined from there: the
model sets `fault` and assigns nothing to `UPPER`. -/
def goal_check (E : collaborators K) (τ : traj K) (curr : ℕ)
    (P : trajectory_planner K) : trajectory_planner K :=
  let g := E.inGoal τ
  if g.1 && below_best P.heap P.best (deref P.heap curr).cost then
    { P with
      num := g.2
      foundGoal := true
      live := false
      best := some curr
      UPPER :=
        match tail_cost E P.controls τ g.2 (deref P.heap curr).u_idx with
        | some tail => (deref P.heap curr).cost - tail
        | none => P.UPPER
      fault := P.fault || (tail_cost E P.controls τ g.2 (deref P.heap curr).u_idx).isNone }
  else { P with num := g.2 }

/-- The call `queue.push(curr)` under `if(not foundGoal)`. -/
def push_open (curr : ℕ) (P : trajectory_planner K) : trajectory_planner K :=
  if P.foundGoal then P
  else { P with queue := P.queue ++ [curr], hist_pushed := P.hist_pushed ++ [curr] }

/-- The branch of the `while` loop taken by a collision-free candidate
`curr` within the threshold. -/
def admit_candidate (E : collaborators K) (current_node : ℕ) (tfp : ℕ → traj K)
    (b : List ℤ) (R : refresher K) (curr : ℕ) : refresher K :=
  let P1 := add_child R.P current_node curr
  let P2 := { P1 with hist_admitted := P1.hist_admitted ++ [⟨b, R.label, current_node, curr, tfp curr⟩] }
  let P3 := push_open curr P2
  { P := goal_check E (tfp curr) curr P3
    label := if R.found_best then R.label else some curr
    candidates := R.candidates
    found_best := true }

/-- The body of the `while` loop before `candidates.pop()`, with
`curr = candidates.top()`. -/
def refresh_body (E : collaborators K) (current_node : ℕ) (tfp : ℕ → traj K)
    (b : List ℤ) (R : refresher K) (curr : ℕ) : refresher K :=
  if below_label R.P.heap R.P.eps R.label (deref R.P.heap curr).cost then
    if E.collisionFree (tfp curr) then admit_candidate E current_node tfp b R curr
    else R
  else R

/-- The loop `while(not current_domain.candidates.empty())`.  Every iteration
pops one candidate and pushes none, so `candidates.length` iterations empty
the queue; the first argument counts them. -/
def refresh_loop (E : collaborators K) (current_node : ℕ) (tfp : ℕ → traj K)
    (b : List ℤ) : ℕ → refresher K → refresher K
  | 0, R => R
  | n + 1, R =>
    match pq_top (candidate_order R.P.heap) R.candidates with
    | none => R
    | some curr =>
      let R1 := refresh_body E current_node tfp b R curr
      refresh_loop E current_node tfp b n { R1 with candidates := R1.candidates.erase curr }

/-- The write-back of `current_domain` and the call
`domain_labels.erase(current_domain)`.  Modelled from the spec:
`domain::empty()` of `glc_utils.h` holds when the label is still the
sentinel. -/
def close_domain (b : List ℤ) (R : refresher K) : trajectory_planner K :=
  if R.label = none then
    { R.P with domain_labels := R.P.domain_labels.filter (fun d => decide (d.coordinate ≠ b)) }
  else
    let dl := R.P.domain_labels.map
      (fun d => if d.coordinate = b then { d with label := R.label, candidates := R.candidates }
        else d)
    { R.P with domain_labels := dl }

/-- The body of the second loop of `expand`, for the domain with coordinate
`b`. -/
def refresh (E : collaborators K) (current_node : ℕ) (tfp : ℕ → traj K)
    (P : trajectory_planner K) (b : List ℤ) : trajectory_planner K :=
  match find_domain P.domain_labels b with
  | none => P
  | some d =>
    close_domain b
      (refresh_loop E current_node tfp b d.candidates.length ⟨P, d.label, d.candidates, false⟩)

/-- The order in which `std::set<glcm::domain*>` is traversed: ascending
address. -/
def visit_order (E : collaborators K) (iter : ℤ) (l : List (List ℤ)) : List (List ℤ) :=
  l.insertionSort (fun a b => E.address iter a ≤ E.address iter b)

/-- The two loops of `expand`, run for the node `current_node` popped from the
queue. -/
def expand_node (E : collaborators K) (current_node : ℕ) (P : trajectory_planner K) :
    trajectory_planner K :=
  let X := (List.range P.controls.length).foldl (simulate E current_node)
    ⟨P, [], fun _ => ⟨[], []⟩⟩
  (visit_order E P.iter X.domains_needing_update).foldl
    (refresh E current_node X.traj_from_parent) X.P

/-- The statements `queue.top(); queue.pop();`. -/
def pop_open (current_node : ℕ) (P : trajectory_planner K) : trajectory_planner K :=
  { P with queue := P.queue.erase current_node, hist_popped := P.hist_popped ++ [current_node] }

/-- The method `trajectory_planner::expand`.  The queue has no top exactly
when `queue.size()==0`. -/
def expand (E : collaborators K) (P : trajectory_planner K) : trajectory_planner K :=
  let P1 := { P with iter := P.iter + 1 }
  match pq_top (queue_order P1.heap) P1.queue with
  | none => { P1 with live := false }
  | some current_node =>
    let P2 := pop_open current_node P1
    if P2.depth_limit ≤ (deref P2.heap current_node).depth then { P2 with live := false }
    else expand_node E current_node P2

/-- The method `trajectory_planner::plan()`: `while(live) expand();`, run for
at most `fuel` iterations; `none` when the loop has not stopped by then. -/
def plan (E : collaborators K) : ℕ → trajectory_planner K → Option (trajectory_planner K)
  | 0, P => if P.live then none else some P
  | n + 1, P => if P.live then plan E n (expand E P) else some P

/-- The states the planner can be in: the constructed planner and what
`expand` makes of a state it can be in. -/
inductive Reachable (E : collaborators K) (I : setup K) : trajectory_planner K → Prop
  | init : Reachable E I (construct E I)
  | step (P : trajectory_planner K) : Reachable E I P → Reachable E I (expand E P)

end model


/-! ## The solution path -/

section solution_path
variable {K : Type} [LinearOrderedCommRing K] [FloorRing K]

/-- The loop of `path_to_root` from the node `c`: nodes are pushed while they
have a parent, then the node without a parent is pushed.  The first argument
bounds the number of nodes visited; `none` when the walk has not reached a
node without a parent by then. -/
def parent_walk (h : List (node K)) : ℕ → ℕ → Option (List ℕ)
  | 0, _ => none
  | n + 1, c =>
    match (deref h c).parent with
    | none => some [c]
    | some p => (parent_walk h n p).map (fun l => c :: l)

/-- The method `trajectory_planner::path_to_root`.  Modelled from the spec:
`node::inf_cost_node` has no parent, so the walk from it stops at once. -/
def path_to_root (P : trajectory_planner K) (forward : Bool) (fuel : ℕ) :
    Option (List (Option ℕ)) :=
  match P.best with
  | none => some [none]
  | some b =>
    (parent_walk P.heap fuel b).map
      (fun path => (if forward then path.reverse else path).map some)

/-- Modelled from the spec: `traj::pop_back` of `glc_utils.h`, which drops the
last sample. -/
def traj.pop_back (τ : traj K) : traj K := ⟨τ.time.dropLast, τ.states.dropLast⟩

/-- Modelled from the spec: `traj::push` of `glc_utils.h`, which appends the
samples of an arc. -/
def traj.push (σ τ : traj K) : traj K := ⟨σ.time ++ τ.time, σ.states ++ τ.states⟩

/-- The node a path entry points to.  Modelled from the spec: the members `x`
and `u_idx` of `node::inf_cost_node` are those the constructor `node(card)`
leaves. -/
def node_at (h : List (node K)) : Option ℕ → node K
  | none => node_fresh 0
  | some p => deref h p

/-- The locals `t0`, `tf` and `opt_sol` of `recover_traj`, and the arcs that
`sim` returned so far. -/
structure recovery (K : Type) where
  t0 : K
  tf : K
  opt_sol : traj K
  arcs : List (traj K)

/-- The body of the loop of `recover_traj` for the index `i`.  The test
`i < path.size()-2` is made on sizes of at least 2.  Modelled from the spec:
`sim` is deterministic, so the overload that fills `arc` gives the trajectory
that `sim(t0, tf, x, u)` returns. -/
def recover_step (E : collaborators K) (P : trajectory_planner K) (path : List (Option ℕ))
    (S : recovery K) (i : ℕ) : recovery K :=
  let arc := E.sim S.t0 S.tf (node_at P.heap (path.getD i none)).x
    (P.controls.getD (node_at P.heap (path.getD (i + 1) none)).u_idx [])
  let arc1 := if i + 2 < path.length then arc.pop_back else arc
  { t0 := arc1.back_time
    tf := arc1.back_time + P.expand_time
    opt_sol := S.opt_sol.push arc1
    arcs := S.arcs ++ [arc] }

/-- The loop of `recover_traj`, from `t0 = 0` and `tf = expand_time`. -/
def recover_loop (E : collaborators K) (P : trajectory_planner K) (path : List (Option ℕ)) :
    recovery K :=
  (List.range (path.length - 1)).foldl (recover_step E P path) ⟨0, P.expand_time, ⟨[], []⟩, []⟩

/-- The method `trajectory_planner::recover_traj`.  Its first statement with
an effect is `glcm::nodePtr current = path[0];`, before `path.size()` is
tested: the result is `none` when that element does not exist. -/
def recover_traj (E : collaborators K) (P : trajectory_planner K) (path : List (Option ℕ)) :
    Option (traj K) :=
  match path[0]? with
  | none => none
  | some _ =>
    if path.length < 2 then some ⟨[], []⟩
    else some (recover_loop E P path).opt_sol

end solution_path

/-! ## The scaling functions of the constructor -/

/-- The functions of `<cmath>` that the constructor calls. -/
structure cmath (F : Type) where
  log : F → F
  pow : F → F → F
  exp : F → F
  sqrt : F → F

/-- Modelled from the spec: the members of `glcm::parameters`
(`user_interface.h`) that the constructor reads: the resolution `R`, the state
dimension `d`, the time scale `T`, the depth scale `D`, the partition scale
`σ₀` and the initial state. -/
structure parameters (F : Type) where
  res : F
  state_dim : F
  time_scale : F
  depth_scale : F
  partition_scale : F
  x0 : List F

section scaling_functions
variable {F : Type} [LinearOrderedField F] [FloorRing F]

/-- The conversion of a `double` to `int`, which drops the fraction. -/
def trunc (a : F) : ℤ := if 0 ≤ a then ⌊a⌋ else ⌈a⌉

/-- The scaling functions of the constructor: `expand_time`, `depth_limit`,
`eta`, `partition_scale` and `eps`, in the order of the source.  `Lip_flow` is
the member of `dynamics`; `upper0`, `num0` and `d0` are as in `setup`. -/
def scaling (M : cmath F) (E : collaborators F) (Lip_flow : F) (params : parameters F)
    (controls : List (List F)) (upper0 : F) (num0 : ℤ) (d0 : List ℤ) : setup F :=
  let expand_time := params.time_scale / params.res
  let depth_limit := trunc (params.depth_scale * params.res * (⌊M.log params.res⌋ : F))
  let eta := M.log params.res * M.log params.res * M.pow params.res Lip_flow
    / params.partition_scale
  let partition_scale := eta / params.partition_scale
  let eps := if 0 < E.Lip_cost then
      (M.sqrt params.state_dim / partition_scale) * Lip_flow / E.Lip_cost
        * (params.res * M.exp Lip_flow - 1)
    else 0
  { x0 := params.x0
    controls := controls
    expand_time := expand_time
    depth_limit := depth_limit
    partition_scale := partition_scale
    eps := eps
    upper0 := upper0
    num0 := num0
    d0_coordinate := d0 }

/-- The constructor of `trajectory_planner` from the parameter bundle.  No
statement of the constructor tests a parameter, throws or returns early, so
the result is always a planner: `some`. -/
def build (M : cmath F) (E : collaborators F) (Lip_flow : F) (params : parameters F)
    (controls : List (List F)) (upper0 : F) (num0 : ℤ) (d0 : List ℤ) :
    Option (trajectory_planner F) :=
  some (construct E (scaling M E Lip_flow params controls upper0 num0 d0))

/-- A world in which every arc stays where it starts, at cost 1. -/
def still_world (F : Type) [LinearOrderedField F] [FloorRing F] : collaborators F :=
  { sim := fun t0 t1 x _ => ⟨[t0, t1], [x, x]⟩
    cost := fun _ _ => 1
    Lip_cost := 0
    cost_to_go := fun _ => 0
    collisionFree := fun _ => true
    inGoal := fun _ => (false, 0)
    address := fun _ _ => 0 }

end scaling_functions

/-! ## Invariants of the search -/

section invariants

variable {K : Type} [LinearOrderedCommRing K] [FloorRing K]

/-- The members that the loops of `expand` never assign have the same value
in `P` and `P1`. -/
def same_params (P P1 : trajectory_planner K) : Prop :=
  P1.eps = P.eps ∧ P1.depth_limit = P.depth_limit ∧ P1.expand_time = P.expand_time ∧
    P1.partition_scale = P.partition_scale ∧ P1.controls = P.controls ∧
    P1.root_ptr = P.root_ptr ∧ P1.iter = P.iter

/-- Slot `i` of node `p` holds the node `c`. -/
def slot (h : List (node K)) (p i c : ℕ) : Prop :=
  (deref h p).children[i]? = some (some c)

instance (h : List (node K)) (p i c : ℕ) : Decidable (slot h p i c) := by
  unfold slot
  infer_instance

/-- What holds of the planner between two calls of `expand`. -/
structure Inv (E : collaborators K) (P : trajectory_planner K) : Prop where
  root_ptr : P.root_ptr = 0
  root_lt : 0 < P.heap.length
  root_parent : (deref P.heap 0).parent = none
  root_depth : (deref P.heap 0).depth = 0
  queue_lt : ∀ q ∈ P.queue, q < P.heap.length
  cands_nil : ∀ d ∈ P.domain_labels, d.candidates = []
  label_lt : ∀ d ∈ P.domain_labels, ∀ l, d.label = some l → l < P.heap.length
  best_lt : ∀ l, P.best = some l → l < P.heap.length
  popped_lt : ∀ q ∈ P.hist_popped, q < P.heap.length
  pushed_lt : ∀ q ∈ P.hist_pushed, q < P.heap.length
  offered_lt : ∀ o ∈ P.hist_offered, o.child < P.heap.length
  admitted_lt : ∀ a ∈ P.hist_admitted, a.child < P.heap.length ∧ a.parent < P.heap.length ∧
    ∀ l, a.label = some l → l < P.heap.length
  slots : ∀ p i c, p < P.heap.length → slot P.heap p i c →
    c < P.heap.length ∧ (deref P.heap c).u_idx = i ∧ (deref P.heap c).parent = some p ∧
      (deref P.heap c).depth = (deref P.heap p).depth + 1 ∧
      ∃ a ∈ P.hist_admitted, a.child = c ∧ a.parent = p
  kids_len : ∀ p, p < P.heap.length → (deref P.heap p).children.length = P.controls.length
  admitted_parent : ∀ a ∈ P.hist_admitted, (deref P.heap a.child).parent = some a.parent ∧
    (deref P.heap a.child).depth = (deref P.heap a.parent).depth + 1
  merit_def : ∀ q, q < P.heap.length →
    (deref P.heap q).merit = (deref P.heap q).cost + E.cost_to_go (deref P.heap q).x
  coords_nodup : (P.domain_labels.map domain.coordinate).Nodup

/-- What holds inside the loops of `expand` while the node `cur` is expanded;
`P0` is the planner right after `cur` was popped and `tfp` is
`traj_from_parent`. -/
structure Mid (E : collaborators K) (cur : ℕ) (P0 : trajectory_planner K)
    (tfp : ℕ → traj K) (P : trajectory_planner K) : Prop where
  cur_lt : cur < P0.heap.length
  params : same_params P0 P
  len_le : P0.heap.length ≤ P.heap.length
  old : ∀ q, q < P0.heap.length → q ≠ cur → deref P.heap q = deref P0.heap q
  old_cur : (deref P.heap cur).parent = (deref P0.heap cur).parent ∧
    (deref P.heap cur).x = (deref P0.heap cur).x ∧
    (deref P.heap cur).cost = (deref P0.heap cur).cost ∧
    (deref P.heap cur).merit = (deref P0.heap cur).merit ∧
    (deref P.heap cur).t = (deref P0.heap cur).t ∧
    (deref P.heap cur).u_idx = (deref P0.heap cur).u_idx ∧
    (deref P.heap cur).depth = (deref P0.heap cur).depth
  fresh : ∀ c, P0.heap.length ≤ c → c < P.heap.length →
    c - P0.heap.length < P0.controls.length ∧
    tfp c = arc_of E P0 cur (c - P0.heap.length) ∧
    (deref P.heap c).cost = (arc_node E P0 cur (c - P0.heap.length)).cost ∧
    (deref P.heap c).merit = (arc_node E P0 cur (c - P0.heap.length)).merit ∧
    (deref P.heap c).x = (arc_node E P0 cur (c - P0.heap.length)).x ∧
    (deref P.heap c).u_idx = c - P0.heap.length ∧
    (deref P.heap c).children = List.replicate P0.controls.length none ∧
    ((deref P.heap c).parent = none ∨
      ((deref P.heap c).parent = some cur ∧
        (deref P.heap c).depth = (deref P0.heap cur).depth + 1))
  root_ptr : P.root_ptr = 0
  root_lt : 0 < P0.heap.length
  root_parent : (deref P.heap 0).parent = none
  root_depth : (deref P.heap 0).depth = 0
  queue_lt : ∀ q ∈ P.queue, q < P.heap.length
  queue_fresh : ∀ q ∈ P.queue, P0.heap.length ≤ q →
    (deref P.heap q).depth = (deref P0.heap cur).depth + 1
  cands_fresh : ∀ d ∈ P.domain_labels, ∀ c ∈ d.candidates,
    P0.heap.length ≤ c ∧ c < P.heap.length
  label_lt : ∀ d ∈ P.domain_labels, ∀ l, d.label = some l → l < P.heap.length
  best_lt : ∀ l, P.best = some l → l < P.heap.length
  popped_lt : ∀ q ∈ P.hist_popped, q < P.heap.length
  pushed_lt : ∀ q ∈ P.hist_pushed, q < P.heap.length
  offered_lt : ∀ o ∈ P.hist_offered, o.child < P.heap.length
  offered_fresh : ∀ o ∈ P.hist_offered, P0.heap.length ≤ o.child →
    o.arc = arc_of E P0 cur (o.child - P0.heap.length) ∧
    o.b = arc_coordinate E P0 cur (o.child - P0.heap.length)
  admitted_lt : ∀ a ∈ P.hist_admitted, a.child < P.heap.length ∧ a.parent < P0.heap.length ∧
    ∀ l, a.label = some l → l < P.heap.length
  admitted_fresh : ∀ a ∈ P.hist_admitted, P0.heap.length ≤ a.child → a.parent = cur
  slots : ∀ p i c, p < P.heap.length → slot P.heap p i c →
    c < P.heap.length ∧ (deref P.heap c).u_idx = i ∧ (deref P.heap c).parent = some p ∧
      (deref P.heap c).depth = (deref P.heap p).depth + 1 ∧
      ∃ a ∈ P.hist_admitted, a.child = c ∧ a.parent = p
  slot_fresh : ∀ p i c, p < P.heap.length → slot P.heap p i c → P0.heap.length ≤ c → p = cur
  kids_len : ∀ p, p < P.heap.length → (deref P.heap p).children.length = P.controls.length
  admitted_parent : ∀ a ∈ P.hist_admitted, (deref P.heap a.child).parent = some a.parent ∧
    (deref P.heap a.child).depth = (deref P.heap a.parent).depth + 1
  merit_def : ∀ q, q < P.heap.length →
    (deref P.heap q).merit = (deref P.heap q).cost + E.cost_to_go (deref P.heap q).x
  coords_nodup : (P.domain_labels.map domain.coordinate).Nodup

/-- `Mid` for the planner of a refresher, with its label and its candidates
valid as well. -/
def MidR (E : collaborators K) (cur : ℕ) (P0 : trajectory_planner K)
    (tfp : ℕ → traj K) (R : refresher K) : Prop :=
  Mid E cur P0 tfp R.P ∧ (∀ l, R.label = some l → l < R.P.heap.length) ∧
    ∀ c ∈ R.candidates, P0.heap.length ≤ c ∧ c < R.P.heap.length

end invariants

section claim_predicates
variable {K : Type} [LinearOrderedCommRing K] [FloorRing K]

/-- The nodes of the tree rooted at `root_ptr`: the root and the nodes held in
a child slot of a node of the tree. -/
inductive in_tree (P : trajectory_planner K) : ℕ → Prop
  | root : in_tree P P.root_ptr
  | child (p i c : ℕ) : in_tree P p → slot P.heap p i c → in_tree P c

/-- The node `n` was admitted: `add_child` was called with `n` as the child. -/
def admitted (P : trajectory_planner K) (n : ℕ) : Prop :=
  ∃ a ∈ P.hist_admitted, a.child = n

/-- Every admission recorded so far passed the threshold test against the
label its domain had at that moment. -/
def pruned (P : trajectory_planner K) : Prop :=
  ∀ a ∈ P.hist_admitted, below_label P.heap P.eps a.label (deref P.heap a.child).cost = true

/-- Every admission was made under a parent below the depth limit. -/
def shallow (h : List (node K)) (limit : ℤ) (P : trajectory_planner K) : Prop :=
  ∀ a ∈ P.hist_admitted, (deref h a.parent).depth < limit

/-- The cost of every admitted node is the cost of its arc under some control,
added to the cost of the node it was admitted under. -/
def additive (E : collaborators K) (P : trajectory_planner K) : Prop :=
  ∀ a ∈ P.hist_admitted, ∃ u,
    (deref P.heap a.child).cost = E.cost a.arc u + (deref P.heap a.parent).cost

/-- The goal flags agree: `foundGoal` is unset exactly when `best` is the
sentinel, `UPPER` then still has the value `U0`, a set `foundGoal` comes with
`live` unset, and `best` was admitted with a collision-free arc that was
reported in the goal. -/
def goal_consistent (E : collaborators K) (U0 : K) (P : trajectory_planner K) : Prop :=
  (P.foundGoal = false ↔ P.best = none) ∧ (P.best = none → P.UPPER = U0) ∧
    (P.foundGoal = true → P.live = false) ∧
    ∀ l, P.best = some l → ∃ a ∈ P.hist_admitted, a.child = l ∧
      E.collisionFree a.arc = true ∧ (E.inGoal a.arc).1 = true

/-- The merits of the nodes popped from the open queue, in the order of the
calls of `expand` that popped them. -/
def popped_merits (P : trajectory_planner K) : List K :=
  P.hist_popped.map (fun q => (deref P.heap q).merit)

/-- The popped merits never decrease. -/
def best_first (P : trajectory_planner K) : Prop :=
  List.Pairwise (fun a b => a ≤ b) (popped_merits P)

instance (P : trajectory_planner K) : Decidable (best_first P) := by
  unfold best_first
  infer_instance

/-- The arcs of a sequence of controls applied from state `x` at time `t`, each
over the duration `dt`, with the control of each. -/
def rollout (E : collaborators K) (dt : K) : K → List K → List (List K) → List (traj K × List K)
  | _, _, [] => []
  | t, x, u :: us =>
    (E.sim t (t + dt) x u, u) :: rollout E dt (t + dt) (E.sim t (t + dt) x u).back_state us

/-- The cost of a sequence of arcs. -/
def rollout_cost (E : collaborators K) (arcs : List (traj K × List K)) : K :=
  (arcs.map (fun a => E.cost a.1 a.2)).sum

/-- The last arc of a sequence is reported in the goal. -/
def reaches_goal (E : collaborators K) (arcs : List (traj K × List K)) : Prop :=
  ∃ a, arcs.getLast? = some a ∧ (E.inGoal a.1).1 = true

/-- The heuristic is admissible: it is a lower bound of the cost of every
sequence of controls of the grid `U` that reaches the goal. -/
def admissible (E : collaborators K) (dt : K) (U : List (List K)) : Prop :=
  ∀ t x us, (∀ u ∈ us, u ∈ U) → reaches_goal E (rollout E dt t x us) →
    E.cost_to_go x ≤ rollout_cost E (rollout E dt t x us)

/-- The open queue holds no node of smaller merit than a node popped before,
and the popped merits never decrease. -/
def queue_above (P : trajectory_planner K) : Prop :=
  best_first P ∧ ∀ q ∈ P.queue, ∀ p ∈ P.hist_popped,
    (deref P.heap p).merit ≤ (deref P.heap q).merit

/-- The number of nodes of a full tree with `m` children per node and `r`
levels below its root. -/
def tree_weight (m : ℕ) : ℕ → ℕ
  | 0 => 1
  | r + 1 => 1 + m * tree_weight m r

/-- The number of levels left below a node of depth `depth`. -/
def remaining (limit depth : ℤ) : ℕ := (limit - depth).toNat

/-- The weight of a node of the open queue: the size of the largest subtree
the search can still grow from it. -/
def node_weight (P : trajectory_planner K) (q : ℕ) : ℕ :=
  tree_weight P.controls.length (remaining P.depth_limit (deref P.heap q).depth)

/-- The weight of the open queue. -/
def potential (P : trajectory_planner K) : ℕ :=
  (P.queue.map (node_weight P)).sum

/-- The number of candidates waiting in the domains. -/
def pending (dl : List domain) : ℕ :=
  (dl.map (fun d => d.candidates.length)).sum

/-- The weight of a child of the node `cur` that is being expanded. -/
def child_weight (P0 : trajectory_planner K) (cur : ℕ) : ℕ :=
  tree_weight P0.controls.length (remaining P0.depth_limit ((deref P0.heap cur).depth + 1))

/-- The weight of a node of the open queue while `cur` is expanded, read from
the planner `P0` the expansion started with. -/
def weight_in (P0 : trajectory_planner K) (cur : ℕ) (q : ℕ) : ℕ :=
  if q < P0.heap.length then node_weight P0 q else child_weight P0 cur

/-- Why a call of `expand` on `Q` unsets `live`: the open queue is empty, the
node popped has reached the depth limit, or the call sets `foundGoal`. -/
def stop_reason (E : collaborators K) (Q : trajectory_planner K) : Prop :=
  Q.queue = [] ∨
    (∃ cur, pq_top (queue_order Q.heap) Q.queue = some cur ∧
      Q.depth_limit ≤ (deref Q.heap cur).depth) ∨
    (Q.foundGoal = false ∧ (expand E Q).foundGoal = true)

end claim_predicates

section goal_predicates
variable {K : Type} [LinearOrderedCommRing K] [FloorRing K]

/-- The node `best` costs no more than any admitted node whose arc was
reported in the goal. -/
def best_least (E : collaborators K) (P : trajectory_planner K) : Prop :=
  ∀ a ∈ P.hist_admitted, (E.inGoal a.arc).1 = true →
    ∃ b, P.best = some b ∧ (deref P.heap b).cost ≤ (deref P.heap a.child).cost

/-- The node `best` of `P1` is the one of `P`, or a node that costs strictly
less, the costs read in the heap `h`. -/
def best_drop (h : List (node K)) (P P1 : trajectory_planner K) : Prop :=
  P1.best = P.best ∨ ∃ b, P1.best = some b ∧ below_best h P.best (deref h b).cost = true

/-- The value of `UPPER` that goes with a recorded `best`: `best` was admitted
with an arc reported in the goal; where the reads of the tail cost of this arc
exist, `UPPER` is the cost of `best` less the tail cost, for the value the goal
collaborator left in `num`; and they exist in a planner without `fault`. -/
def upper_recorded (E : collaborators K) (P : trajectory_planner K) : Prop :=
  ∀ l, P.best = some l → ∃ a ∈ P.hist_admitted, a.child = l ∧ (E.inGoal a.arc).1 = true ∧
    (∀ tail, tail_cost E P.controls a.arc (E.inGoal a.arc).2 (deref P.heap l).u_idx = some tail →
      P.UPPER = (deref P.heap l).cost - tail) ∧
    (P.fault = false →
      (tail_cost E P.controls a.arc (E.inGoal a.arc).2 (deref P.heap l).u_idx).isSome = true)

end goal_predicates

section tail_predicates
variable {K : Type} [LinearOrderedCommRing K] [FloorRing K]

/-- The squared norm of a control vector. -/
def norm_sqr (u : List K) : K := (u.map sqr).sum

/-- The tail cost as the specification states it, for the index `k` of the
first sample in the goal: `(time.last - time[k]) * (1 + L_c * ‖U[u_idx]‖²)`;
`none` when `time[k]` or `U[u_idx]` does not exist. -/
def tail_spec (E : collaborators K) (controls : List (List K)) (τ : traj K) (k : ℤ)
    (u_idx : ℕ) : Option K :=
  (read_at τ.time k).bind fun tk =>
    (controls[u_idx]?).map fun u => (τ.back_time - tk) * (1 + E.Lip_cost * norm_sqr u)

/-- The call of `expand` on `P` stops early: the open queue is empty, or the
node at its top has reached the depth limit. -/
def stops_early (P : trajectory_planner K) : Prop :=
  P.queue = [] ∨ ∃ cur, pq_top (queue_order P.heap) P.queue = some cur ∧
    P.depth_limit ≤ (deref P.heap cur).depth

/-- The admission `a` is of a node that the call of `expand` on `P` created,
under the node this call popped, with the arc this call integrated for it. -/
def admitted_by (E : collaborators K) (P : trajectory_planner K) (a : admission K) : Prop :=
  ∃ cur, pq_top (queue_order P.heap) P.queue = some cur ∧ a.parent = cur ∧
    P.heap.length ≤ a.child ∧ a.child - P.heap.length < P.controls.length ∧
    a.arc = arc_of E P cur (a.child - P.heap.length)

end tail_predicates

section path_predicates
variable {K : Type} [LinearOrderedCommRing K] [FloorRing K]

/-- The node `c` is the root or was admitted. -/
def anchored (P : trajectory_planner K) (c : ℕ) : Prop := c = 0 ∨ admitted P c

/-- Every admitted node is younger than the node it was admitted under, which
is the root or was admitted itself; so is every node of the open queue. -/
def chained (P : trajectory_planner K) : Prop :=
  (∀ a ∈ P.hist_admitted, a.parent < a.child ∧ anchored P a.parent) ∧
    ∀ q ∈ P.queue, anchored P q

/-- Each node of `path` but the last has the next node of `path` as its
parent. -/
def parent_chain (h : List (node K)) : List ℕ → Prop
  | [] => True
  | [_] => True
  | c :: p :: l => (deref h c).parent = some p ∧ parent_chain h (p :: l)

end path_predicates

section order_predicates
variable {K : Type} [LinearOrderedCommRing K] [FloorRing K]

/-- Two sets of collaborators compute the same functions; the addresses of the
domain objects may differ. -/
def same_functions (E1 E2 : collaborators K) : Prop :=
  E1.sim = E2.sim ∧ E1.cost = E2.cost ∧ E1.Lip_cost = E2.Lip_cost ∧
    E1.cost_to_go = E2.cost_to_go ∧ E1.collisionFree = E2.collisionFree ∧
    E1.inGoal = E2.inGoal

/-- The addresses of the domain objects are in the same order in two runs. -/
def same_order (E1 E2 : collaborators K) : Prop :=
  ∀ (iter : ℤ) (a b : List ℤ),
    E1.address iter a ≤ E1.address iter b ↔ E2.address iter a ≤ E2.address iter b

end order_predicates

/-! ## Concrete planners

Small instances evaluated over the integers. -/

section runs

/-- A single integrator on the line, `x' = u`, with arcs of one time unit: the
cost of an arc is its duration `1`, the heuristic is zero, nothing collides, and
an arc is in the goal when it ends at `x = 3`. -/
def line_world : collaborators ℤ :=
  { sim := fun t0 t1 x u => ⟨[t0, t1], [x, List.zipWith (fun a b => a + b) x u]⟩
    cost := fun _ _ => 1
    Lip_cost := 0
    cost_to_go := fun _ => 0
    collisionFree := fun _ => true
    inGoal := fun τ => (decide (τ.back_state = [3]), 2)
    address := fun _ b => (b.headD 0).toNat }

/-- The line world searched from `x = 0` with the controls `1` and `2`, unit
cells and no tolerance. -/
def line_setup : setup ℤ :=
  { x0 := [0], controls := [[1], [2]], expand_time := 1, depth_limit := 3,
    partition_scale := 1, eps := 0, upper0 := 1000, num0 := 0, d0_coordinate := [0] }

/-- The line searched after one call of `expand`. -/
def line_1 : trajectory_planner ℤ := expand line_world (construct line_world line_setup)

/-- The line searched after two calls of `expand`. -/
def line_2 : trajectory_planner ℤ := expand line_world line_1

/-- The line world searched from `x = 0` with the single control `0`, which
keeps every node in the cell of the root, and tolerance `2`. -/
def hover_setup : setup ℤ :=
  { x0 := [0], controls := [[0]], expand_time := 1, depth_limit := 3,
    partition_scale := 1, eps := 2, upper0 := 1000, num0 := 0, d0_coordinate := [0] }

/-- The hovering search after one call of `expand`. -/
def hover_1 : trajectory_planner ℤ := expand line_world (construct line_world hover_setup)

/-- The hovering search after two calls of `expand`. -/
def hover_2 : trajectory_planner ℤ := expand line_world hover_1

/-- The line world with a goal at `x = 2` and a heuristic that is exact at
`x = 0` and zero elsewhere: admissible, but it drops by 2 along an arc of
cost 1. -/
def detour_world : collaborators ℤ :=
  { line_world with
    cost_to_go := fun x => if x = [0] then 2 else 0
    inGoal := fun τ => (decide (τ.back_state = [2]), 2) }

/-- The detour world searched from `x = 0` with the single control `1`. -/
def detour_setup : setup ℤ :=
  { x0 := [0], controls := [[1]], expand_time := 1, depth_limit := 5,
    partition_scale := 1, eps := 0, upper0 := 1000, num0 := 0, d0_coordinate := [0] }

/-- The detour search after one call of `expand`. -/
def detour_1 : trajectory_planner ℤ := expand detour_world (construct detour_world detour_setup)

/-- The detour search after two calls of `expand`. -/
def detour_2 : trajectory_planner ℤ := expand detour_world detour_1

end runs

section later_runs

/-- A current on the line that grows with time: an arc that starts at time
`t0` in `x` under the control `u` ends in `x + u + t0`.  The cost of an arc is
`1`, nothing collides, and an arc is in the goal when it ends at `x = 3`. -/
def wind_world : collaborators ℤ :=
  { sim := fun t0 t1 x u =>
      ⟨[t0, t1], [x, List.zipWith (fun a b => a + b + t0) x u]⟩
    cost := fun _ _ => 1
    Lip_cost := 0
    cost_to_go := fun _ => 0
    collisionFree := fun _ => true
    inGoal := fun τ => (decide (τ.back_state = [3]), 2)
    address := fun _ b => (b.headD 0).toNat }

/-- The wind world searched from `x = 0` with the single control `1`. -/
def wind_setup : setup ℤ :=
  { x0 := [0], controls := [[1]], expand_time := 1, depth_limit := 3,
    partition_scale := 1, eps := 0, upper0 := 1000, num0 := 0, d0_coordinate := [0] }

/-- The wind search after two calls of `expand`. -/
def wind_2 : trajectory_planner ℤ :=
  expand wind_world (expand wind_world (construct wind_world wind_setup))

/-- The line search with depth limit 0, as constructed. -/
def cutoff_0 : trajectory_planner ℤ :=
  construct line_world { line_setup with depth_limit := 0 }

/-- Arcs of two time units in the plane, sampled three times, under a control
with two components; an arc costs 10, the cost has Lipschitz constant 1, and an
arc is in the goal from its second sample on when it visits `(1, 2)`: the goal
collaborator leaves the index `1` of that sample in `num`. -/
def glide_world : collaborators ℤ :=
  { sim := fun t0 t1 x u =>
      ⟨[t0, t0 + 1, t1],
        [x, List.zipWith (fun a b => a + b) x u,
          List.zipWith (fun a b => a + b + b) x u]⟩
    cost := fun _ _ => 10
    Lip_cost := 1
    cost_to_go := fun _ => 0
    collisionFree := fun _ => true
    inGoal := fun τ => (decide ([1, 2] ∈ τ.states), 1)
    address := fun _ b => (b.headD 0).toNat }

/-- The glide world searched from the origin with the single control
`(1, 2)`. -/
def glide_setup : setup ℤ :=
  { x0 := [0, 0], controls := [[1, 2]], expand_time := 2, depth_limit := 3,
    partition_scale := 1, eps := 0, upper0 := 1000, num0 := 0, d0_coordinate := [0, 0] }

/-- The glide search after one call of `expand`. -/
def glide_1 : trajectory_planner ℤ := expand glide_world (construct glide_world glide_setup)

/-- Arcs of two time units on the line, sampled three times, `x' = u`; the cost
of an arc is its duration, nothing collides, and the goal is `x ≥ 2`: the goal
collaborator leaves in `num` the number of samples up to the first one in the
goal.  The domain objects lie in ascending order of their coordinate, or in
descending order when `flip` is set. -/
def fork_world (flip : Bool) : collaborators ℤ :=
  { sim := fun t0 t1 x u =>
      ⟨[t0, t0 + 1, t1],
        [x, List.zipWith (fun a b => a + b) x u,
          List.zipWith (fun a b => a + b + b) x u]⟩
    cost := fun _ _ => 2
    Lip_cost := 0
    cost_to_go := fun _ => 0
    collisionFree := fun _ => true
    inGoal := fun τ =>
      match τ.states.findIdx? (fun s => decide (2 ≤ s.headD 0)) with
      | some k => (true, k + 1)
      | none => (false, 0)
    address := fun _ b => if flip then (10 - b.headD 0).toNat else (b.headD 0).toNat }

/-- The fork world searched from `x = 0` with the controls `1` and `2`. -/
def fork_setup : setup ℤ :=
  { x0 := [0], controls := [[1], [2]], expand_time := 2, depth_limit := 3,
    partition_scale := 1, eps := 0, upper0 := 1000, num0 := 0, d0_coordinate := [0] }

/-- The fork search as constructed. -/
def fork_0 : trajectory_planner ℤ := construct (fork_world false) fork_setup

/-- The line world with its domain objects 64 addresses further on. -/
def line_world_moved : collaborators ℤ :=
  { line_world with address := fun _ b => (b.headD 0).toNat + 64 }

end later_runs

/-! ## Theorems -/

section basic
variable {K : Type} [LinearOrderedCommRing K] [FloorRing K]

theorem length_store (h : List (node K)) (p : ℕ) (f : node K → node K) :
    (store h p f).length = h.length := by
  simp [store]

theorem deref_store (h : List (node K)) (p : ℕ) (f : node K → node K) (q : ℕ) :
    deref (store h p f) q = if q = p ∧ p < h.length then f (deref h p) else deref h q := by
  have e1 : deref (store h p f) q = ((h.set p (f (deref h p)))[q]?).getD default := by
    simp [deref, store, List.getD_eq_getElem?_getD]
  have e2 : deref h q = (h[q]?).getD default := by
    simp [deref, List.getD_eq_getElem?_getD]
  rw [e1, e2, List.getElem?_set]
  by_cases hq : p = q
  · subst hq
    by_cases hl : p < h.length
    · simp [hl]
    · have hn : h[p]? = none := List.getElem?_eq_none (by omega)
      simp [hl, hn]
  · have hq2 : ¬ q = p := fun e => hq e.symm
    simp [hq, hq2]

theorem deref_append_left (h l : List (node K)) (q : ℕ) (hq : q < h.length) :
    deref (h ++ l) q = deref h q := by
  simp [deref, List.getD_eq_getElem?_getD, List.getElem?_append_left hq]

theorem deref_append_length (h : List (node K)) (c : node K) :
    deref (h ++ [c]) h.length = c := by
  simp [deref, List.getD_eq_getElem?_getD]

theorem pq_top_mem (f : ℕ → ℕ → Bool) :
    ∀ (l : List ℕ) (a : ℕ), pq_top f l = some a → a ∈ l
  | [], a, h => by simp [pq_top] at h
  | x :: l, a, h => by
    unfold pq_top at h
    cases hr : pq_top f l with
    | none =>
      rw [hr] at h
      simp at h
      simp [h]
    | some b =>
      rw [hr] at h
      have hb := pq_top_mem f l b hr
      by_cases hf : f b x = true
      · simp [hf] at h
        subst h
        simp [hb]
      · simp [hf] at h
        simp [h]

theorem pq_top_eq_none (f : ℕ → ℕ → Bool) (l : List ℕ) :
    pq_top f l = none ↔ l = [] := by
  cases l with
  | nil => simp [pq_top]
  | cons x l =>
    simp only [pq_top]
    cases pq_top f l with
    | none => simp
    | some b => by_cases hf : f b x = true <;> simp [hf]

theorem pq_top_first (f : ℕ → ℕ → Bool)
    (hirr : ∀ x, f x x = false) (hasym : ∀ x y, f x y = true → f y x = false)
    (hnt : ∀ x y z, f x z = true → f x y = true ∨ f y z = true) :
    ∀ (l : List ℕ) (a : ℕ), pq_top f l = some a → ∀ b ∈ l, f b a = false
  | [], a, h => by simp [pq_top] at h
  | x :: l, a, h => by
    unfold pq_top at h
    cases hr : pq_top f l with
    | none =>
      rw [hr] at h
      simp at h
      have hl := (pq_top_eq_none f l).1 hr
      subst hl
      subst h
      intro b hb
      simp at hb
      subst hb
      exact hirr _
    | some b0 =>
      rw [hr] at h
      have ih := pq_top_first f hirr hasym hnt l b0 hr
      by_cases hf : f b0 x = true
      · simp [hf] at h
        subst h
        intro b hb
        rcases List.mem_cons.1 hb with rfl | hb
        · exact hasym _ _ hf
        · exact ih b hb
      · simp [hf] at h
        subst h
        intro b hb
        rcases List.mem_cons.1 hb with rfl | hb
        · exact hirr _
        · by_contra hc
          have hc : f b x = true := by simpa using hc
          rcases hnt b b0 x hc with h1 | h1
          · rw [ih b hb] at h1
            exact absurd h1 (by simp)
          · exact hf h1

end basic

section frames
variable {K : Type} [LinearOrderedCommRing K] [FloorRing K]

/-! ### `add_child` -/

@[simp] theorem add_child_num (P : trajectory_planner K) (p c : ℕ) :
    (add_child P p c).num = P.num := rfl

@[simp] theorem add_child_best (P : trajectory_planner K) (p c : ℕ) :
    (add_child P p c).best = P.best := rfl

@[simp] theorem add_child_root_ptr (P : trajectory_planner K) (p c : ℕ) :
    (add_child P p c).root_ptr = P.root_ptr := rfl

@[simp] theorem add_child_queue (P : trajectory_planner K) (p c : ℕ) :
    (add_child P p c).queue = P.queue := rfl

@[simp] theorem add_child_domain_labels (P : trajectory_planner K) (p c : ℕ) :
    (add_child P p c).domain_labels = P.domain_labels := rfl

@[simp] theorem add_child_UPPER (P : trajectory_planner K) (p c : ℕ) :
    (add_child P p c).UPPER = P.UPPER := rfl

@[simp] theorem add_child_eps (P : trajectory_planner K) (p c : ℕ) :
    (add_child P p c).eps = P.eps := rfl

@[simp] theorem add_child_depth_limit (P : trajectory_planner K) (p c : ℕ) :
    (add_child P p c).depth_limit = P.depth_limit := rfl

@[simp] theorem add_child_expand_time (P : trajectory_planner K) (p c : ℕ) :
    (add_child P p c).expand_time = P.expand_time := rfl

@[simp] theorem add_child_partition_scale (P : trajectory_planner K) (p c : ℕ) :
    (add_child P p c).partition_scale = P.partition_scale := rfl

@[simp] theorem add_child_iter (P : trajectory_planner K) (p c : ℕ) :
    (add_child P p c).iter = P.iter := rfl

@[simp] theorem add_child_foundGoal (P : trajectory_planner K) (p c : ℕ) :
    (add_child P p c).foundGoal = P.foundGoal := rfl

@[simp] theorem add_child_live (P : trajectory_planner K) (p c : ℕ) :
    (add_child P p c).live = P.live := rfl

@[simp] theorem add_child_controls (P : trajectory_planner K) (p c : ℕ) :
    (add_child P p c).controls = P.controls := rfl

@[simp] theorem add_child_hist_popped (P : trajectory_planner K) (p c : ℕ) :
    (add_child P p c).hist_popped = P.hist_popped := rfl

@[simp] theorem add_child_hist_offered (P : trajectory_planner K) (p c : ℕ) :
    (add_child P p c).hist_offered = P.hist_offered := rfl

@[simp] theorem add_child_hist_admitted (P : trajectory_planner K) (p c : ℕ) :
    (add_child P p c).hist_admitted = P.hist_admitted := rfl

@[simp] theorem add_child_hist_pushed (P : trajectory_planner K) (p c : ℕ) :
    (add_child P p c).hist_pushed = P.hist_pushed := rfl


@[simp] theorem add_child_length (P : trajectory_planner K) (p c : ℕ) :
    (add_child P p c).heap.length = P.heap.length := by
  simp [add_child, length_store]

/-- The node at `q` after `add_child(p, c)`, in terms of the nodes before. -/
theorem deref_add_child (P : trajectory_planner K) (p c q : ℕ) :
    deref (add_child P p c).heap q =
      if q = p ∧ p < P.heap.length then
        if p = c then
          { deref P.heap c with
            parent := some p
            depth := (deref P.heap p).depth + 1
            t := (deref P.heap p).t + P.expand_time
            children := (deref P.heap c).children.set (deref P.heap c).u_idx (some c) }
        else
          { deref P.heap p with
            children := (deref P.heap p).children.set (deref P.heap c).u_idx (some c) }
      else if q = c ∧ c < P.heap.length then
        { deref P.heap c with
          parent := some p
          depth := (deref P.heap p).depth + 1
          t := (deref P.heap p).t + P.expand_time }
      else deref P.heap q := by
  simp only [add_child, deref_store, length_store]
  by_cases hqp : q = p <;> by_cases hqc : q = c <;> by_cases hpc : p = c <;>
    by_cases hp : p < P.heap.length <;> by_cases hc : c < P.heap.length <;>
    simp [hqp, hqc, hpc, hp, hc]

end frames

section control_loop
variable {K : Type} [LinearOrderedCommRing K] [FloorRing K]

theorem same_params_refl (P : trajectory_planner K) : same_params P P :=
  ⟨rfl, rfl, rfl, rfl, rfl, rfl, rfl⟩

theorem same_params_trans {P P1 P2 : trajectory_planner K} (h1 : same_params P P1)
    (h2 : same_params P1 P2) : same_params P P2 := by
  obtain ⟨a1, a2, a3, a4, a5, a6, a7⟩ := h1
  obtain ⟨b1, b2, b3, b4, b5, b6, b7⟩ := h2
  exact ⟨b1.trans a1, b2.trans a2, b3.trans a3, b4.trans a4, b5.trans a5, b6.trans a6,
    b7.trans a7⟩

theorem replicate_none_slot (n i c : ℕ) :
    ¬ (List.replicate n (none : Option ℕ))[i]? = some (some c) := by
  intro h
  have hm := List.getElem?_mem h
  simp [List.mem_replicate] at hm

theorem mem_insert_domain {dl : List domain} {b : List ℤ} {d : domain}
    (h : d ∈ insert_domain dl b) : d ∈ dl ∨ d = ⟨b, none, []⟩ := by
  unfold insert_domain at h
  split at h
  · exact Or.inl h
  · simpa using h

theorem mem_push_candidate {dl : List domain} {b : List ℤ} {c : ℕ} {d : domain}
    (h : d ∈ push_candidate dl b c) :
    ∃ d0 ∈ dl, d.coordinate = d0.coordinate ∧ d.label = d0.label ∧
      (d.candidates = d0.candidates ∨
        (d.candidates = d0.candidates ++ [c] ∧ d0.coordinate = b)) := by
  unfold push_candidate at h
  obtain ⟨d0, hd0, rfl⟩ := List.mem_map.1 h
  refine ⟨d0, hd0, ?_⟩
  by_cases hb : d0.coordinate = b <;> simp [hb]

theorem push_candidate_coords (dl : List domain) (b : List ℤ) (c : ℕ) :
    (push_candidate dl b c).map domain.coordinate = dl.map domain.coordinate := by
  unfold push_candidate
  rw [List.map_map]
  apply List.map_congr_left
  intro d _
  by_cases hb : d.coordinate = b <;> simp [hb]

theorem insert_domain_nodup {dl : List domain} (b : List ℤ)
    (h : (dl.map domain.coordinate).Nodup) :
    ((insert_domain dl b).map domain.coordinate).Nodup := by
  unfold insert_domain
  split
  · exact h
  · rename_i hn
    rw [List.map_append, List.nodup_append]
    refine ⟨h, by simp, ?_⟩
    intro x hx hx2
    simp only [List.map_cons, List.map_nil, List.mem_singleton] at hx2
    subst hx2
    obtain ⟨d, hd, hd2⟩ := List.mem_map.1 hx
    exact hn (List.any_eq_true.2 ⟨d, hd, by simpa using hd2⟩)

theorem simulate_coords_nodup {E : collaborators K} {cur : ℕ} {X : expansion K} (i : ℕ)
    (h : (X.P.domain_labels.map domain.coordinate).Nodup) :
    ((simulate E cur X i).P.domain_labels.map domain.coordinate).Nodup := by
  simp only [simulate]
  split
  · rw [push_candidate_coords]
    exact insert_domain_nodup _ h
  · exact insert_domain_nodup _ h

/-- Every domain after one pass of the first loop comes from a domain before
it or is the one just inserted, with at most the new arc appended to its
candidates. -/
theorem mem_simulate_domains {E : collaborators K} {cur : ℕ} {X : expansion K} {i : ℕ}
    {d : domain} (h : d ∈ (simulate E cur X i).P.domain_labels) :
    ∃ d0, (d0 ∈ X.P.domain_labels ∨ d0 = ⟨arc_coordinate E X.P cur i, none, []⟩) ∧
      d.coordinate = d0.coordinate ∧ d.label = d0.label ∧
      (d.candidates = d0.candidates ∨
        (d.candidates = d0.candidates ++ [X.P.heap.length] ∧
          d0.coordinate = arc_coordinate E X.P cur i)) := by
  simp only [simulate] at h
  split at h
  · obtain ⟨d0, hd0, h1, h2, h3⟩ := mem_push_candidate h
    exact ⟨d0, mem_insert_domain hd0, h1, h2, h3⟩
  · exact ⟨d, mem_insert_domain h, rfl, rfl, Or.inl rfl⟩

theorem arc_of_eq {E : collaborators K} {cur : ℕ} {P0 P : trajectory_planner K}
    {tfp : ℕ → traj K} (hM : Mid E cur P0 tfp P) (i : ℕ) :
    arc_of E P cur i = arc_of E P0 cur i := by
  obtain ⟨_, _, h3, _, h5, _, _⟩ := hM.params
  obtain ⟨_, hx, _, _, ht, _, _⟩ := hM.old_cur
  simp [arc_of, h3, h5, hx, ht]

theorem arc_node_eq {E : collaborators K} {cur : ℕ} {P0 P : trajectory_planner K}
    {tfp : ℕ → traj K} (hM : Mid E cur P0 tfp P) (i : ℕ) :
    arc_node E P cur i = arc_node E P0 cur i := by
  obtain ⟨_, _, h3, _, h5, _, _⟩ := hM.params
  obtain ⟨_, hx, hc, _, ht, _, _⟩ := hM.old_cur
  simp [arc_node, arc_of_eq hM, h5, hc]

theorem arc_coordinate_eq {E : collaborators K} {cur : ℕ} {P0 P : trajectory_planner K}
    {tfp : ℕ → traj K} (hM : Mid E cur P0 tfp P) (i : ℕ) :
    arc_coordinate E P cur i = arc_coordinate E P0 cur i := by
  obtain ⟨_, _, h3, h4, h5, _, _⟩ := hM.params
  simp [arc_coordinate, arc_of_eq hM, h4]

@[simp] theorem simulate_heap (E : collaborators K) (cur : ℕ) (X : expansion K) (i : ℕ) :
    (simulate E cur X i).P.heap = X.P.heap ++ [arc_node E X.P cur i] := rfl

@[simp] theorem simulate_tfp (E : collaborators K) (cur : ℕ) (X : expansion K) (i : ℕ) :
    (simulate E cur X i).traj_from_parent
      = Function.update X.traj_from_parent X.P.heap.length (arc_of E X.P cur i) := rfl

@[simp] theorem simulate_touched (E : collaborators K) (cur : ℕ) (X : expansion K) (i : ℕ) :
    (simulate E cur X i).domains_needing_update
      = insert_pointer X.domains_needing_update (arc_coordinate E X.P cur i) := rfl

@[simp] theorem simulate_offered (E : collaborators K) (cur : ℕ) (X : expansion K) (i : ℕ) :
    (simulate E cur X i).P.hist_offered = X.P.hist_offered ++
      [⟨arc_coordinate E X.P cur i, X.P.heap.length, arc_of E X.P cur i⟩] := rfl

@[simp] theorem simulate_queue (E : collaborators K) (cur : ℕ) (X : expansion K) (i : ℕ) :
    (simulate E cur X i).P.queue = X.P.queue := rfl

@[simp] theorem simulate_best (E : collaborators K) (cur : ℕ) (X : expansion K) (i : ℕ) :
    (simulate E cur X i).P.best = X.P.best := rfl

@[simp] theorem simulate_popped (E : collaborators K) (cur : ℕ) (X : expansion K) (i : ℕ) :
    (simulate E cur X i).P.hist_popped = X.P.hist_popped := rfl

@[simp] theorem simulate_pushed (E : collaborators K) (cur : ℕ) (X : expansion K) (i : ℕ) :
    (simulate E cur X i).P.hist_pushed = X.P.hist_pushed := rfl

@[simp] theorem simulate_admitted (E : collaborators K) (cur : ℕ) (X : expansion K) (i : ℕ) :
    (simulate E cur X i).P.hist_admitted = X.P.hist_admitted := rfl

@[simp] theorem simulate_controls (E : collaborators K) (cur : ℕ) (X : expansion K) (i : ℕ) :
    (simulate E cur X i).P.controls = X.P.controls := rfl

@[simp] theorem simulate_root_ptr (E : collaborators K) (cur : ℕ) (X : expansion K) (i : ℕ) :
    (simulate E cur X i).P.root_ptr = X.P.root_ptr := rfl

@[simp] theorem simulate_foundGoal (E : collaborators K) (cur : ℕ) (X : expansion K) (i : ℕ) :
    (simulate E cur X i).P.foundGoal = X.P.foundGoal := rfl

@[simp] theorem simulate_live (E : collaborators K) (cur : ℕ) (X : expansion K) (i : ℕ) :
    (simulate E cur X i).P.live = X.P.live := rfl

@[simp] theorem simulate_UPPER (E : collaborators K) (cur : ℕ) (X : expansion K) (i : ℕ) :
    (simulate E cur X i).P.UPPER = X.P.UPPER := rfl

@[simp] theorem simulate_eps (E : collaborators K) (cur : ℕ) (X : expansion K) (i : ℕ) :
    (simulate E cur X i).P.eps = X.P.eps := rfl

@[simp] theorem simulate_depth_limit (E : collaborators K) (cur : ℕ) (X : expansion K) (i : ℕ) :
    (simulate E cur X i).P.depth_limit = X.P.depth_limit := rfl

theorem simulate_same_params (E : collaborators K) (cur : ℕ) (X : expansion K) (i : ℕ) :
    same_params X.P (simulate E cur X i).P :=
  ⟨rfl, rfl, rfl, rfl, rfl, rfl, rfl⟩

theorem deref_snoc_lt {h : List (node K)} {c : node K} {q : ℕ} (hq : q < h.length) :
    deref (h ++ [c]) q = deref h q := deref_append_left h [c] q hq

/-- One pass of the first loop keeps `Mid`. -/
theorem mid_simulate {E : collaborators K} {cur : ℕ} {P0 : trajectory_planner K}
    {X : expansion K} {i : ℕ} (hM : Mid E cur P0 X.traj_from_parent X.P)
    (hlen : X.P.heap.length = P0.heap.length + i) (hi : i < P0.controls.length) :
    Mid E cur P0 (simulate E cur X i).traj_from_parent (simulate E cur X i).P := by
  have hcur : cur < X.P.heap.length := lt_of_lt_of_le hM.cur_lt hM.len_le
  have hctl : X.P.controls = P0.controls := hM.params.2.2.2.2.1
  constructor
  · exact hM.cur_lt
  · exact same_params_trans hM.params (simulate_same_params E cur X i)
  · simp only [simulate_heap, List.length_append, List.length_singleton]
    have := hM.len_le
    omega
  · intro q hq hne
    rw [simulate_heap, deref_snoc_lt (lt_of_lt_of_le hq hM.len_le)]
    exact hM.old q hq hne
  · rw [simulate_heap, deref_snoc_lt hcur]
    exact hM.old_cur
  · intro c hc1 hc2
    simp only [simulate_heap, List.length_append, List.length_singleton] at hc2
    by_cases hc : c < X.P.heap.length
    · have hne : c ≠ X.P.heap.length := by omega
      rw [simulate_heap, deref_snoc_lt hc, simulate_tfp, Function.update_noteq hne]
      exact hM.fresh c hc1 hc
    · have hce : c = X.P.heap.length := by omega
      subst hce
      have hsub : X.P.heap.length - P0.heap.length = i := by omega
      rw [simulate_heap, deref_append_length, simulate_tfp, Function.update_same, hsub,
        arc_node_eq hM, arc_of_eq hM]
      refine ⟨hi, rfl, rfl, rfl, rfl, ?_, ?_, Or.inl ?_⟩ <;> simp [arc_node, node_fresh]
  · exact hM.root_ptr
  · exact hM.root_lt
  · rw [simulate_heap, deref_snoc_lt (lt_of_lt_of_le hM.root_lt hM.len_le)]
    exact hM.root_parent
  · rw [simulate_heap, deref_snoc_lt (lt_of_lt_of_le hM.root_lt hM.len_le)]
    exact hM.root_depth
  · intro q hq
    have := hM.queue_lt q hq
    simp only [simulate_heap, List.length_append, List.length_singleton]
    omega
  · intro q hq hq2
    rw [simulate_heap, deref_snoc_lt (hM.queue_lt q hq)]
    exact hM.queue_fresh q hq hq2
  · intro d hd c hc
    simp only [simulate_heap, List.length_append, List.length_singleton]
    obtain ⟨d0, hd0, -, -, h3⟩ := mem_simulate_domains hd
    have hold : ∀ c ∈ d0.candidates, P0.heap.length ≤ c ∧ c < X.P.heap.length := by
      rcases hd0 with hd0 | hd0
      · exact hM.cands_fresh d0 hd0
      · subst hd0; simp
    rcases h3 with h3 | ⟨h3, -⟩
    · rw [h3] at hc
      have := hold c hc
      omega
    · rw [h3] at hc
      rcases List.mem_append.1 hc with hc | hc
      · have := hold c hc
        omega
      · simp at hc
        omega
  · intro d hd l hl
    simp only [simulate_heap, List.length_append, List.length_singleton]
    obtain ⟨d0, hd0, -, h2, -⟩ := mem_simulate_domains hd
    rw [h2] at hl
    rcases hd0 with hd0 | hd0
    · have := hM.label_lt d0 hd0 l hl
      omega
    · subst hd0
      simp at hl
  · intro l hl
    have := hM.best_lt l hl
    simp only [simulate_heap, List.length_append, List.length_singleton]
    omega
  · intro q hq
    have := hM.popped_lt q hq
    simp only [simulate_heap, List.length_append, List.length_singleton]
    omega
  · intro q hq
    have := hM.pushed_lt q hq
    simp only [simulate_heap, List.length_append, List.length_singleton]
    omega
  · intro o ho
    simp only [simulate_heap, List.length_append, List.length_singleton]
    simp only [simulate_offered, List.mem_append, List.mem_singleton] at ho
    rcases ho with ho | rfl
    · have := hM.offered_lt o ho
      omega
    · simp
  · intro o ho hge
    simp only [simulate_offered, List.mem_append, List.mem_singleton] at ho
    rcases ho with ho | rfl
    · exact hM.offered_fresh o ho hge
    · have hsub : X.P.heap.length - P0.heap.length = i := by omega
      simp only [hsub]
      exact ⟨arc_of_eq hM i, arc_coordinate_eq hM i⟩
  · intro a ha
    obtain ⟨h1, h2, h3⟩ := hM.admitted_lt a ha
    simp only [simulate_heap, List.length_append, List.length_singleton]
    refine ⟨by omega, h2, fun l hl => ?_⟩
    have := h3 l hl
    omega
  · exact hM.admitted_fresh
  · intro p j c hp hs
    simp only [simulate_heap, List.length_append, List.length_singleton] at hp ⊢
    by_cases hpl : p < X.P.heap.length
    · unfold slot at hs
      rw [simulate_heap, deref_snoc_lt hpl] at hs
      obtain ⟨h1, h2, h3, h4, h5⟩ := hM.slots p j c hpl hs
      rw [deref_snoc_lt h1, deref_snoc_lt hpl]
      exact ⟨by omega, h2, h3, h4, h5⟩
    · have hpe : p = X.P.heap.length := by omega
      subst hpe
      unfold slot at hs
      rw [simulate_heap, deref_append_length] at hs
      exact absurd hs (by simpa [arc_node, node_fresh] using replicate_none_slot _ j c)
  · intro p j c hp hs hge
    simp only [simulate_heap, List.length_append, List.length_singleton] at hp
    by_cases hpl : p < X.P.heap.length
    · unfold slot at hs
      rw [simulate_heap, deref_snoc_lt hpl] at hs
      exact hM.slot_fresh p j c hpl hs hge
    · have hpe : p = X.P.heap.length := by omega
      subst hpe
      unfold slot at hs
      rw [simulate_heap, deref_append_length] at hs
      exact absurd hs (by simpa [arc_node, node_fresh] using replicate_none_slot _ j c)
  · intro p hp
    simp only [simulate_heap, List.length_append, List.length_singleton] at hp
    by_cases hpl : p < X.P.heap.length
    · rw [simulate_heap, deref_snoc_lt hpl]
      exact hM.kids_len p hpl
    · have hpe : p = X.P.heap.length := by omega
      subst hpe
      rw [simulate_heap, deref_append_length]
      simp [arc_node, node_fresh]
  · intro a ha
    obtain ⟨h1, h2, -⟩ := hM.admitted_lt a ha
    rw [simulate_heap, deref_snoc_lt h1, deref_snoc_lt (lt_of_lt_of_le h2 hM.len_le)]
    exact hM.admitted_parent a ha
  · intro p hp
    simp only [simulate_heap, List.length_append, List.length_singleton] at hp
    by_cases hpl : p < X.P.heap.length
    · rw [simulate_heap, deref_snoc_lt hpl]
      exact hM.merit_def p hpl
    · have hpe : p = X.P.heap.length := by omega
      subst hpe
      rw [simulate_heap, deref_append_length]
      simp [arc_node]
  · exact simulate_coords_nodup i hM.coords_nodup

end control_loop

section refresh_frames
variable {K : Type} [LinearOrderedCommRing K] [FloorRing K]

@[simp] theorem push_open_heap (c : ℕ) (P : trajectory_planner K) :
    (push_open c P).heap = P.heap := by
  unfold push_open; split <;> rfl

@[simp] theorem push_open_num (c : ℕ) (P : trajectory_planner K) :
    (push_open c P).num = P.num := by
  unfold push_open; split <;> rfl

@[simp] theorem push_open_best (c : ℕ) (P : trajectory_planner K) :
    (push_open c P).best = P.best := by
  unfold push_open; split <;> rfl

@[simp] theorem push_open_root_ptr (c : ℕ) (P : trajectory_planner K) :
    (push_open c P).root_ptr = P.root_ptr := by
  unfold push_open; split <;> rfl

@[simp] theorem push_open_domain_labels (c : ℕ) (P : trajectory_planner K) :
    (push_open c P).domain_labels = P.domain_labels := by
  unfold push_open; split <;> rfl

@[simp] theorem push_open_UPPER (c : ℕ) (P : trajectory_planner K) :
    (push_open c P).UPPER = P.UPPER := by
  unfold push_open; split <;> rfl

@[simp] theorem push_open_eps (c : ℕ) (P : trajectory_planner K) :
    (push_open c P).eps = P.eps := by
  unfold push_open; split <;> rfl

@[simp] theorem push_open_depth_limit (c : ℕ) (P : trajectory_planner K) :
    (push_open c P).depth_limit = P.depth_limit := by
  unfold push_open; split <;> rfl

@[simp] theorem push_open_expand_time (c : ℕ) (P : trajectory_planner K) :
    (push_open c P).expand_time = P.expand_time := by
  unfold push_open; split <;> rfl

@[simp] theorem push_open_partition_scale (c : ℕ) (P : trajectory_planner K) :
    (push_open c P).partition_scale = P.partition_scale := by
  unfold push_open; split <;> rfl

@[simp] theorem push_open_iter (c : ℕ) (P : trajectory_planner K) :
    (push_open c P).iter = P.iter := by
  unfold push_open; split <;> rfl

@[simp] theorem push_open_foundGoal (c : ℕ) (P : trajectory_planner K) :
    (push_open c P).foundGoal = P.foundGoal := by
  unfold push_open; split <;> rfl

@[simp] theorem push_open_live (c : ℕ) (P : trajectory_planner K) :
    (push_open c P).live = P.live := by
  unfold push_open; split <;> rfl

@[simp] theorem push_open_controls (c : ℕ) (P : trajectory_planner K) :
    (push_open c P).controls = P.controls := by
  unfold push_open; split <;> rfl

@[simp] theorem push_open_hist_popped (c : ℕ) (P : trajectory_planner K) :
    (push_open c P).hist_popped = P.hist_popped := by
  unfold push_open; split <;> rfl

@[simp] theorem push_open_hist_offered (c : ℕ) (P : trajectory_planner K) :
    (push_open c P).hist_offered = P.hist_offered := by
  unfold push_open; split <;> rfl

@[simp] theorem push_open_hist_admitted (c : ℕ) (P : trajectory_planner K) :
    (push_open c P).hist_admitted = P.hist_admitted := by
  unfold push_open; split <;> rfl

theorem push_open_queue (c : ℕ) (P : trajectory_planner K) :
    (push_open c P).queue = if P.foundGoal then P.queue else P.queue ++ [c] := by
  unfold push_open; split <;> rfl

theorem push_open_hist_pushed (c : ℕ) (P : trajectory_planner K) :
    (push_open c P).hist_pushed = if P.foundGoal then P.hist_pushed else P.hist_pushed ++ [c] := by
  unfold push_open; split <;> rfl

@[simp] theorem goal_check_heap (E : collaborators K) (τ : traj K) (c : ℕ)
    (P : trajectory_planner K) : (goal_check E τ c P).heap = P.heap := by
  simp only [goal_check]; split <;> rfl

@[simp] theorem goal_check_root_ptr (E : collaborators K) (τ : traj K) (c : ℕ)
    (P : trajectory_planner K) : (goal_check E τ c P).root_ptr = P.root_ptr := by
  simp only [goal_check]; split <;> rfl

@[simp] theorem goal_check_queue (E : collaborators K) (τ : traj K) (c : ℕ)
    (P : trajectory_planner K) : (goal_check E τ c P).queue = P.queue := by
  simp only [goal_check]; split <;> rfl

@[simp] theorem goal_check_domain_labels (E : collaborators K) (τ : traj K) (c : ℕ)
    (P : trajectory_planner K) : (goal_check E τ c P).domain_labels = P.domain_labels := by
  simp only [goal_check]; split <;> rfl

@[simp] theorem goal_check_eps (E : collaborators K) (τ : traj K) (c : ℕ)
    (P : trajectory_planner K) : (goal_check E τ c P).eps = P.eps := by
  simp only [goal_check]; split <;> rfl

@[simp] theorem goal_check_depth_limit (E : collaborators K) (τ : traj K) (c : ℕ)
    (P : trajectory_planner K) : (goal_check E τ c P).depth_limit = P.depth_limit := by
  simp only [goal_check]; split <;> rfl

@[simp] theorem goal_check_expand_time (E : collaborators K) (τ : traj K) (c : ℕ)
    (P : trajectory_planner K) : (goal_check E τ c P).expand_time = P.expand_time := by
  simp only [goal_check]; split <;> rfl

@[simp] theorem goal_check_partition_scale (E : collaborators K) (τ : traj K) (c : ℕ)
    (P : trajectory_planner K) : (goal_check E τ c P).partition_scale = P.partition_scale := by
  simp only [goal_check]; split <;> rfl

@[simp] theorem goal_check_iter (E : collaborators K) (τ : traj K) (c : ℕ)
    (P : trajectory_planner K) : (goal_check E τ c P).iter = P.iter := by
  simp only [goal_check]; split <;> rfl

@[simp] theorem goal_check_controls (E : collaborators K) (τ : traj K) (c : ℕ)
    (P : trajectory_planner K) : (goal_check E τ c P).controls = P.controls := by
  simp only [goal_check]; split <;> rfl

@[simp] theorem goal_check_hist_popped (E : collaborators K) (τ : traj K) (c : ℕ)
    (P : trajectory_planner K) : (goal_check E τ c P).hist_popped = P.hist_popped := by
  simp only [goal_check]; split <;> rfl

@[simp] theorem goal_check_hist_offered (E : collaborators K) (τ : traj K) (c : ℕ)
    (P : trajectory_planner K) : (goal_check E τ c P).hist_offered = P.hist_offered := by
  simp only [goal_check]; split <;> rfl

@[simp] theorem goal_check_hist_admitted (E : collaborators K) (τ : traj K) (c : ℕ)
    (P : trajectory_planner K) : (goal_check E τ c P).hist_admitted = P.hist_admitted := by
  simp only [goal_check]; split <;> rfl

@[simp] theorem goal_check_hist_pushed (E : collaborators K) (τ : traj K) (c : ℕ)
    (P : trajectory_planner K) : (goal_check E τ c P).hist_pushed = P.hist_pushed := by
  simp only [goal_check]; split <;> rfl

theorem goal_check_best (E : collaborators K) (τ : traj K) (c : ℕ) (P : trajectory_planner K) :
    (goal_check E τ c P).best
      = if ((E.inGoal τ).1 && below_best P.heap P.best (deref P.heap c).cost) = true
        then some c else P.best := by
  simp only [goal_check]; split <;> rfl

theorem goal_check_foundGoal (E : collaborators K) (τ : traj K) (c : ℕ)
    (P : trajectory_planner K) :
    (goal_check E τ c P).foundGoal
      = if ((E.inGoal τ).1 && below_best P.heap P.best (deref P.heap c).cost) = true
        then true else P.foundGoal := by
  simp only [goal_check]; split <;> rfl

theorem goal_check_live (E : collaborators K) (τ : traj K) (c : ℕ)
    (P : trajectory_planner K) :
    (goal_check E τ c P).live
      = if ((E.inGoal τ).1 && below_best P.heap P.best (deref P.heap c).cost) = true
        then false else P.live := by
  simp only [goal_check]; split <;> rfl

theorem goal_check_UPPER (E : collaborators K) (τ : traj K) (c : ℕ)
    (P : trajectory_planner K) :
    (goal_check E τ c P).UPPER
      = if ((E.inGoal τ).1 && below_best P.heap P.best (deref P.heap c).cost) = true
        then
          match tail_cost E P.controls τ (E.inGoal τ).2 (deref P.heap c).u_idx with
          | some tail => (deref P.heap c).cost - tail
          | none => P.UPPER
        else P.UPPER := by
  simp only [goal_check]
  by_cases h : ((E.inGoal τ).1 && below_best P.heap P.best (deref P.heap c).cost) = true
  · rw [if_pos h, if_pos h]
  · rw [if_neg h, if_neg h]

theorem goal_check_fault (E : collaborators K) (τ : traj K) (c : ℕ)
    (P : trajectory_planner K) :
    (goal_check E τ c P).fault
      = if ((E.inGoal τ).1 && below_best P.heap P.best (deref P.heap c).cost) = true
        then P.fault || (tail_cost E P.controls τ (E.inGoal τ).2 (deref P.heap c).u_idx).isNone
        else P.fault := by
  simp only [goal_check]
  by_cases h : ((E.inGoal τ).1 && below_best P.heap P.best (deref P.heap c).cost) = true
  · rw [if_pos h, if_pos h]
  · rw [if_neg h, if_neg h]

@[simp] theorem admit_candidate_root_ptr (E : collaborators K) (cur : ℕ) (tfp : ℕ → traj K)
    (b : List ℤ) (R : refresher K) (curr : ℕ) :
    (admit_candidate E cur tfp b R curr).P.root_ptr = R.P.root_ptr := by
  simp [admit_candidate]

@[simp] theorem admit_candidate_domain_labels (E : collaborators K) (cur : ℕ) (tfp : ℕ → traj K)
    (b : List ℤ) (R : refresher K) (curr : ℕ) :
    (admit_candidate E cur tfp b R curr).P.domain_labels = R.P.domain_labels := by
  simp [admit_candidate]

@[simp] theorem admit_candidate_eps (E : collaborators K) (cur : ℕ) (tfp : ℕ → traj K)
    (b : List ℤ) (R : refresher K) (curr : ℕ) :
    (admit_candidate E cur tfp b R curr).P.eps = R.P.eps := by
  simp [admit_candidate]

@[simp] theorem admit_candidate_depth_limit (E : collaborators K) (cur : ℕ) (tfp : ℕ → traj K)
    (b : List ℤ) (R : refresher K) (curr : ℕ) :
    (admit_candidate E cur tfp b R curr).P.depth_limit = R.P.depth_limit := by
  simp [admit_candidate]

@[simp] theorem admit_candidate_expand_time (E : collaborators K) (cur : ℕ) (tfp : ℕ → traj K)
    (b : List ℤ) (R : refresher K) (curr : ℕ) :
    (admit_candidate E cur tfp b R curr).P.expand_time = R.P.expand_time := by
  simp [admit_candidate]

@[simp] theorem admit_candidate_partition_scale (E : collaborators K) (cur : ℕ) (tfp : ℕ → traj K)
    (b : List ℤ) (R : refresher K) (curr : ℕ) :
    (admit_candidate E cur tfp b R curr).P.partition_scale = R.P.partition_scale := by
  simp [admit_candidate]

@[simp] theorem admit_candidate_iter (E : collaborators K) (cur : ℕ) (tfp : ℕ → traj K)
    (b : List ℤ) (R : refresher K) (curr : ℕ) :
    (admit_candidate E cur tfp b R curr).P.iter = R.P.iter := by
  simp [admit_candidate]

@[simp] theorem admit_candidate_controls (E : collaborators K) (cur : ℕ) (tfp : ℕ → traj K)
    (b : List ℤ) (R : refresher K) (curr : ℕ) :
    (admit_candidate E cur tfp b R curr).P.controls = R.P.controls := by
  simp [admit_candidate]

@[simp] theorem admit_candidate_hist_popped (E : collaborators K) (cur : ℕ) (tfp : ℕ → traj K)
    (b : List ℤ) (R : refresher K) (curr : ℕ) :
    (admit_candidate E cur tfp b R curr).P.hist_popped = R.P.hist_popped := by
  simp [admit_candidate]

@[simp] theorem admit_candidate_hist_offered (E : collaborators K) (cur : ℕ) (tfp : ℕ → traj K)
    (b : List ℤ) (R : refresher K) (curr : ℕ) :
    (admit_candidate E cur tfp b R curr).P.hist_offered = R.P.hist_offered := by
  simp [admit_candidate]

@[simp] theorem admit_candidate_heap (E : collaborators K) (cur : ℕ) (tfp : ℕ → traj K)
    (b : List ℤ) (R : refresher K) (curr : ℕ) :
    (admit_candidate E cur tfp b R curr).P.heap = (add_child R.P cur curr).heap := by
  simp [admit_candidate]

@[simp] theorem admit_candidate_hist_admitted (E : collaborators K) (cur : ℕ) (tfp : ℕ → traj K)
    (b : List ℤ) (R : refresher K) (curr : ℕ) :
    (admit_candidate E cur tfp b R curr).P.hist_admitted
      = R.P.hist_admitted ++ [⟨b, R.label, cur, curr, tfp curr⟩] := by
  simp [admit_candidate]

theorem admit_candidate_queue (E : collaborators K) (cur : ℕ) (tfp : ℕ → traj K)
    (b : List ℤ) (R : refresher K) (curr : ℕ) :
    (admit_candidate E cur tfp b R curr).P.queue
      = if R.P.foundGoal then R.P.queue else R.P.queue ++ [curr] := by
  simp [admit_candidate, push_open_queue]

theorem admit_candidate_hist_pushed (E : collaborators K) (cur : ℕ) (tfp : ℕ → traj K)
    (b : List ℤ) (R : refresher K) (curr : ℕ) :
    (admit_candidate E cur tfp b R curr).P.hist_pushed
      = if R.P.foundGoal then R.P.hist_pushed else R.P.hist_pushed ++ [curr] := by
  simp [admit_candidate, push_open_hist_pushed]

theorem admit_candidate_best (E : collaborators K) (cur : ℕ) (tfp : ℕ → traj K)
    (b : List ℤ) (R : refresher K) (curr : ℕ) :
    (admit_candidate E cur tfp b R curr).P.best = R.P.best ∨
      (admit_candidate E cur tfp b R curr).P.best = some curr := by
  simp only [admit_candidate, goal_check_best]
  split
  · exact Or.inr rfl
  · exact Or.inl (by simp)

@[simp] theorem admit_candidate_label (E : collaborators K) (cur : ℕ) (tfp : ℕ → traj K)
    (b : List ℤ) (R : refresher K) (curr : ℕ) :
    (admit_candidate E cur tfp b R curr).label
      = if R.found_best then R.label else some curr := rfl

@[simp] theorem admit_candidate_found_best (E : collaborators K) (cur : ℕ) (tfp : ℕ → traj K)
    (b : List ℤ) (R : refresher K) (curr : ℕ) :
    (admit_candidate E cur tfp b R curr).found_best = true := rfl

theorem admit_candidate_same_params (E : collaborators K) (cur : ℕ) (tfp : ℕ → traj K)
    (b : List ℤ) (R : refresher K) (curr : ℕ) :
    same_params R.P (admit_candidate E cur tfp b R curr).P := by
  simp [same_params]

/-- The nodes after `add_child(cur, curr)` for an old node `cur` and a new
arc `curr`. -/
theorem deref_admit (P : trajectory_planner K) {cur curr : ℕ} (hne : cur ≠ curr)
    (h1 : cur < P.heap.length) (h2 : curr < P.heap.length) (q : ℕ) :
    deref (add_child P cur curr).heap q =
      if q = cur then
        { deref P.heap cur with
          children := (deref P.heap cur).children.set (deref P.heap curr).u_idx (some curr) }
      else if q = curr then
        { deref P.heap curr with
          parent := some cur
          depth := (deref P.heap cur).depth + 1
          t := (deref P.heap cur).t + P.expand_time }
      else deref P.heap q := by
  rw [deref_add_child]
  simp [hne, h1, h2]

end refresh_frames

section refresh_loop_inv
variable {K : Type} [LinearOrderedCommRing K] [FloorRing K]

/-- Admitting a candidate keeps `Mid`. -/
theorem midR_admit {E : collaborators K} {cur : ℕ} {P0 : trajectory_planner K}
    {tfp : ℕ → traj K} {R : refresher K} (hR : MidR E cur P0 tfp R) (b : List ℤ) {curr : ℕ}
    (hc : curr ∈ R.candidates) :
    MidR E cur P0 tfp (admit_candidate E cur tfp b R curr) := by
  obtain ⟨hM, hlab, hcands⟩ := hR
  obtain ⟨hge, hlt⟩ := hcands curr hc
  have hcur : cur < R.P.heap.length := lt_of_lt_of_le hM.cur_lt hM.len_le
  have hne : cur ≠ curr := by have := hM.cur_lt; omega
  have hne2 : curr ≠ cur := fun e => hne e.symm
  have hD := deref_admit R.P hne hcur hlt
  obtain ⟨hf1, hf2, hf3, hf4, hf5, hf6, hf7, hf8⟩ := hM.fresh curr hge hlt
  have hlen : (admit_candidate E cur tfp b R curr).P.heap.length = R.P.heap.length := by simp
  refine ⟨?_, ?_, ?_⟩
  · constructor
    · exact hM.cur_lt
    · exact same_params_trans hM.params (admit_candidate_same_params E cur tfp b R curr)
    · rw [hlen]; exact hM.len_le
    · intro q hq hqc
      have hq2 : q ≠ curr := by omega
      rw [admit_candidate_heap, hD, if_neg hqc, if_neg hq2]
      exact hM.old q hq hqc
    · rw [admit_candidate_heap, hD, if_pos rfl]
      exact hM.old_cur
    · intro c hc1 hc2
      rw [hlen] at hc2
      have hcc : c ≠ cur := by have := hM.cur_lt; omega
      obtain ⟨g1, g2, g3, g4, g5, g6, g7, g8⟩ := hM.fresh c hc1 hc2
      rw [admit_candidate_heap, hD, if_neg hcc]
      by_cases hce : c = curr
      · subst hce
        rw [if_pos rfl]
        exact ⟨g1, g2, g3, g4, g5, g6, g7, Or.inr ⟨rfl, by simp [hM.old_cur.2.2.2.2.2.2]⟩⟩
      · rw [if_neg hce]
        exact ⟨g1, g2, g3, g4, g5, g6, g7, g8⟩
    · simpa using hM.root_ptr
    · exact hM.root_lt
    · have h0 : (0 : ℕ) ≠ curr := by have := hM.root_lt; omega
      rw [admit_candidate_heap, hD]
      by_cases h0c : 0 = cur
      · rw [if_pos h0c]
        subst h0c
        exact hM.root_parent
      · rw [if_neg h0c, if_neg h0]
        exact hM.root_parent
    · have h0 : (0 : ℕ) ≠ curr := by have := hM.root_lt; omega
      rw [admit_candidate_heap, hD]
      by_cases h0c : 0 = cur
      · rw [if_pos h0c]
        subst h0c
        exact hM.root_depth
      · rw [if_neg h0c, if_neg h0]
        exact hM.root_depth
    · intro q hq
      rw [hlen]
      rw [admit_candidate_queue] at hq
      split at hq
      · exact hM.queue_lt q hq
      · rcases List.mem_append.1 hq with hq | hq
        · exact hM.queue_lt q hq
        · simp at hq; omega
    · intro q hq hq2
      have hqc : q ≠ cur := by have := hM.cur_lt; omega
      rw [admit_candidate_heap, hD, if_neg hqc]
      by_cases hqe : q = curr
      · rw [if_pos hqe]
        simp [hM.old_cur.2.2.2.2.2.2]
      · rw [if_neg hqe]
        rw [admit_candidate_queue] at hq
        split at hq
        · exact hM.queue_fresh q hq hq2
        · rcases List.mem_append.1 hq with hq | hq
          · exact hM.queue_fresh q hq hq2
          · simp at hq; exact absurd hq hqe
    · intro d hd c hc
      rw [hlen]
      exact hM.cands_fresh d (by simpa using hd) c hc
    · intro d hd l hl
      rw [hlen]
      exact hM.label_lt d (by simpa using hd) l hl
    · intro l hl
      rw [hlen]
      rcases admit_candidate_best E cur tfp b R curr with h | h
      · rw [h] at hl
        exact hM.best_lt l hl
      · rw [h] at hl
        simp at hl
        omega
    · intro q hq
      rw [hlen]
      exact hM.popped_lt q (by simpa using hq)
    · intro q hq
      rw [hlen]
      rw [admit_candidate_hist_pushed] at hq
      split at hq
      · exact hM.pushed_lt q hq
      · rcases List.mem_append.1 hq with hq | hq
        · exact hM.pushed_lt q hq
        · simp at hq; omega
    · intro o ho
      rw [hlen]
      exact hM.offered_lt o (by simpa using ho)
    · intro o ho hge
      exact hM.offered_fresh o (by simpa using ho) hge
    · intro a ha
      rw [hlen]
      simp only [admit_candidate_hist_admitted, List.mem_append, List.mem_singleton] at ha
      rcases ha with ha | rfl
      · exact hM.admitted_lt a ha
      · exact ⟨hlt, hM.cur_lt, hlab⟩
    · intro a ha hge
      simp only [admit_candidate_hist_admitted, List.mem_append, List.mem_singleton] at ha
      rcases ha with ha | rfl
      · exact hM.admitted_fresh a ha hge
      · rfl
    · intro p j c hp hs
      rw [hlen] at hp ⊢
      unfold slot at hs
      simp only [admit_candidate_heap, hD] at hs ⊢
      by_cases hpc : p = cur
      · subst hpc
        rw [if_pos rfl] at hs
        simp only [List.getElem?_set] at hs
        by_cases hj : (deref R.P.heap curr).u_idx = j
        · rw [if_pos hj] at hs
          split at hs
          · simp only [Option.some.injEq] at hs
            subst hs
            refine ⟨hlt, ?_, ?_, ?_, ⟨b, R.label, p, curr, tfp curr⟩, by simp, rfl, rfl⟩ <;>
              simp [hne2, hj]
          · exact absurd hs (by simp)
        · rw [if_neg hj] at hs
          obtain ⟨k1, k2, k3, k4, k5⟩ := hM.slots p j c hcur hs
          have hcc : c ≠ curr := by
            rintro rfl
            exact hj k2
          have hcp : c ≠ p := by
            rintro rfl
            omega
          rw [if_neg hcp, if_neg hcc]
          obtain ⟨a, ha, ha2⟩ := k5
          exact ⟨k1, k2, k3, by simpa using k4, a, by simp [ha], ha2⟩
      · rw [if_neg hpc] at hs
        have hpc2 : p ≠ curr := by
          rintro rfl
          rw [if_pos rfl] at hs
          simp only [hf7] at hs
          exact replicate_none_slot _ _ _ hs
        rw [if_neg hpc2] at hs
        obtain ⟨k1, k2, k3, k4, k5⟩ := hM.slots p j c hp hs
        have hcc : c ≠ curr := by
          rintro rfl
          exact hpc (hM.slot_fresh p j c hp hs hge)
        obtain ⟨a, ha, ha2⟩ := k5
        rw [if_neg hpc, if_neg hpc2, if_neg hcc]
        by_cases hcp : c = cur
        · rw [if_pos hcp]
          subst hcp
          exact ⟨k1, k2, k3, k4, a, by simp [ha], ha2⟩
        · rw [if_neg hcp]
          exact ⟨k1, k2, k3, k4, a, by simp [ha], ha2⟩
    · intro p j c hp hs hge2
      rw [hlen] at hp
      unfold slot at hs
      simp only [admit_candidate_heap, hD] at hs
      by_contra hpc
      rw [if_neg hpc] at hs
      have hpc2 : p ≠ curr := by
        rintro rfl
        rw [if_pos rfl] at hs
        simp only [hf7] at hs
        exact replicate_none_slot _ _ _ hs
      rw [if_neg hpc2] at hs
      exact hpc (hM.slot_fresh p j c hp hs hge2)
    · intro p hp
      rw [hlen] at hp
      simp only [admit_candidate_heap, hD, admit_candidate_controls]
      by_cases hpc : p = cur
      · rw [if_pos hpc]
        subst hpc
        simpa using hM.kids_len p hp
      · rw [if_neg hpc]
        by_cases hpc2 : p = curr
        · rw [if_pos hpc2]
          subst hpc2
          exact hM.kids_len p hp
        · rw [if_neg hpc2]
          exact hM.kids_len p hp
    · intro a ha
      simp only [admit_candidate_hist_admitted, List.mem_append, List.mem_singleton] at ha
      simp only [admit_candidate_heap, hD]
      rcases ha with ha | rfl
      · obtain ⟨k1, k2, -⟩ := hM.admitted_lt a ha
        obtain ⟨k3, k4⟩ := hM.admitted_parent a ha
        have hpc : a.parent ≠ curr := by omega
        by_cases hcc : a.child = curr
        · have hpar := hM.admitted_fresh a ha (by omega)
          rw [if_neg (by omega : ¬ a.child = cur), if_pos hcc, if_pos hpar]
          simp [hpar]
        · by_cases hcp : a.child = cur
          · rw [if_pos hcp]
            by_cases hpp : a.parent = cur
            · rw [if_pos hpp]
              rw [hcp] at k3 k4
              rw [hpp] at k4
              exact ⟨k3, k4⟩
            · rw [if_neg hpp, if_neg hpc]
              rw [hcp] at k3 k4
              exact ⟨k3, k4⟩
          · rw [if_neg hcp, if_neg hcc]
            by_cases hpp : a.parent = cur
            · rw [if_pos hpp]
              rw [hpp] at k4
              exact ⟨k3, k4⟩
            · rw [if_neg hpp, if_neg hpc]
              exact ⟨k3, k4⟩
      · simp [hne2]
    · intro p hp
      rw [hlen] at hp
      simp only [admit_candidate_heap, hD]
      have := hM.merit_def p hp
      by_cases hpc : p = cur
      · rw [if_pos hpc]
        subst hpc
        exact this
      · rw [if_neg hpc]
        by_cases hpc2 : p = curr
        · rw [if_pos hpc2]
          subst hpc2
          exact this
        · rw [if_neg hpc2]
          exact this
    · simpa using hM.coords_nodup
  · intro l hl
    rw [hlen]
    rw [admit_candidate_label] at hl
    split at hl
    · exact hlab l hl
    · simp at hl
      omega
  · intro c hc
    rw [hlen]
    exact hcands c hc

end refresh_loop_inv

section refresh_all
variable {K : Type} [LinearOrderedCommRing K] [FloorRing K]

/-- The body of the `while` loop either leaves the refresher as it is or
admits the candidate, which then passed both tests. -/
theorem refresh_body_cases (E : collaborators K) (cur : ℕ) (tfp : ℕ → traj K) (b : List ℤ)
    (R : refresher K) (curr : ℕ) :
    (refresh_body E cur tfp b R curr = R ∧
      ¬ (below_label R.P.heap R.P.eps R.label (deref R.P.heap curr).cost = true ∧
        E.collisionFree (tfp curr) = true)) ∨
    (below_label R.P.heap R.P.eps R.label (deref R.P.heap curr).cost = true ∧
      E.collisionFree (tfp curr) = true ∧
      refresh_body E cur tfp b R curr = admit_candidate E cur tfp b R curr) := by
  unfold refresh_body
  by_cases h1 : below_label R.P.heap R.P.eps R.label (deref R.P.heap curr).cost = true
  · by_cases h2 : E.collisionFree (tfp curr) = true
    · exact Or.inr ⟨h1, h2, by simp [h1, h2]⟩
    · exact Or.inl ⟨by simp [h1, h2], by simp [h2]⟩
  · exact Or.inl ⟨by simp [h1], by simp [h1]⟩

@[simp] theorem refresh_body_candidates (E : collaborators K) (cur : ℕ) (tfp : ℕ → traj K)
    (b : List ℤ) (R : refresher K) (curr : ℕ) :
    (refresh_body E cur tfp b R curr).candidates = R.candidates := by
  rcases refresh_body_cases E cur tfp b R curr with ⟨h, -⟩ | ⟨-, -, h⟩ <;> rw [h]
  rfl

@[simp] theorem refresh_body_domain_labels (E : collaborators K) (cur : ℕ) (tfp : ℕ → traj K)
    (b : List ℤ) (R : refresher K) (curr : ℕ) :
    (refresh_body E cur tfp b R curr).P.domain_labels = R.P.domain_labels := by
  rcases refresh_body_cases E cur tfp b R curr with ⟨h, -⟩ | ⟨-, -, h⟩ <;> rw [h]
  simp

/-- Induction over the iterations of the `while` loop. -/
theorem refresh_loop_induct (E : collaborators K) (cur : ℕ) (tfp : ℕ → traj K) (b : List ℤ)
    (Q : refresher K → Prop)
    (hstep : ∀ R curr, Q R → pq_top (candidate_order R.P.heap) R.candidates = some curr →
      Q { refresh_body E cur tfp b R curr with
          candidates := (refresh_body E cur tfp b R curr).candidates.erase curr }) :
    ∀ (n : ℕ) (R : refresher K), Q R → Q (refresh_loop E cur tfp b n R)
  | 0, R, h => h
  | n + 1, R, h => by
    unfold refresh_loop
    cases htop : pq_top (candidate_order R.P.heap) R.candidates with
    | none => exact h
    | some curr =>
      exact refresh_loop_induct E cur tfp b Q hstep n _ (hstep R curr h htop)

theorem refresh_loop_domain_labels (E : collaborators K) (cur : ℕ) (tfp : ℕ → traj K)
    (b : List ℤ) (n : ℕ) (R : refresher K) :
    (refresh_loop E cur tfp b n R).P.domain_labels = R.P.domain_labels :=
  refresh_loop_induct E cur tfp b (fun R1 => R1.P.domain_labels = R.P.domain_labels)
    (fun _ curr h _ => by simpa using h) n R rfl

/-- The `while` loop empties the candidate queue. -/
theorem refresh_loop_drains (E : collaborators K) (cur : ℕ) (tfp : ℕ → traj K) (b : List ℤ) :
    ∀ (n : ℕ) (R : refresher K), R.candidates.length ≤ n →
      (refresh_loop E cur tfp b n R).candidates = []
  | 0, R, h => by
    simpa [refresh_loop] using h
  | n + 1, R, h => by
    unfold refresh_loop
    cases htop : pq_top (candidate_order R.P.heap) R.candidates with
    | none => exact (pq_top_eq_none _ _).1 htop
    | some curr =>
      apply refresh_loop_drains E cur tfp b n
      have hm := pq_top_mem _ _ _ htop
      simp only [refresh_body_candidates]
      rw [List.length_erase_of_mem hm]
      omega

theorem midR_body {E : collaborators K} {cur : ℕ} {P0 : trajectory_planner K}
    {tfp : ℕ → traj K} {R : refresher K} (hR : MidR E cur P0 tfp R) (b : List ℤ) {curr : ℕ}
    (hc : curr ∈ R.candidates) : MidR E cur P0 tfp (refresh_body E cur tfp b R curr) := by
  rcases refresh_body_cases E cur tfp b R curr with ⟨h, -⟩ | ⟨-, -, h⟩ <;> rw [h]
  · exact hR
  · exact midR_admit hR b hc

theorem midR_pop {E : collaborators K} {cur : ℕ} {P0 : trajectory_planner K}
    {tfp : ℕ → traj K} {R : refresher K} (hR : MidR E cur P0 tfp R) (curr : ℕ) :
    MidR E cur P0 tfp { R with candidates := R.candidates.erase curr } :=
  ⟨hR.1, hR.2.1, fun c hc => hR.2.2 c (List.mem_of_mem_erase hc)⟩

theorem midR_loop {E : collaborators K} {cur : ℕ} {P0 : trajectory_planner K}
    {tfp : ℕ → traj K} (b : List ℤ) (n : ℕ) {R : refresher K} (hR : MidR E cur P0 tfp R) :
    MidR E cur P0 tfp (refresh_loop E cur tfp b n R) :=
  refresh_loop_induct E cur tfp b (MidR E cur P0 tfp)
    (fun _ curr h htop => midR_pop (midR_body h b (pq_top_mem _ _ _ htop)) curr) n R hR

/-- Replacing the domains by domains with valid labels and new candidates
keeps `Mid`. -/
theorem mid_with_domains {E : collaborators K} {cur : ℕ} {P0 : trajectory_planner K}
    {tfp : ℕ → traj K} {P : trajectory_planner K} (hM : Mid E cur P0 tfp P)
    (dl : List domain)
    (h1 : ∀ d ∈ dl, ∀ c ∈ d.candidates, P0.heap.length ≤ c ∧ c < P.heap.length)
    (h2 : ∀ d ∈ dl, ∀ l, d.label = some l → l < P.heap.length)
    (h3 : (dl.map domain.coordinate).Nodup) :
    Mid E cur P0 tfp { P with domain_labels := dl } :=
  { cur_lt := hM.cur_lt
    params := hM.params
    len_le := hM.len_le
    old := hM.old
    old_cur := hM.old_cur
    fresh := hM.fresh
    root_ptr := hM.root_ptr
    root_lt := hM.root_lt
    root_parent := hM.root_parent
    root_depth := hM.root_depth
    queue_lt := hM.queue_lt
    queue_fresh := hM.queue_fresh
    cands_fresh := h1
    label_lt := h2
    best_lt := hM.best_lt
    popped_lt := hM.popped_lt
    pushed_lt := hM.pushed_lt
    offered_lt := hM.offered_lt
    offered_fresh := hM.offered_fresh
    admitted_lt := hM.admitted_lt
    admitted_fresh := hM.admitted_fresh
    slots := hM.slots
    slot_fresh := hM.slot_fresh
    kids_len := hM.kids_len
    admitted_parent := hM.admitted_parent
    merit_def := hM.merit_def
    coords_nodup := h3 }

theorem close_domain_nodup (b : List ℤ) (R : refresher K)
    (h : (R.P.domain_labels.map domain.coordinate).Nodup) :
    ((close_domain b R).domain_labels.map domain.coordinate).Nodup := by
  unfold close_domain
  split
  · exact h.sublist (List.Sublist.map _ (List.filter_sublist _))
  · simp only []
    have e : (R.P.domain_labels.map (fun d => if d.coordinate = b then
        { d with label := R.label, candidates := R.candidates } else d)).map domain.coordinate
        = R.P.domain_labels.map domain.coordinate := by
      rw [List.map_map]
      apply List.map_congr_left
      intro d _
      by_cases hb : d.coordinate = b <;> simp [hb]
    rw [e]
    exact h

theorem mem_close_domain {b : List ℤ} {R : refresher K} {d : domain}
    (h : d ∈ (close_domain b R).domain_labels) :
    (d ∈ R.P.domain_labels ∧ d.coordinate ≠ b) ∨
      (d.coordinate = b ∧ d.label = R.label ∧ d.candidates = R.candidates ∧ R.label ≠ none) := by
  unfold close_domain at h
  split at h
  · simp only [List.mem_filter, decide_eq_true_eq] at h
    exact Or.inl h
  · rename_i hl
    simp only [List.mem_map] at h
    obtain ⟨d0, hd0, rfl⟩ := h
    by_cases hb : d0.coordinate = b
    · exact Or.inr (by simp [hb, hl])
    · exact Or.inl (by simp [hb, hd0])

theorem midR_close {E : collaborators K} {cur : ℕ} {P0 : trajectory_planner K}
    {tfp : ℕ → traj K} {R : refresher K} (hR : MidR E cur P0 tfp R) (b : List ℤ) :
    Mid E cur P0 tfp (close_domain b R) := by
  obtain ⟨hM, hlab, hcands⟩ := hR
  have key : close_domain b R = { R.P with domain_labels := (close_domain b R).domain_labels } := by
    unfold close_domain
    split <;> rfl
  rw [key]
  apply mid_with_domains hM
  · intro d hd c hc
    rcases mem_close_domain hd with ⟨h, -⟩ | ⟨-, -, h, -⟩
    · exact hM.cands_fresh d h c hc
    · rw [h] at hc
      exact hcands c hc
  · intro d hd l hl
    rcases mem_close_domain hd with ⟨h, -⟩ | ⟨-, h, -, -⟩
    · exact hM.label_lt d h l hl
    · rw [h] at hl
      exact hlab l hl
  · exact close_domain_nodup b R hM.coords_nodup

theorem find_domain_some {dl : List domain} {b : List ℤ} {d : domain}
    (h : find_domain dl b = some d) : d ∈ dl ∧ d.coordinate = b := by
  unfold find_domain at h
  exact ⟨List.mem_of_find?_eq_some h, by simpa using List.find?_some h⟩

theorem find_domain_none {dl : List domain} {b : List ℤ}
    (h : find_domain dl b = none) : ∀ d ∈ dl, d.coordinate ≠ b := by
  unfold find_domain at h
  intro d hd
  simpa using List.find?_eq_none.1 h d hd

theorem mid_refresh {E : collaborators K} {cur : ℕ} {P0 : trajectory_planner K}
    {tfp : ℕ → traj K} {P : trajectory_planner K} (hM : Mid E cur P0 tfp P) (b : List ℤ) :
    Mid E cur P0 tfp (refresh E cur tfp P b) := by
  unfold refresh
  cases hf : find_domain P.domain_labels b with
  | none => exact hM
  | some d =>
    obtain ⟨hd, -⟩ := find_domain_some hf
    have hR : MidR E cur P0 tfp ⟨P, d.label, d.candidates, false⟩ :=
      ⟨hM, hM.label_lt d hd, hM.cands_fresh d hd⟩
    exact midR_close (midR_loop b d.candidates.length hR) b

theorem mid_refresh_all {E : collaborators K} {cur : ℕ} {P0 : trajectory_planner K}
    {tfp : ℕ → traj K} :
    ∀ (l : List (List ℤ)) (P : trajectory_planner K), Mid E cur P0 tfp P →
      Mid E cur P0 tfp (l.foldl (refresh E cur tfp) P)
  | [], _, h => h
  | b :: l, P, h => by
    rw [List.foldl_cons]
    exact mid_refresh_all l _ (mid_refresh h b)

/-- Refreshing `b` empties the candidates of the domains with coordinate `b`
and leaves the other domains as they are. -/
theorem refresh_domains (E : collaborators K) (cur : ℕ) (tfp : ℕ → traj K)
    (P : trajectory_planner K) (b : List ℤ) :
    ∀ d ∈ (refresh E cur tfp P b).domain_labels,
      (d.coordinate = b → d.candidates = []) ∧ (d.coordinate ≠ b → d ∈ P.domain_labels) := by
  intro d hd
  unfold refresh at hd
  cases hf : find_domain P.domain_labels b with
  | none =>
    rw [hf] at hd
    exact ⟨fun h => absurd h (find_domain_none hf d hd), fun _ => hd⟩
  | some d0 =>
    rw [hf] at hd
    rcases mem_close_domain hd with ⟨h1, h2⟩ | ⟨h1, -, h3, -⟩
    · rw [refresh_loop_domain_labels] at h1
      exact ⟨fun h => absurd h h2, fun _ => h1⟩
    · rw [refresh_loop_drains E cur tfp b d0.candidates.length
        ⟨P, d0.label, d0.candidates, false⟩ (le_refl _)] at h3
      exact ⟨fun _ => h3, fun h => absurd h1 h⟩

/-- After the second loop no domain has a candidate left, when every domain
with candidates was among those visited. -/
theorem refresh_all_drains (E : collaborators K) (cur : ℕ) (tfp : ℕ → traj K) :
    ∀ (l : List (List ℤ)) (P : trajectory_planner K),
      (∀ d ∈ P.domain_labels, d.candidates ≠ [] → d.coordinate ∈ l) →
      ∀ d ∈ (l.foldl (refresh E cur tfp) P).domain_labels, d.candidates = []
  | [], P, h => by
    intro d hd
    by_contra hne
    exact absurd (h d hd hne) (by simp)
  | b :: l, P, h => by
    rw [List.foldl_cons]
    apply refresh_all_drains E cur tfp l
    intro d hd hne
    obtain ⟨h1, h2⟩ := refresh_domains E cur tfp P b d hd
    by_cases hb : d.coordinate = b
    · exact absurd (h1 hb) hne
    · rcases List.mem_cons.1 (h d (h2 hb) hne) with h3 | h3
      · exact absurd h3 hb
      · exact h3

end refresh_all

section expand_inv
variable {K : Type} [LinearOrderedCommRing K] [FloorRing K]

/-- Induction over a loop `for (i = 0; i < n; i++)`. -/
theorem range_foldl_induct {α : Type} (f : α → ℕ → α) (Q : ℕ → α → Prop) (a : α) (h0 : Q 0 a) :
    ∀ n : ℕ, (∀ i x, i < n → Q i x → Q (i + 1) (f x i)) → Q n ((List.range n).foldl f a)
  | 0, _ => by simpa using h0
  | n + 1, hs => by
    rw [List.range_succ, List.foldl_append]
    simp only [List.foldl_cons, List.foldl_nil]
    exact hs n _ (Nat.lt_succ_self n)
      (range_foldl_induct f Q a h0 n (fun i x hi hq => hs i x (Nat.lt_succ_of_lt hi) hq))

theorem mem_insert_pointer {l : List (List ℤ)} {b x : List ℤ} :
    x ∈ insert_pointer l b ↔ x ∈ l ∨ x = b := by
  unfold insert_pointer
  split
  · constructor
    · exact Or.inl
    · rintro (h | rfl)
      · exact h
      · assumption
  · simp

/-- The state of the first loop after `n` passes. -/
theorem control_loop_inv {E : collaborators K} {cur : ℕ} {P0 : trajectory_planner K}
    (hM : Mid E cur P0 (fun _ => ⟨[], []⟩) P0) (hnil : ∀ d ∈ P0.domain_labels, d.candidates = [])
    (n : ℕ) (hn : n ≤ P0.controls.length) :
    Mid E cur P0
        ((List.range n).foldl (simulate E cur) ⟨P0, [], fun _ => ⟨[], []⟩⟩).traj_from_parent
        ((List.range n).foldl (simulate E cur) ⟨P0, [], fun _ => ⟨[], []⟩⟩).P ∧
      ((List.range n).foldl (simulate E cur) ⟨P0, [], fun _ => ⟨[], []⟩⟩).P.heap.length
        = P0.heap.length + n ∧
      ∀ d ∈ ((List.range n).foldl (simulate E cur) ⟨P0, [], fun _ => ⟨[], []⟩⟩).P.domain_labels,
        d.candidates ≠ [] →
        d.coordinate ∈
          ((List.range n).foldl (simulate E cur) ⟨P0, [], fun _ => ⟨[], []⟩⟩).domains_needing_update := by
  refine range_foldl_induct (simulate E cur)
    (fun i X => Mid E cur P0 X.traj_from_parent X.P ∧ X.P.heap.length = P0.heap.length + i ∧
      ∀ d ∈ X.P.domain_labels, d.candidates ≠ [] → d.coordinate ∈ X.domains_needing_update)
    ⟨P0, [], fun _ => ⟨[], []⟩⟩ ⟨hM, rfl, fun d hd hne => absurd (hnil d hd) hne⟩ n ?_
  rintro i X hi ⟨h1, h2, h3⟩
  refine ⟨mid_simulate h1 h2 (lt_of_lt_of_le hi hn), ?_, ?_⟩
  · simp [h2, Nat.add_assoc]
  · intro d hd hne
    rw [simulate_touched, mem_insert_pointer]
    obtain ⟨d0, hd0, e1, -, e3⟩ := mem_simulate_domains hd
    rcases e3 with e3 | ⟨-, e3⟩
    · rcases hd0 with hd0 | hd0
      · rw [e3] at hne
        rw [e1]
        exact Or.inl (h3 d0 hd0 hne)
      · subst hd0
        exact absurd e3 hne
    · rw [e1]
      exact Or.inr e3

theorem inv_frame {E : collaborators K} {P : trajectory_planner K} (hI : Inv E P)
    (it : ℤ) (lv : Bool) : Inv E { P with iter := it, live := lv } :=
  { root_ptr := hI.root_ptr
    root_lt := hI.root_lt
    root_parent := hI.root_parent
    root_depth := hI.root_depth
    queue_lt := hI.queue_lt
    cands_nil := hI.cands_nil
    label_lt := hI.label_lt
    best_lt := hI.best_lt
    popped_lt := hI.popped_lt
    pushed_lt := hI.pushed_lt
    offered_lt := hI.offered_lt
    admitted_lt := hI.admitted_lt
    slots := hI.slots
    kids_len := hI.kids_len
    admitted_parent := hI.admitted_parent
    merit_def := hI.merit_def
    coords_nodup := hI.coords_nodup }

theorem inv_pop {E : collaborators K} {P : trajectory_planner K} (hI : Inv E P)
    {cur : ℕ} (hc : cur ∈ P.queue) : Inv E (pop_open cur P) :=
  { root_ptr := hI.root_ptr
    root_lt := hI.root_lt
    root_parent := hI.root_parent
    root_depth := hI.root_depth
    queue_lt := fun q hq => hI.queue_lt q (List.mem_of_mem_erase hq)
    cands_nil := hI.cands_nil
    label_lt := hI.label_lt
    best_lt := hI.best_lt
    popped_lt := fun q hq => by
      rcases List.mem_append.1 hq with h | h
      · exact hI.popped_lt q h
      · simp at h
        subst h
        exact hI.queue_lt q hc
    pushed_lt := hI.pushed_lt
    offered_lt := hI.offered_lt
    admitted_lt := hI.admitted_lt
    slots := hI.slots
    kids_len := hI.kids_len
    admitted_parent := hI.admitted_parent
    merit_def := hI.merit_def
    coords_nodup := hI.coords_nodup }

theorem inv_popped {E : collaborators K} {P : trajectory_planner K} (hI : Inv E P)
    {cur : ℕ} (hc : cur ∈ P.queue) : Inv E (pop_open cur { P with iter := P.iter + 1 }) :=
  inv_pop (inv_frame hI (P.iter + 1) P.live) hc

/-- At the start of the two loops, `Mid` holds. -/
theorem mid_start {E : collaborators K} {P : trajectory_planner K} (hI : Inv E P)
    {cur : ℕ} (hc : cur < P.heap.length) (tfp : ℕ → traj K) : Mid E cur P tfp P :=
  { cur_lt := hc
    params := same_params_refl P
    len_le := le_refl _
    old := fun _ _ _ => rfl
    old_cur := ⟨rfl, rfl, rfl, rfl, rfl, rfl, rfl⟩
    fresh := fun c h1 h2 => absurd h2 (by omega)
    root_ptr := hI.root_ptr
    root_lt := hI.root_lt
    root_parent := hI.root_parent
    root_depth := hI.root_depth
    queue_lt := hI.queue_lt
    queue_fresh := fun q hq h => absurd (hI.queue_lt q hq) (by omega)
    cands_fresh := fun d hd c hc => by
      rw [hI.cands_nil d hd] at hc
      simp at hc
    label_lt := hI.label_lt
    best_lt := hI.best_lt
    popped_lt := hI.popped_lt
    pushed_lt := hI.pushed_lt
    offered_lt := hI.offered_lt
    offered_fresh := fun o ho h => absurd (hI.offered_lt o ho) (by omega)
    admitted_lt := hI.admitted_lt
    admitted_fresh := fun a ha h => absurd (hI.admitted_lt a ha).1 (by omega)
    slots := hI.slots
    slot_fresh := fun p i c hp hs h => absurd (hI.slots p i c hp hs).1 (by omega)
    kids_len := hI.kids_len
    admitted_parent := hI.admitted_parent
    merit_def := hI.merit_def
    coords_nodup := hI.coords_nodup }

/-- At the end of the two loops, when no candidate is left, the invariant
holds again. -/
theorem mid_finish {E : collaborators K} {cur : ℕ} {P0 : trajectory_planner K}
    {tfp : ℕ → traj K} {P : trajectory_planner K} (hM : Mid E cur P0 tfp P)
    (hnil : ∀ d ∈ P.domain_labels, d.candidates = []) : Inv E P :=
  { root_ptr := hM.root_ptr
    root_lt := lt_of_lt_of_le hM.root_lt hM.len_le
    root_parent := hM.root_parent
    root_depth := hM.root_depth
    queue_lt := hM.queue_lt
    cands_nil := hnil
    label_lt := hM.label_lt
    best_lt := hM.best_lt
    popped_lt := hM.popped_lt
    pushed_lt := hM.pushed_lt
    offered_lt := hM.offered_lt
    admitted_lt := fun a ha =>
      ⟨(hM.admitted_lt a ha).1, lt_of_lt_of_le (hM.admitted_lt a ha).2.1 hM.len_le,
        (hM.admitted_lt a ha).2.2⟩
    slots := hM.slots
    kids_len := hM.kids_len
    admitted_parent := hM.admitted_parent
    merit_def := hM.merit_def
    coords_nodup := hM.coords_nodup }

/-- The planner after the two loops, for a node `cur` of the heap, is again
in a state where `Mid` holds and no candidate is left. -/
theorem expand_node_mid {E : collaborators K} {P : trajectory_planner K} (hI : Inv E P)
    {cur : ℕ} (hc : cur < P.heap.length) :
    ∃ tfp, Mid E cur P tfp (expand_node E cur P) ∧
      ∀ d ∈ (expand_node E cur P).domain_labels, d.candidates = [] := by
  obtain ⟨h1, -, h3⟩ := control_loop_inv (mid_start hI hc _) hI.cands_nil P.controls.length
    (le_refl _)
  refine ⟨_, mid_refresh_all _ _ h1, ?_⟩
  apply refresh_all_drains
  intro d hd hne
  unfold visit_order
  rw [List.mem_insertionSort]
  exact h3 d hd hne

theorem inv_expand_node {E : collaborators K} {P : trajectory_planner K} (hI : Inv E P)
    {cur : ℕ} (hc : cur < P.heap.length) : Inv E (expand_node E cur P) := by
  obtain ⟨tfp, h1, h2⟩ := expand_node_mid hI hc
  exact mid_finish h1 h2

theorem inv_construct (E : collaborators K) (I : setup K) : Inv E (construct E I) := by
  constructor <;> simp [construct, deref, node_root, slot]
  · intro p i c hp
    subst hp
    simp
    exact replicate_none_slot _ _ _

/-- The shape of `expand`: it stops on an empty queue, stops on the depth
limit, or runs the two loops for the top of the queue. -/
theorem expand_cases (E : collaborators K) (P : trajectory_planner K) :
    (P.queue = [] ∧ expand E P = { P with iter := P.iter + 1, live := false }) ∨
    ∃ cur, pq_top (queue_order P.heap) P.queue = some cur ∧ cur ∈ P.queue ∧
      ((P.depth_limit ≤ (deref P.heap cur).depth ∧
          expand E P = { pop_open cur { P with iter := P.iter + 1 } with live := false }) ∨
        ((deref P.heap cur).depth < P.depth_limit ∧
          expand E P = expand_node E cur (pop_open cur { P with iter := P.iter + 1 }))) := by
  unfold expand
  cases htop : pq_top (queue_order P.heap) P.queue with
  | none =>
    left
    exact ⟨(pq_top_eq_none _ _).1 htop, by simp [htop]⟩
  | some cur =>
    right
    refine ⟨cur, rfl, pq_top_mem _ _ _ htop, ?_⟩
    by_cases hd : P.depth_limit ≤ (deref P.heap cur).depth
    · left
      refine ⟨hd, ?_⟩
      simp only [htop]
      rw [if_pos (by simpa [pop_open] using hd)]
    · right
      refine ⟨lt_of_not_le hd, ?_⟩
      simp only [htop]
      rw [if_neg (by simpa [pop_open] using hd)]

theorem inv_expand {E : collaborators K} {P : trajectory_planner K} (hI : Inv E P) :
    Inv E (expand E P) := by
  rcases expand_cases E P with ⟨-, h⟩ | ⟨cur, -, hm, ⟨-, h⟩ | ⟨-, h⟩⟩ <;> rw [h]
  · exact inv_frame hI _ _
  · exact inv_frame (inv_popped hI hm) _ _
  · have h2 : Inv E (pop_open cur { P with iter := P.iter + 1 }) :=
      inv_popped hI hm
    exact inv_expand_node h2 (hI.queue_lt cur hm)

theorem reachable_inv {E : collaborators K} {I : setup K} {P : trajectory_planner K}
    (h : Reachable E I P) : Inv E P := by
  induction h with
  | init => exact inv_construct E I
  | step P _ ih => exact inv_expand ih

end expand_inv

section expand_induct
variable {K : Type} [LinearOrderedCommRing K] [FloorRing K]

theorem close_domain_eq (b : List ℤ) (R : refresher K) :
    close_domain b R = { R.P with domain_labels := (close_domain b R).domain_labels } := by
  unfold close_domain
  split <;> rfl

/-- A property of the planner that does not depend on the domains holds after
the second loop of `expand` when it holds before it and every admission of a
collision-free candidate within the threshold keeps it. -/
theorem refresh_all_induct {E : collaborators K} {P : trajectory_planner K}
    {cur : ℕ} (Q : trajectory_planner K → Prop) (tfp : ℕ → traj K)
    (hadm : ∀ (b : List ℤ) (R : refresher K) (curr : ℕ),
      MidR E cur P tfp R → curr ∈ R.candidates →
      below_label R.P.heap R.P.eps R.label (deref R.P.heap curr).cost = true →
      E.collisionFree (tfp curr) = true → Q R.P →
      Q (admit_candidate E cur tfp b R curr).P)
    (hdom : ∀ (P1 : trajectory_planner K) (dl : List domain), Q P1 →
      Q { P1 with domain_labels := dl }) :
    ∀ (l : List (List ℤ)) (P1 : trajectory_planner K), Mid E cur P tfp P1 → Q P1 →
      Q (l.foldl (refresh E cur tfp) P1)
  | [], _, _, hq => hq
  | b :: l, P1, m1, hq => by
    rw [List.foldl_cons]
    refine refresh_all_induct Q tfp hadm hdom l _ (mid_refresh m1 b) ?_
    unfold refresh
    cases hf : find_domain P1.domain_labels b with
    | none => exact hq
    | some d =>
      obtain ⟨hd, -⟩ := find_domain_some hf
      have hR : MidR E cur P tfp ⟨P1, d.label, d.candidates, false⟩ :=
        ⟨m1, m1.label_lt d hd, m1.cands_fresh d hd⟩
      have hloop := refresh_loop_induct E cur tfp b
        (fun R => MidR E cur P tfp R ∧ Q R.P)
        (fun R curr h htop => by
          have hm := pq_top_mem _ _ _ htop
          refine ⟨midR_pop (midR_body h.1 b hm) curr, ?_⟩
          rcases refresh_body_cases E cur tfp b R curr with ⟨e, -⟩ | ⟨e1, e2, e⟩
          · rw [e]; exact h.2
          · rw [e]; exact hadm b R curr h.1 hm e1 e2 h.2)
        d.candidates.length ⟨P1, d.label, d.candidates, false⟩ ⟨hR, hq⟩
      show Q (close_domain b (refresh_loop E cur tfp b d.candidates.length
        ⟨P1, d.label, d.candidates, false⟩))
      rw [close_domain_eq]
      exact hdom _ _ hloop.2

/-- A property of the planner that does not depend on the domains holds after
the two loops of `expand` when it holds before them, every new arc keeps it,
and every admission of a collision-free candidate within the threshold keeps
it. -/
theorem expand_node_induct {E : collaborators K} {P : trajectory_planner K} (hI : Inv E P)
    {cur : ℕ} (hc : cur < P.heap.length) (Q : trajectory_planner K → Prop) (h0 : Q P)
    (hsim : ∀ (X : expansion K) (i : ℕ), Mid E cur P X.traj_from_parent X.P →
      X.P.heap.length = P.heap.length + i → i < P.controls.length → Q X.P →
      Q (simulate E cur X i).P)
    (hadm : ∀ (tfp : ℕ → traj K) (b : List ℤ) (R : refresher K) (curr : ℕ),
      MidR E cur P tfp R → curr ∈ R.candidates →
      below_label R.P.heap R.P.eps R.label (deref R.P.heap curr).cost = true →
      E.collisionFree (tfp curr) = true → Q R.P →
      Q (admit_candidate E cur tfp b R curr).P)
    (hdom : ∀ (P1 : trajectory_planner K) (dl : List domain), Q P1 →
      Q { P1 with domain_labels := dl }) :
    Q (expand_node E cur P) := by
  have hctl : ∀ n, n ≤ P.controls.length →
      Q ((List.range n).foldl (simulate E cur) ⟨P, [], fun _ => ⟨[], []⟩⟩).P := by
    intro n
    induction n with
    | zero => intro _; simpa using h0
    | succ n ih =>
      intro hn
      rw [List.range_succ, List.foldl_append]
      simp only [List.foldl_cons, List.foldl_nil]
      obtain ⟨m1, m2, -⟩ := control_loop_inv (mid_start hI hc _) hI.cands_nil n (by omega)
      exact hsim _ n m1 m2 (by omega) (ih (by omega))
  obtain ⟨m1, -, -⟩ := control_loop_inv (mid_start hI hc _) hI.cands_nil P.controls.length
    (le_refl _)
  exact refresh_all_induct Q _ (hadm _) hdom _ _ m1 (hctl P.controls.length (le_refl _))

end expand_induct

section add_child_claim
variable {K : Type} [LinearOrderedCommRing K] [FloorRing K]

/-- C9: for valid pointers, `add_child(parent, child)` sets `child.parent = parent`,
`child.depth = parent.depth + 1`, `child.t = parent.t + expand_time` and stores `child`
in `parent.children[child.u_idx]`; it leaves `x`, `cost`, `merit`, `u_idx` of the child,
every other child slot of the parent, every other field of the parent, every other node
and every other member of the planner as they were. -/
theorem add_child_spec (P : trajectory_planner K) (parent child : ℕ)
    (hp : parent < P.heap.length) (hc : child < P.heap.length)
    (hu : (deref P.heap child).u_idx < (deref P.heap parent).children.length) :
    ((deref (add_child P parent child).heap child).parent = some parent ∧
      (deref (add_child P parent child).heap child).depth = (deref P.heap parent).depth + 1 ∧
      (deref (add_child P parent child).heap child).t
        = (deref P.heap parent).t + P.expand_time ∧
      (deref (add_child P parent child).heap parent).children[(deref P.heap child).u_idx]?
        = some (some child)) ∧
    ((deref (add_child P parent child).heap child).x = (deref P.heap child).x ∧
      (deref (add_child P parent child).heap child).cost = (deref P.heap child).cost ∧
      (deref (add_child P parent child).heap child).merit = (deref P.heap child).merit ∧
      (deref (add_child P parent child).heap child).u_idx = (deref P.heap child).u_idx) ∧
    (∀ j, j ≠ (deref P.heap child).u_idx →
      (deref (add_child P parent child).heap parent).children[j]?
        = (deref P.heap parent).children[j]?) ∧
    (parent ≠ child →
      (deref (add_child P parent child).heap parent).parent = (deref P.heap parent).parent ∧
      (deref (add_child P parent child).heap parent).x = (deref P.heap parent).x ∧
      (deref (add_child P parent child).heap parent).cost = (deref P.heap parent).cost ∧
      (deref (add_child P parent child).heap parent).merit = (deref P.heap parent).merit ∧
      (deref (add_child P parent child).heap parent).t = (deref P.heap parent).t ∧
      (deref (add_child P parent child).heap parent).u_idx = (deref P.heap parent).u_idx ∧
      (deref (add_child P parent child).heap parent).depth = (deref P.heap parent).depth ∧
      (deref (add_child P parent child).heap child).children = (deref P.heap child).children) ∧
    (∀ q, q ≠ parent → q ≠ child → deref (add_child P parent child).heap q = deref P.heap q) ∧
    (add_child P parent child).heap.length = P.heap.length ∧
    add_child P parent child = { P with heap := (add_child P parent child).heap } := by
  refine ⟨⟨?_, ?_, ?_, ?_⟩, ⟨?_, ?_, ?_, ?_⟩, ?_, ?_, ?_, ?_, ?_⟩
  · rw [deref_add_child]; by_cases h : child = parent <;> simp [h, hp, hc]
  · rw [deref_add_child]; by_cases h : child = parent <;> simp [h, hp, hc]
  · rw [deref_add_child]; by_cases h : child = parent <;> simp [h, hp, hc]
  · rw [deref_add_child]
    by_cases h : parent = child
    · subst h
      simp [hp, List.getElem?_set, hu]
    · simp [h, hp, List.getElem?_set, hu]
  · rw [deref_add_child]; by_cases h : child = parent <;> simp [h, hp, hc]
  · rw [deref_add_child]; by_cases h : child = parent <;> simp [h, hp, hc]
  · rw [deref_add_child]; by_cases h : child = parent <;> simp [h, hp, hc]
  · rw [deref_add_child]; by_cases h : child = parent <;> simp [h, hp, hc]
  · intro j hj
    rw [deref_add_child]
    by_cases h : parent = child
    · subst h
      simp [hp, List.getElem?_set, Ne.symm hj]
    · simp [h, hp, List.getElem?_set, Ne.symm hj]
  · intro h
    have h2 : ¬ child = parent := fun e => h e.symm
    simp [deref_add_child, h, h2, hp, hc]
  · intro q hq1 hq2
    simp [deref_add_child, hq1, hq2]
  · simp
  · rfl

end add_child_claim

section simple_claims
variable {K : Type} [LinearOrderedCommRing K] [FloorRing K]

theorem add_child_cost (P : trajectory_planner K) (p c q : ℕ) :
    (deref (add_child P p c).heap q).cost = (deref P.heap q).cost := by
  rw [deref_add_child]
  split_ifs with h1 h2 h3 <;> simp_all

theorem add_child_merit (P : trajectory_planner K) (p c q : ℕ) :
    (deref (add_child P p c).heap q).merit = (deref P.heap q).merit := by
  rw [deref_add_child]
  split_ifs with h1 h2 h3 <;> simp_all

theorem add_child_x (P : trajectory_planner K) (p c q : ℕ) :
    (deref (add_child P p c).heap q).x = (deref P.heap q).x := by
  rw [deref_add_child]
  split_ifs with h1 h2 h3 <;> simp_all

theorem below_label_congr {h h1 : List (node K)} (eps : K) (label : Option ℕ) (c : K)
    (hl : ∀ l, label = some l → (deref h1 l).cost = (deref h l).cost) :
    below_label h1 eps label c = below_label h eps label c := by
  cases label with
  | none => rfl
  | some l => simp [below_label, hl l rfl]

theorem below_best_congr {h h1 : List (node K)} (best : Option ℕ) (c : K)
    (hl : ∀ l, best = some l → (deref h1 l).cost = (deref h l).cost) :
    below_best h1 best c = below_best h best c := by
  cases best with
  | none => rfl
  | some l => simp [below_best, hl l rfl]

/-- The members that no statement of `expand` assigns keep their value. -/
theorem expand_same_params {E : collaborators K} {P : trajectory_planner K} (hI : Inv E P) :
    (expand E P).eps = P.eps ∧ (expand E P).depth_limit = P.depth_limit ∧
      (expand E P).expand_time = P.expand_time ∧
      (expand E P).partition_scale = P.partition_scale ∧
      (expand E P).controls = P.controls ∧ (expand E P).root_ptr = P.root_ptr ∧
      (expand E P).iter = P.iter + 1 := by
  rcases expand_cases E P with ⟨-, h⟩ | ⟨cur, -, hm, ⟨-, h⟩ | ⟨-, h⟩⟩ <;> rw [h]
  · exact ⟨rfl, rfl, rfl, rfl, rfl, rfl, rfl⟩
  · exact ⟨rfl, rfl, rfl, rfl, rfl, rfl, rfl⟩
  · have h2 : Inv E (pop_open cur { P with iter := P.iter + 1 }) :=
      inv_popped hI hm
    obtain ⟨tfp, hM, -⟩ := expand_node_mid h2 (hI.queue_lt cur hm)
    exact hM.params

theorem reachable_params {E : collaborators K} {I : setup K} {P : trajectory_planner K}
    (h : Reachable E I P) :
    P.eps = I.eps ∧ P.depth_limit = I.depth_limit ∧ P.expand_time = I.expand_time ∧
      P.partition_scale = I.partition_scale ∧ P.controls = I.controls ∧ P.root_ptr = 0 := by
  induction h with
  | init => exact ⟨rfl, rfl, rfl, rfl, rfl, rfl⟩
  | step P hP ih =>
    obtain ⟨a1, a2, a3, a4, a5, a6, -⟩ := expand_same_params (reachable_inv hP)
    obtain ⟨b1, b2, b3, b4, b5, b6⟩ := ih
    exact ⟨a1.trans b1, a2.trans b2, a3.trans b3, a4.trans b4, a5.trans b5, a6.trans b6⟩

/-! ### P4: cell pruning -/

theorem pruned_expand {E : collaborators K} {P : trajectory_planner K} (hI : Inv E P)
    (hQ : pruned P) : pruned (expand E P) := by
  rcases expand_cases E P with ⟨-, h⟩ | ⟨cur, -, hm, ⟨-, h⟩ | ⟨-, h⟩⟩ <;> rw [h]
  · exact hQ
  · exact hQ
  · have h2 : Inv E (pop_open cur { P with iter := P.iter + 1 }) :=
      inv_popped hI hm
    refine expand_node_induct h2 (hI.queue_lt cur hm) pruned hQ ?_ ?_ ?_
    · intro X i hM _ _ hq a ha
      obtain ⟨k1, -, k3⟩ := hM.admitted_lt a (by simpa using ha)
      rw [simulate_heap, deref_snoc_lt k1, simulate_eps]
      rw [below_label_congr (h := X.P.heap)]
      · exact hq a (by simpa using ha)
      · intro l hl
        rw [deref_snoc_lt (k3 l hl)]
    · intro tfp b R curr hR _ e1 _ hq a ha
      rw [admit_candidate_heap, admit_candidate_eps, add_child_cost]
      rw [below_label_congr (h := R.P.heap) _ _ _ (fun l _ => add_child_cost _ _ _ l)]
      simp only [admit_candidate_hist_admitted, List.mem_append, List.mem_singleton] at ha
      rcases ha with ha | rfl
      · exact hq a ha
      · exact e1
    · intro P1 dl hq
      exact hq

/-- C2 (P4, cell pruning): in every reachable state, every candidate `c` that was
admitted via a domain `b` (every recorded call of `add_child`) satisfies
`c.cost < b.label.cost + eps` for the label `b` had at the moment of admission
(a sentinel label bounds nothing). -/
theorem cell_pruning {E : collaborators K} {I : setup K} {P : trajectory_planner K}
    (h : Reachable E I P) :
    ∀ a ∈ P.hist_admitted, ∀ l, a.label = some l →
      (deref P.heap a.child).cost < (deref P.heap l).cost + I.eps := by
  have key : pruned P := by
    induction h with
    | init => intro a ha; simp [construct] at ha
    | step P hP ih => exact pruned_expand (reachable_inv hP) ih
  intro a ha l hl
  have := key a ha
  rw [hl, (reachable_params h).1] at this
  simpa [below_label] using this

end simple_claims

section depth_claims
variable {K : Type} [LinearOrderedCommRing K] [FloorRing K]

/-! ### P5: depth bound, and the shape of the tree -/

theorem shallow_expand {E : collaborators K} {P : trajectory_planner K} (hI : Inv E P)
    (hQ : shallow P.heap P.depth_limit P) :
    shallow (expand E P).heap (expand E P).depth_limit (expand E P) := by
  rcases expand_cases E P with ⟨-, h⟩ | ⟨cur, -, hm, ⟨-, h⟩ | ⟨hd, h⟩⟩ <;> rw [h]
  · exact hQ
  · exact hQ
  · have h2 : Inv E (pop_open cur { P with iter := P.iter + 1 }) :=
      inv_popped hI hm
    have hc := hI.queue_lt cur hm
    have key : shallow P.heap P.depth_limit
        (expand_node E cur (pop_open cur { P with iter := P.iter + 1 })) := by
      refine expand_node_induct h2 hc (shallow P.heap P.depth_limit) hQ ?_ ?_ ?_
      · intro X i _ _ _ hq a ha
        exact hq a (by simpa using ha)
      · intro tfp b R curr _ _ _ _ hq a ha
        simp only [admit_candidate_hist_admitted, List.mem_append, List.mem_singleton] at ha
        rcases ha with ha | rfl
        · exact hq a ha
        · exact hd
      · intro P1 dl hq
        exact hq
    obtain ⟨tfp, hM, -⟩ := expand_node_mid h2 hc
    intro a ha
    obtain ⟨-, k2, -⟩ := hM.admitted_lt a ha
    rw [hM.params.2.1]
    by_cases hp : a.parent = cur
    · rw [hp, hM.old_cur.2.2.2.2.2.2]
      exact hd
    · rw [hM.old a.parent k2 hp]
      exact key a ha

theorem reachable_shallow {E : collaborators K} {I : setup K} {P : trajectory_planner K}
    (h : Reachable E I P) : shallow P.heap P.depth_limit P := by
  induction h with
  | init => intro a ha; simp [construct] at ha
  | step P hP ih => exact shallow_expand (reachable_inv hP) ih

theorem in_tree_cases {E : collaborators K} {P : trajectory_planner K} (hI : Inv E P) {q : ℕ}
    (h : in_tree P q) : q < P.heap.length ∧ (q = 0 ∨ admitted P q) := by
  induction h with
  | root =>
    rw [hI.root_ptr]
    exact ⟨hI.root_lt, Or.inl rfl⟩
  | child p i c _ hs ih =>
    obtain ⟨k1, -, -, -, a, ha, ha2, -⟩ := hI.slots p i c ih.1 hs
    exact ⟨k1, Or.inr ⟨a, ha, ha2⟩⟩

/-- C3 (P5, depth bound): with `depth_limit ≥ 0`, in every reachable state every
node of the tree and every node on which `add_child` was called has
`depth ≤ depth_limit`. -/
theorem depth_bound {E : collaborators K} {I : setup K} {P : trajectory_planner K}
    (h : Reachable E I P) (hlim : 0 ≤ I.depth_limit) :
    ∀ n, in_tree P n ∨ admitted P n → (deref P.heap n).depth ≤ I.depth_limit := by
  have hI := reachable_inv h
  have hadm : ∀ n, admitted P n → (deref P.heap n).depth ≤ I.depth_limit := by
    rintro n ⟨a, ha, rfl⟩
    have h1 := reachable_shallow h a ha
    rw [(reachable_params h).2.1] at h1
    rw [(hI.admitted_parent a ha).2]
    omega
  intro n hn
  rcases hn with hn | hn
  · rcases (in_tree_cases hI hn).2 with h0 | h0
    · rw [h0, hI.root_depth]
      exact hlim
    · exact hadm n h0
  · exact hadm n hn

/-- C10 (tree invariant): in every reachable state, a node `c` held in child slot
`i` of a node `p` of the tree has `u_idx = i`, `parent = p` and
`depth = p.depth + 1`, and the root is the only node of the tree without a
parent. -/
theorem tree_invariant {E : collaborators K} {I : setup K} {P : trajectory_planner K}
    (h : Reachable E I P) :
    (∀ p i c, in_tree P p → slot P.heap p i c →
      i < P.controls.length ∧ (deref P.heap c).u_idx = i ∧ (deref P.heap c).parent = some p ∧
        (deref P.heap c).depth = (deref P.heap p).depth + 1) ∧
    ∀ p, in_tree P p → (deref P.heap p).parent = none → p = P.root_ptr := by
  have hI := reachable_inv h
  constructor
  · intro p i c hp hs
    have hpl := (in_tree_cases hI hp).1
    obtain ⟨-, k2, k3, k4, -⟩ := hI.slots p i c hpl hs
    refine ⟨?_, k2, k3, k4⟩
    rw [← hI.kids_len p hpl]
    unfold slot at hs
    by_contra hlt
    rw [List.getElem?_eq_none (by omega)] at hs
    exact absurd hs (by simp)
  · intro p hp hpar
    cases hp with
    | root => rfl
    | child p0 i c hp0 hs =>
      have hpl := (in_tree_cases hI hp0).1
      obtain ⟨-, -, k3, -, -⟩ := hI.slots p0 i p hpl hs
      rw [hpar] at k3
      exact absurd k3 (by simp)

end depth_claims

section merit_claims
variable {K : Type} [LinearOrderedCommRing K] [FloorRing K]

/-! ### P1: merit and cost -/

theorem additive_expand_node {E : collaborators K} {P0 : trajectory_planner K}
    (h2 : Inv E P0) {cur : ℕ} (hc : cur < P0.heap.length) (hQ : additive E P0) :
    additive E (expand_node E cur P0) := by
  refine expand_node_induct h2 hc (additive E) hQ ?_ ?_ ?_
  · intro X i hM _ _ hq a ha
    obtain ⟨k1, k2, -⟩ := hM.admitted_lt a (by simpa using ha)
    rw [simulate_heap, deref_snoc_lt k1, deref_snoc_lt (lt_of_lt_of_le k2 hM.len_le)]
    exact hq a (by simpa using ha)
  · intro tfp b R curr hR hc _ _ hq a ha
    simp only [admit_candidate_heap, add_child_cost]
    simp only [admit_candidate_hist_admitted, List.mem_append, List.mem_singleton] at ha
    rcases ha with ha | rfl
    · exact hq a ha
    · obtain ⟨hge, hlt⟩ := hR.2.2 curr hc
      obtain ⟨-, f2, f3, -⟩ := hR.1.fresh curr hge hlt
      refine ⟨P0.controls.getD (curr - P0.heap.length) [], ?_⟩
      simp only []
      rw [f3, f2, hR.1.old_cur.2.2.1]
      rfl
  · intro P1 dl hq
    exact hq

theorem additive_expand {E : collaborators K} {P : trajectory_planner K} (hI : Inv E P)
    (hQ : additive E P) : additive E (expand E P) := by
  rcases expand_cases E P with ⟨-, h⟩ | ⟨cur, -, hm, ⟨-, h⟩ | ⟨-, h⟩⟩ <;> rw [h]
  · exact hQ
  · exact hQ
  · exact additive_expand_node (inv_popped hI hm)
      (hI.queue_lt cur hm) hQ

theorem reachable_additive {E : collaborators K} {I : setup K} {P : trajectory_planner K}
    (h : Reachable E I P) : additive E P := by
  induction h with
  | init => intro a ha; simp [construct] at ha
  | step P hP ih => exact additive_expand (reachable_inv hP) ih

/-- C5 (P1, admissibility of merit): when the heuristic and the cost of an arc
are never negative, in every reachable state every node that was pushed on the
open queue has `merit ≥ cost`, and every admitted node `n` with parent `p` has
`n.cost ≥ p.cost`. -/
theorem merit_admissible {E : collaborators K} {I : setup K} {P : trajectory_planner K}
    (h : Reachable E I P) (hh : ∀ x, 0 ≤ E.cost_to_go x) (hc : ∀ τ u, 0 ≤ E.cost τ u) :
    (∀ n ∈ P.hist_pushed, (deref P.heap n).cost ≤ (deref P.heap n).merit) ∧
    ∀ n p, admitted P n → (deref P.heap n).parent = some p →
      (deref P.heap p).cost ≤ (deref P.heap n).cost := by
  have hI := reachable_inv h
  constructor
  · intro n hn
    rw [hI.merit_def n (hI.pushed_lt n hn)]
    have := hh (deref P.heap n).x
    linarith
  · rintro n p ⟨a, ha, rfl⟩ hp
    rw [(hI.admitted_parent a ha).1] at hp
    simp only [Option.some.injEq] at hp
    subst hp
    obtain ⟨u, hu⟩ := reachable_additive h a ha
    rw [hu]
    have := hc a.arc u
    linarith

end merit_claims

section goal_claims
variable {K : Type} [LinearOrderedCommRing K] [FloorRing K]

/-! ### The goal flags -/

theorem goal_consistent_admit {E : collaborators K} {U0 : K} (cur : ℕ) (tfp : ℕ → traj K)
    (b : List ℤ) (R : refresher K) (curr : ℕ) (hfree : E.collisionFree (tfp curr) = true)
    (hq : goal_consistent E U0 R.P) :
    goal_consistent E U0 (admit_candidate E cur tfp b R curr).P := by
  obtain ⟨q1, q2, q3, q4⟩ := hq
  simp only [admit_candidate, goal_consistent, goal_check_best, goal_check_foundGoal,
    goal_check_live, goal_check_UPPER, goal_check_hist_admitted, push_open_best,
    push_open_foundGoal, push_open_live, push_open_UPPER, push_open_hist_admitted,
    push_open_heap, add_child_best, add_child_foundGoal, add_child_live, add_child_UPPER,
    add_child_hist_admitted]
  by_cases hg : ((E.inGoal (tfp curr)).1 &&
      below_best (add_child R.P cur curr).heap R.P.best
        (deref (add_child R.P cur curr).heap curr).cost) = true
  · simp only [hg, if_true]
    refine ⟨by simp, by simp, fun _ => trivial, ?_⟩
    intro l hl
    simp only [Option.some.injEq] at hl
    subst hl
    refine ⟨⟨b, R.label, cur, curr, tfp curr⟩, by simp, rfl, hfree, ?_⟩
    simp only [Bool.and_eq_true] at hg
    exact hg.1
  · simp only [hg, if_false]
    refine ⟨q1, q2, q3, ?_⟩
    intro l hl
    obtain ⟨a, ha, ha2⟩ := q4 l hl
    exact ⟨a, by simp [ha], ha2⟩

theorem goal_consistent_expand {E : collaborators K} {U0 : K} {P : trajectory_planner K}
    (hI : Inv E P) (hQ : goal_consistent E U0 P) : goal_consistent E U0 (expand E P) := by
  rcases expand_cases E P with ⟨-, h⟩ | ⟨cur, -, hm, ⟨-, h⟩ | ⟨-, h⟩⟩ <;> rw [h]
  · exact ⟨hQ.1, hQ.2.1, fun _ => rfl, hQ.2.2.2⟩
  · exact ⟨hQ.1, hQ.2.1, fun _ => rfl, hQ.2.2.2⟩
  · refine expand_node_induct (inv_popped hI hm)
      (hI.queue_lt cur hm) (goal_consistent E U0) hQ ?_ ?_ ?_
    · intro X i _ _ _ hq
      exact hq
    · intro tfp b R curr _ _ _ e2 hq
      exact goal_consistent_admit cur tfp b R curr e2 hq
    · intro P1 dl hq
      exact hq

/-- C7 (goal flags): in every reachable state, `foundGoal` is false exactly when
`best` is the infinite-cost sentinel, and then `UPPER` has its initial value;
when `foundGoal` is true, `live` is false and `best` is a node on which
`add_child` was called, whose arc was collision-free and reported in the
goal. -/
theorem goal_flags {E : collaborators K} {I : setup K} {P : trajectory_planner K}
    (h : Reachable E I P) :
    (P.foundGoal = false ↔ P.best = none) ∧
    (P.best = none → P.UPPER = (construct E I).UPPER) ∧
    (P.foundGoal = true → P.live = false ∧ ∃ l a, P.best = some l ∧ a ∈ P.hist_admitted ∧
      a.child = l ∧ E.collisionFree a.arc = true ∧ (E.inGoal a.arc).1 = true) := by
  have key : goal_consistent E I.upper0 P := by
    induction h with
    | init => exact ⟨by simp [construct], fun _ => rfl, by simp [construct], by simp [construct]⟩
    | step P hP ih => exact goal_consistent_expand (reachable_inv hP) ih
  obtain ⟨q1, q2, q3, q4⟩ := key
  refine ⟨q1, q2, fun hf => ⟨q3 hf, ?_⟩⟩
  cases hb : P.best with
  | none =>
    rw [q1.2 hb] at hf
    exact absurd hf (by simp)
  | some l =>
    obtain ⟨a, ha, ha2, ha3, ha4⟩ := q4 l hb
    exact ⟨l, a, rfl, ha, ha2, ha3, ha4⟩

end goal_claims

section termination
variable {K : Type} [LinearOrderedCommRing K] [FloorRing K]

/-! ### Termination of `plan` -/

theorem mid_node_weight {E : collaborators K} {cur : ℕ} {P0 : trajectory_planner K}
    {tfp : ℕ → traj K} {P : trajectory_planner K} (hM : Mid E cur P0 tfp P) {q : ℕ}
    (hq : q ∈ P.queue) : node_weight P q = weight_in P0 cur q := by
  obtain ⟨-, e2, -, -, e5, -, -⟩ := hM.params
  unfold weight_in node_weight child_weight
  rw [e2, e5]
  by_cases hlt : q < P0.heap.length
  · rw [if_pos hlt]
    by_cases hqc : q = cur
    · rw [hqc, hM.old_cur.2.2.2.2.2.2]
    · rw [hM.old q hlt hqc]
  · rw [if_neg hlt, hM.queue_fresh q hq (by omega)]

theorem mid_potential {E : collaborators K} {cur : ℕ} {P0 : trajectory_planner K}
    {tfp : ℕ → traj K} {P : trajectory_planner K} (hM : Mid E cur P0 tfp P) :
    potential P = (P.queue.map (weight_in P0 cur)).sum := by
  unfold potential
  congr 1
  exact List.map_congr_left (fun q hq => mid_node_weight hM hq)

theorem push_candidate_none {dl : List domain} {b : List ℤ} (c : ℕ)
    (h : ∀ d ∈ dl, d.coordinate ≠ b) : push_candidate dl b c = dl := by
  unfold push_candidate
  conv_rhs => rw [← List.map_id dl]
  apply List.map_congr_left
  intro d hd
  simp [h d hd]

theorem pending_push_le {dl : List domain} (b : List ℤ) (c : ℕ)
    (hn : (dl.map domain.coordinate).Nodup) :
    pending (push_candidate dl b c) ≤ pending dl + 1 := by
  induction dl with
  | nil => simp [push_candidate, pending]
  | cons d dl ih =>
    rw [List.map_cons, List.nodup_cons] at hn
    by_cases hb : d.coordinate = b
    · have hrest : ∀ d1 ∈ dl, d1.coordinate ≠ b := by
        intro d1 hd1 he
        exact hn.1 (List.mem_map.2 ⟨d1, hd1, he.trans hb.symm⟩)
      have e := push_candidate_none c hrest
      unfold push_candidate at e
      simp only [push_candidate, pending, List.map_cons, hb, if_true, List.sum_cons,
        List.length_append, List.length_singleton, e]
      omega
    · have := ih hn.2
      simp only [push_candidate, pending, List.map_cons, hb, if_false, List.sum_cons] at this ⊢
      omega

theorem pending_insert (dl : List domain) (b : List ℤ) :
    pending (insert_domain dl b) = pending dl := by
  unfold insert_domain
  split
  · rfl
  · simp [pending]

theorem pending_simulate_le {E : collaborators K} {cur : ℕ} {X : expansion K} (i : ℕ)
    (hn : (X.P.domain_labels.map domain.coordinate).Nodup) :
    pending (simulate E cur X i).P.domain_labels ≤ pending X.P.domain_labels + 1 := by
  simp only [simulate]
  split
  · have := pending_push_le (arc_coordinate E X.P cur i) X.P.heap.length
      (insert_domain_nodup (arc_coordinate E X.P cur i) hn)
    rw [pending_insert] at this
    exact this
  · rw [pending_insert]
    omega

/-- After the first loop the open queue is the one before it and at most one
candidate waits for each control. -/
theorem control_loop_pending {E : collaborators K} {cur : ℕ} {P0 : trajectory_planner K}
    (hM : Mid E cur P0 (fun _ => ⟨[], []⟩) P0) (hnil : ∀ d ∈ P0.domain_labels, d.candidates = [])
    (n : ℕ) (hn : n ≤ P0.controls.length) :
    ((List.range n).foldl (simulate E cur) ⟨P0, [], fun _ => ⟨[], []⟩⟩).P.queue = P0.queue ∧
      pending ((List.range n).foldl (simulate E cur)
        ⟨P0, [], fun _ => ⟨[], []⟩⟩).P.domain_labels ≤ n := by
  induction n with
  | zero =>
    refine ⟨by simp, ?_⟩
    simp only [List.range_zero, List.foldl_nil]
    have : pending P0.domain_labels = 0 := by
      unfold pending
      apply List.sum_eq_zero
      intro x hx
      obtain ⟨d, hd, rfl⟩ := List.mem_map.1 hx
      simp [hnil d hd]
    omega
  | succ n ih =>
    rw [List.range_succ, List.foldl_append]
    simp only [List.foldl_cons, List.foldl_nil]
    obtain ⟨m1, -, -⟩ := control_loop_inv hM hnil n (by omega)
    obtain ⟨i1, i2⟩ := ih (by omega)
    refine ⟨by rw [simulate_queue]; exact i1, ?_⟩
    have := @pending_simulate_le K _ _ E cur _ n m1.coords_nodup
    omega

theorem refresh_body_queue (E : collaborators K) (cur : ℕ) (tfp : ℕ → traj K) (b : List ℤ)
    (R : refresher K) (curr : ℕ) :
    (refresh_body E cur tfp b R curr).P.queue = R.P.queue ∨
      (refresh_body E cur tfp b R curr).P.queue = R.P.queue ++ [curr] := by
  rcases refresh_body_cases E cur tfp b R curr with ⟨h, -⟩ | ⟨-, -, h⟩ <;> rw [h]
  · exact Or.inl rfl
  · rw [admit_candidate_queue]
    split
    · exact Or.inl rfl
    · exact Or.inr rfl

/-- The `while` loop adds to the weight of the open queue at most the weight
of one child for every candidate it pops. -/
theorem refresh_loop_weight {E : collaborators K} {cur : ℕ} {P0 : trajectory_planner K}
    {tfp : ℕ → traj K} (b : List ℤ) (n : ℕ) {R : refresher K} (hR : MidR E cur P0 tfp R) :
    ((refresh_loop E cur tfp b n R).P.queue.map (weight_in P0 cur)).sum
        + child_weight P0 cur * (refresh_loop E cur tfp b n R).candidates.length
      ≤ (R.P.queue.map (weight_in P0 cur)).sum + child_weight P0 cur * R.candidates.length := by
  have key := refresh_loop_induct E cur tfp b
    (fun R1 => MidR E cur P0 tfp R1 ∧
      (R1.P.queue.map (weight_in P0 cur)).sum + child_weight P0 cur * R1.candidates.length
        ≤ (R.P.queue.map (weight_in P0 cur)).sum + child_weight P0 cur * R.candidates.length)
    (fun R1 curr h htop => by
      have hm := pq_top_mem _ _ _ htop
      refine ⟨midR_pop (midR_body h.1 b hm) curr, ?_⟩
      obtain ⟨hge, -⟩ := h.1.2.2 curr hm
      have hw : weight_in P0 cur curr = child_weight P0 cur := by
        unfold weight_in
        rw [if_neg (by omega)]
      have hlen : (R1.candidates.erase curr).length + 1 = R1.candidates.length := by
        rw [List.length_erase_of_mem hm]
        have := List.length_pos_of_mem hm
        omega
      have h2 := h.2
      rw [← hlen, Nat.mul_succ] at h2
      simp only [refresh_body_candidates]
      rcases refresh_body_queue E cur tfp b R1 curr with e | e <;> rw [e]
      · omega
      · rw [List.map_append, List.sum_append]
        simp only [List.map_cons, List.map_nil, List.sum_cons, List.sum_nil, hw]
        omega)
    n R ⟨hR, le_refl _⟩
  exact key.2

theorem pending_filter_eq (b : List ℤ) (dl : List domain) :
    pending (dl.filter (fun d1 => decide (d1.coordinate ≠ b)))
      = (dl.map (fun d1 => if d1.coordinate = b then 0 else d1.candidates.length)).sum := by
  induction dl with
  | nil => rfl
  | cons d1 dl ih =>
    by_cases h1 : d1.coordinate = b
    · rw [List.filter_cons_of_neg (by simpa using h1), ih]
      simp [h1]
    · rw [List.filter_cons_of_pos (by simpa using h1)]
      unfold pending at ih ⊢
      simp only [List.map_cons, List.sum_cons, ih, h1, if_false]

theorem pending_map_eq (b : List ℤ) (label : Option ℕ) (dl : List domain) :
    pending (dl.map (fun d1 => if d1.coordinate = b then
        { d1 with label := label, candidates := [] } else d1))
      = (dl.map (fun d1 => if d1.coordinate = b then 0 else d1.candidates.length)).sum := by
  induction dl with
  | nil => rfl
  | cons d1 dl ih =>
    unfold pending at ih ⊢
    by_cases h1 : d1.coordinate = b
    · simp only [List.map_cons, List.sum_cons, ih, h1, if_true, List.length_nil]
    · simp only [List.map_cons, List.sum_cons, ih, h1, if_false]

theorem pending_rest_le (b : List ℤ) {d : domain} (hb : d.coordinate = b) :
    ∀ dl : List domain, d ∈ dl →
      (dl.map (fun d1 => if d1.coordinate = b then 0 else d1.candidates.length)).sum
        + d.candidates.length ≤ pending dl
  | [], h => by simp at h
  | d1 :: dl, h => by
    have mono : ∀ dl : List domain,
        (dl.map (fun d1 => if d1.coordinate = b then 0 else d1.candidates.length)).sum
          ≤ pending dl := by
      intro dl
      induction dl with
      | nil => simp [pending]
      | cons d2 dl ih =>
        unfold pending at ih ⊢
        by_cases h2 : d2.coordinate = b
        · simp only [List.map_cons, List.sum_cons, h2, if_true]
          omega
        · simp only [List.map_cons, List.sum_cons, h2, if_false]
          omega
    rcases List.mem_cons.1 h with rfl | hmem
    · have := mono dl
      unfold pending at this ⊢
      simp only [List.map_cons, List.sum_cons, hb, if_true]
      omega
    · have := pending_rest_le b hb dl hmem
      unfold pending at this ⊢
      by_cases h1 : d1.coordinate = b
      · simp only [List.map_cons, List.sum_cons, h1, if_true]
        omega
      · simp only [List.map_cons, List.sum_cons, h1, if_false]
        omega

theorem pending_close_le (b : List ℤ) (R : refresher K) (hnil : R.candidates = [])
    {d : domain} (hd : d ∈ R.P.domain_labels) (hb : d.coordinate = b) :
    pending (close_domain b R).domain_labels + d.candidates.length
      ≤ pending R.P.domain_labels := by
  unfold close_domain
  split
  · simp only []
    rw [pending_filter_eq]
    exact pending_rest_le b hb _ hd
  · simp only [hnil]
    rw [pending_map_eq]
    exact pending_rest_le b hb _ hd

/-- Refreshing a domain does not raise the weight of the open queue and of the
waiting candidates together. -/
theorem refresh_weight {E : collaborators K} {cur : ℕ} {P0 : trajectory_planner K}
    {tfp : ℕ → traj K} {P : trajectory_planner K} (hM : Mid E cur P0 tfp P) (b : List ℤ) :
    ((refresh E cur tfp P b).queue.map (weight_in P0 cur)).sum
        + child_weight P0 cur * pending (refresh E cur tfp P b).domain_labels
      ≤ (P.queue.map (weight_in P0 cur)).sum + child_weight P0 cur * pending P.domain_labels := by
  unfold refresh
  cases hf : find_domain P.domain_labels b with
  | none => exact le_refl _
  | some d =>
    obtain ⟨hd, hb⟩ := find_domain_some hf
    have hR : MidR E cur P0 tfp ⟨P, d.label, d.candidates, false⟩ :=
      ⟨hM, hM.label_lt d hd, hM.cands_fresh d hd⟩
    have h1 := refresh_loop_weight b d.candidates.length hR
    have h2 := refresh_loop_drains E cur tfp b d.candidates.length
      ⟨P, d.label, d.candidates, false⟩ (le_refl _)
    have h3 := pending_close_le b
      (refresh_loop E cur tfp b d.candidates.length ⟨P, d.label, d.candidates, false⟩) h2
      (d := d) (by rw [refresh_loop_domain_labels]; exact hd) hb
    rw [refresh_loop_domain_labels] at h3
    rw [h2] at h1
    simp only [List.length_nil, Nat.mul_zero, Nat.add_zero] at h1
    show ((close_domain b _).queue.map (weight_in P0 cur)).sum
      + child_weight P0 cur * pending (close_domain b _).domain_labels ≤ _
    have hq : (close_domain b (refresh_loop E cur tfp b d.candidates.length
        ⟨P, d.label, d.candidates, false⟩)).queue
        = (refresh_loop E cur tfp b d.candidates.length
          ⟨P, d.label, d.candidates, false⟩).P.queue := by
      rw [close_domain_eq]
    rw [hq]
    have h4 := Nat.mul_le_mul_left (child_weight P0 cur) h3
    rw [Nat.mul_add] at h4
    simp only [] at h1 h4 ⊢
    omega

theorem refresh_all_weight {E : collaborators K} {cur : ℕ} {P0 : trajectory_planner K}
    {tfp : ℕ → traj K} :
    ∀ (l : List (List ℤ)) (P : trajectory_planner K), Mid E cur P0 tfp P →
      ((l.foldl (refresh E cur tfp) P).queue.map (weight_in P0 cur)).sum
        ≤ (P.queue.map (weight_in P0 cur)).sum + child_weight P0 cur * pending P.domain_labels
  | [], P, _ => Nat.le_add_right _ _
  | b :: l, P, hM => by
    rw [List.foldl_cons]
    have h1 := refresh_all_weight l _ (mid_refresh hM b)
    have h2 := refresh_weight hM b
    omega

theorem tree_weight_succ (m : ℕ) (limit depth : ℤ) (h : depth < limit) :
    tree_weight m (remaining limit depth) = 1 + m * tree_weight m (remaining limit (depth + 1)) := by
  have e : remaining limit depth = remaining limit (depth + 1) + 1 := by
    unfold remaining
    omega
  rw [e]
  rfl

/-- Expanding a node below the depth limit lowers the weight of the open
queue. -/
theorem potential_expand_node {E : collaborators K} {P : trajectory_planner K} (hI : Inv E P)
    {cur : ℕ} (hm : cur ∈ P.queue) (hd : (deref P.heap cur).depth < P.depth_limit) :
    potential (expand_node E cur (pop_open cur { P with iter := P.iter + 1 })) + 1
      ≤ potential P := by
  have h2 := inv_popped hI hm
  have hc := hI.queue_lt cur hm
  obtain ⟨tfp, hM, -⟩ := expand_node_mid h2 hc
  have hstart := mid_start h2 hc (fun _ => (⟨[], []⟩ : traj K))
  obtain ⟨m1, -, -⟩ := control_loop_inv hstart h2.cands_nil P.controls.length (le_refl _)
  obtain ⟨q1, q2⟩ := control_loop_pending hstart h2.cands_nil P.controls.length (le_refl _)
  have h3 := refresh_all_weight (visit_order E (P.iter + 1)
    ((List.range P.controls.length).foldl (simulate E cur)
      ⟨pop_open cur { P with iter := P.iter + 1 }, [], fun _ => ⟨[], []⟩⟩).domains_needing_update)
    _ m1
  rw [q1] at h3
  have h4 : potential (expand_node E cur (pop_open cur { P with iter := P.iter + 1 }))
      ≤ ((P.queue.erase cur).map (weight_in (pop_open cur { P with iter := P.iter + 1 }) cur)).sum
        + child_weight (pop_open cur { P with iter := P.iter + 1 }) cur * P.controls.length := by
    rw [mid_potential hM]
    have h5 := Nat.mul_le_mul_left
      (child_weight (pop_open cur { P with iter := P.iter + 1 }) cur) q2
    exact le_trans h3 (Nat.add_le_add_left h5 _)
  have h6 : ((P.queue.erase cur).map
      (weight_in (pop_open cur { P with iter := P.iter + 1 }) cur)).sum
      = ((P.queue.erase cur).map (node_weight P)).sum := by
    congr 1
    apply List.map_congr_left
    intro q hq
    have hq2 := hI.queue_lt q (List.mem_of_mem_erase hq)
    unfold weight_in
    rw [if_pos (show q < (pop_open cur { P with iter := P.iter + 1 }).heap.length from hq2)]
    rfl
  have h7 : node_weight P cur + ((P.queue.erase cur).map (node_weight P)).sum = potential P :=
    List.sum_map_erase (node_weight P) hm
  have h8 : node_weight P cur
      = 1 + P.controls.length * child_weight (pop_open cur { P with iter := P.iter + 1 }) cur :=
    tree_weight_succ _ _ _ hd
  rw [h6] at h4
  rw [Nat.mul_comm] at h8
  omega

end termination

section termination_theorem
variable {K : Type} [LinearOrderedCommRing K] [FloorRing K]

/-- The two loops of `expand` leave `live` as it is unless they set
`foundGoal`. -/
theorem expand_node_live {E : collaborators K} {P0 : trajectory_planner K}
    (h2 : Inv E P0) {cur : ℕ} (hc : cur < P0.heap.length) :
    (expand_node E cur P0).live = P0.live ∨ (expand_node E cur P0).foundGoal = true := by
  refine expand_node_induct h2 hc (fun P => P.live = P0.live ∨ P.foundGoal = true)
    (Or.inl rfl) ?_ ?_ ?_
  · intro X i _ _ _ hq
    exact hq
  · intro tfp b R curr _ _ _ _ hq
    simp only [admit_candidate, goal_check_live, goal_check_foundGoal, push_open_live,
      push_open_foundGoal, add_child_live, add_child_foundGoal]
    split
    · exact Or.inr rfl
    · exact hq
  · intro P1 dl hq
    exact hq

/-- A call of `expand` on a live reachable planner either unsets `live`, for
one of the three reasons, or lowers the weight of the open queue. -/
theorem expand_progress {E : collaborators K} {I : setup K} {P : trajectory_planner K}
    (h : Reachable E I P) (hlive : P.live = true) :
    ((expand E P).live = false ∧ stop_reason E P) ∨
      ((expand E P).live = true ∧ potential (expand E P) + 1 ≤ potential P) := by
  have hI := reachable_inv h
  have hfg : P.foundGoal = false := by
    have key : goal_consistent E I.upper0 P := by
      clear hlive hI
      induction h with
      | init =>
        exact ⟨by simp [construct], fun _ => rfl, by simp [construct], by simp [construct]⟩
      | step P hP ih => exact goal_consistent_expand (reachable_inv hP) ih
    cases hf : P.foundGoal with
    | false => rfl
    | true =>
      rw [key.2.2.1 hf] at hlive
      exact absurd hlive (by simp)
  rcases expand_cases E P with ⟨hq, he⟩ | ⟨cur, htop, hm, ⟨hd, he⟩ | ⟨hd, he⟩⟩
  · left
    exact ⟨by rw [he], Or.inl hq⟩
  · left
    exact ⟨by rw [he], Or.inr (Or.inl ⟨cur, htop, hd⟩)⟩
  · have hdec := potential_expand_node (E := E) hI hm hd
    rw [← he] at hdec
    cases hl : (expand E P).live with
    | true => exact Or.inr ⟨rfl, hdec⟩
    | false =>
      left
      refine ⟨rfl, Or.inr (Or.inr ⟨hfg, ?_⟩)⟩
      rcases expand_node_live (E := E) (inv_popped hI hm) (hI.queue_lt cur hm) with h1 | h1
      · rw [← he, hl] at h1
        exact absurd (h1.trans hlive) (by simp)
      · rw [he]
        exact h1

theorem plan_of_not_live (E : collaborators K) (fuel : ℕ) {P : trajectory_planner K}
    (h : P.live = false) : plan E fuel P = some P := by
  cases fuel <;> simp [plan, h]

/-- From a live reachable planner, `plan` stops after finitely many calls of
`expand`. -/
theorem plan_stops_from {E : collaborators K} {I : setup K} :
    ∀ (N : ℕ) (P : trajectory_planner K), Reachable E I P → P.live = true →
      potential P ≤ N →
      ∃ n Q, Reachable E I Q ∧ Q.live = true ∧ (expand E Q).live = false ∧
        stop_reason E Q ∧ ∀ fuel, n < fuel → plan E fuel P = some (expand E Q)
  | N, P, h, hlive, hN => by
    rcases expand_progress h hlive with ⟨h1, h2⟩ | ⟨h1, h2⟩
    · refine ⟨0, P, h, hlive, h1, h2, ?_⟩
      intro fuel hf
      obtain ⟨k, rfl⟩ : ∃ k, fuel = k + 1 := ⟨fuel - 1, by omega⟩
      simp only [plan, hlive, if_true]
      exact plan_of_not_live E k h1
    · cases N with
      | zero => omega
      | succ N =>
        obtain ⟨n, Q, q1, q2, q3, q4, q5⟩ :=
          plan_stops_from N (expand E P) (Reachable.step P h) h1 (by omega)
        refine ⟨n + 1, Q, q1, q2, q3, q4, ?_⟩
        intro fuel hf
        obtain ⟨k, rfl⟩ : ∃ k, fuel = k + 1 := ⟨fuel - 1, by omega⟩
        simp only [plan, hlive, if_true]
        exact q5 k (by omega)

/-- C6 (termination): for every control grid, depth limit and collaborators,
`plan()` on the constructed planner stops: there is a number `n` of calls of
`expand` after which `live` is false, whatever fuel beyond `n` the loop is
given, and the last call, made on a live planner `Q`, found the open queue
empty, popped a node of depth at least `depth_limit`, or set `foundGoal`. -/
theorem plan_terminates (E : collaborators K) (I : setup K) :
    ∃ n Q, Reachable E I Q ∧ Q.live = true ∧ (expand E Q).live = false ∧
      stop_reason E Q ∧
      ∀ fuel, n < fuel → plan E fuel (construct E I) = some (expand E Q) :=
  plan_stops_from (potential (construct E I)) (construct E I) Reachable.init rfl (le_refl _)

end termination_theorem

section unique_labels_claim
variable {K : Type} [LinearOrderedCommRing K] [FloorRing K]

/-! ### P3: unique labels -/

end unique_labels_claim

section relabel_control_loop
variable {K : Type} [LinearOrderedCommRing K] [FloorRing K]

/-! ### Cell relabeling -/

end relabel_control_loop

section relabel_refresh
variable {K : Type} [LinearOrderedCommRing K] [FloorRing K]

end relabel_refresh

section relabel_self
variable {K : Type} [LinearOrderedCommRing K] [FloorRing K]

end relabel_self

section best_claims
variable {K : Type} [LinearOrderedCommRing K] [FloorRing K]

/-! ### The node `best` -/

/-- A call of `expand` changes no member of a node that exists before it, its
child slots apart. -/
theorem expand_old {E : collaborators K} {P : trajectory_planner K} (hI : Inv E P)
    {q : ℕ} (hq : q < P.heap.length) :
    (deref (expand E P).heap q).parent = (deref P.heap q).parent ∧
      (deref (expand E P).heap q).x = (deref P.heap q).x ∧
      (deref (expand E P).heap q).cost = (deref P.heap q).cost ∧
      (deref (expand E P).heap q).merit = (deref P.heap q).merit ∧
      (deref (expand E P).heap q).t = (deref P.heap q).t ∧
      (deref (expand E P).heap q).u_idx = (deref P.heap q).u_idx ∧
      (deref (expand E P).heap q).depth = (deref P.heap q).depth := by
  rcases expand_cases E P with ⟨-, h⟩ | ⟨cur, -, hm, ⟨-, h⟩ | ⟨-, h⟩⟩ <;> rw [h]
  · exact ⟨rfl, rfl, rfl, rfl, rfl, rfl, rfl⟩
  · exact ⟨rfl, rfl, rfl, rfl, rfl, rfl, rfl⟩
  · obtain ⟨tfp, hM, -⟩ := expand_node_mid (inv_popped hI hm) (hI.queue_lt cur hm)
    by_cases hc : q = cur
    · subst hc
      exact hM.old_cur
    · rw [hM.old q hq hc]
      exact ⟨rfl, rfl, rfl, rfl, rfl, rfl, rfl⟩

theorem expand_length_le {E : collaborators K} {P : trajectory_planner K} (hI : Inv E P) :
    P.heap.length ≤ (expand E P).heap.length := by
  rcases expand_cases E P with ⟨-, h⟩ | ⟨cur, -, hm, ⟨-, h⟩ | ⟨-, h⟩⟩
  · rw [h]
  · rw [h]
    exact Nat.le_refl _
  · rw [h]
    obtain ⟨tfp, hM, -⟩ := expand_node_mid (inv_popped hI hm) (hI.queue_lt cur hm)
    exact hM.len_le

theorem admit_best_eq (E : collaborators K) (cur : ℕ) (tfp : ℕ → traj K)
    (b : List ℤ) (R : refresher K) (curr : ℕ) :
    (admit_candidate E cur tfp b R curr).P.best =
      if ((E.inGoal (tfp curr)).1 &&
        below_best (add_child R.P cur curr).heap R.P.best
          (deref (add_child R.P cur curr).heap curr).cost) = true
      then some curr else R.P.best := by
  simp only [admit_candidate, goal_check_best, push_open_best, push_open_heap, add_child_best]

theorem admit_UPPER_eq (E : collaborators K) (cur : ℕ) (tfp : ℕ → traj K)
    (b : List ℤ) (R : refresher K) (curr : ℕ) :
    (admit_candidate E cur tfp b R curr).P.UPPER =
      if ((E.inGoal (tfp curr)).1 &&
        below_best (add_child R.P cur curr).heap R.P.best
          (deref (add_child R.P cur curr).heap curr).cost) = true
      then
        match tail_cost E R.P.controls (tfp curr) (E.inGoal (tfp curr)).2
          (deref (add_child R.P cur curr).heap curr).u_idx with
        | some tail => (deref (add_child R.P cur curr).heap curr).cost - tail
        | none => R.P.UPPER
      else R.P.UPPER := by
  simp only [admit_candidate, goal_check_UPPER, push_open_UPPER, push_open_heap,
    push_open_controls, push_open_best, add_child_UPPER, add_child_controls, add_child_best]

theorem admit_fault_eq (E : collaborators K) (cur : ℕ) (tfp : ℕ → traj K)
    (b : List ℤ) (R : refresher K) (curr : ℕ) :
    (admit_candidate E cur tfp b R curr).P.fault =
      if ((E.inGoal (tfp curr)).1 &&
        below_best (add_child R.P cur curr).heap R.P.best
          (deref (add_child R.P cur curr).heap curr).cost) = true
      then R.P.fault || (tail_cost E R.P.controls (tfp curr) (E.inGoal (tfp curr)).2
          (deref (add_child R.P cur curr).heap curr).u_idx).isNone
      else R.P.fault := by
  have h1 : ∀ Q : trajectory_planner K, (push_open curr Q).fault = Q.fault := by
    intro Q
    unfold push_open
    split <;> rfl
  have h2 : (add_child R.P cur curr).fault = R.P.fault := rfl
  simp only [admit_candidate, goal_check_fault, push_open_heap, push_open_controls,
    push_open_best, add_child_controls, add_child_best, h1, h2]

theorem best_least_admit {E : collaborators K} (cur : ℕ) (tfp : ℕ → traj K)
    (b : List ℤ) (R : refresher K) (curr : ℕ) (hq : best_least E R.P) :
    best_least E (admit_candidate E cur tfp b R curr).P := by
  intro a ha hg
  simp only [admit_candidate_hist_admitted, List.mem_append, List.mem_singleton] at ha
  rw [admit_best_eq]
  simp only [admit_candidate_heap]
  by_cases hc : ((E.inGoal (tfp curr)).1 &&
      below_best (add_child R.P cur curr).heap R.P.best
        (deref (add_child R.P cur curr).heap curr).cost) = true
  · rw [if_pos hc]
    refine ⟨curr, rfl, ?_⟩
    simp only [Bool.and_eq_true] at hc
    simp only [add_child_cost]
    rcases ha with ha | ha
    · obtain ⟨b1, hb1, hle⟩ := hq a ha hg
      have h2 := hc.2
      rw [hb1] at h2
      simp only [below_best, add_child_cost, decide_eq_true_eq] at h2
      exact le_trans (le_of_lt h2) hle
    · subst ha
      exact le_refl _
  · rw [if_neg hc]
    simp only [add_child_cost]
    rcases ha with ha | ha
    · exact hq a ha hg
    · subst ha
      simp only [Bool.and_eq_true, not_and] at hc
      have h2 := hc hg
      cases hb : R.P.best with
      | none => rw [hb] at h2; simp [below_best] at h2
      | some b1 =>
        rw [hb] at h2
        simp only [below_best, add_child_cost, decide_eq_true_eq, not_lt] at h2
        exact ⟨b1, rfl, h2⟩

theorem best_least_expand {E : collaborators K} {P : trajectory_planner K}
    (hI : Inv E P) (hQ : best_least E P) : best_least E (expand E P) := by
  rcases expand_cases E P with ⟨-, h⟩ | ⟨cur, -, hm, ⟨-, h⟩ | ⟨-, h⟩⟩ <;> rw [h]
  · exact hQ
  · exact hQ
  · refine expand_node_induct (inv_popped hI hm)
      (hI.queue_lt cur hm) (best_least E) hQ ?_ ?_ ?_
    · intro X i hM _ _ hq a ha hg
      simp only [simulate_admitted] at ha
      obtain ⟨b1, hb1, hle⟩ := hq a ha hg
      refine ⟨b1, hb1, ?_⟩
      simp only [simulate_heap]
      rw [deref_append_left _ _ _ (hM.best_lt b1 hb1),
        deref_append_left _ _ _ (hM.admitted_lt a ha).1]
      exact hle
    · intro tfp b R curr _ _ _ _ hq
      exact best_least_admit cur tfp b R curr hq
    · intro P1 dl hq
      exact hq

theorem reachable_best_least {E : collaborators K} {I : setup K} {P : trajectory_planner K}
    (h : Reachable E I P) : best_least E P := by
  induction h with
  | init => intro a ha; simp [construct] at ha
  | step P hP ih => exact best_least_expand (reachable_inv hP) ih

theorem best_drop_admit {E : collaborators K} {P0 : trajectory_planner K} (cur : ℕ)
    (tfp : ℕ → traj K) (b : List ℤ) (R : refresher K) (curr : ℕ)
    (hq : best_drop R.P.heap P0 R.P) :
    best_drop (admit_candidate E cur tfp b R curr).P.heap P0
      (admit_candidate E cur tfp b R curr).P := by
  have hcong : ∀ c : K, below_best (add_child R.P cur curr).heap P0.best c
      = below_best R.P.heap P0.best c :=
    fun c => below_best_congr _ _ (fun l _ => add_child_cost R.P cur curr l)
  unfold best_drop
  rw [admit_best_eq]
  simp only [admit_candidate_heap]
  by_cases hc : ((E.inGoal (tfp curr)).1 &&
      below_best (add_child R.P cur curr).heap R.P.best
        (deref (add_child R.P cur curr).heap curr).cost) = true
  · rw [if_pos hc]
    right
    refine ⟨curr, rfl, ?_⟩
    simp only [Bool.and_eq_true] at hc
    have h2 := hc.2
    rw [hcong, add_child_cost]
    rcases hq with hq | ⟨b1, hb1, hlt⟩
    · rw [hq, add_child_cost, hcong] at h2
      exact h2
    · rw [hb1] at h2
      simp only [below_best, add_child_cost, decide_eq_true_eq] at h2
      cases hb : P0.best with
      | none => rfl
      | some l =>
        rw [hb] at hlt
        simp only [below_best, decide_eq_true_eq] at hlt ⊢
        exact lt_trans h2 hlt
  · rw [if_neg hc]
    rcases hq with hq | ⟨b1, hb1, hlt⟩
    · exact Or.inl hq
    · right
      refine ⟨b1, hb1, ?_⟩
      rw [hcong, add_child_cost]
      exact hlt

theorem best_drop_expand {E : collaborators K} {P : trajectory_planner K} (hI : Inv E P) :
    best_drop (expand E P).heap P (expand E P) := by
  rcases expand_cases E P with ⟨-, h⟩ | ⟨cur, -, hm, ⟨-, h⟩ | ⟨-, h⟩⟩ <;> rw [h]
  · exact Or.inl rfl
  · exact Or.inl rfl
  · have hI2 := inv_popped hI hm
    refine expand_node_induct hI2
      (hI.queue_lt cur hm)
      (fun P1 => best_drop P1.heap (pop_open cur { P with iter := P.iter + 1 }) P1)
      (Or.inl rfl) ?_ ?_ ?_
    · intro X i hM _ _ hq
      rcases hq with hq | ⟨b1, hb1, hlt⟩
      · exact Or.inl hq
      · right
        refine ⟨b1, hb1, ?_⟩
        simp only [simulate_heap]
        rw [deref_append_left _ _ _ (hM.best_lt b1 hb1)]
        rw [below_best_congr (h := X.P.heap) _ _ (fun l hl => by
          rw [deref_append_left _ _ _ (lt_of_lt_of_le (hI2.best_lt l hl) hM.len_le)])]
        exact hlt
    · intro tfp b R curr _ _ _ _ hq
      exact best_drop_admit cur tfp b R curr hq
    · intro P1 dl hq
      exact hq

/-- C20 (the node `best`): in every reachable state `best` costs no more than
any admitted node whose incoming arc the goal collaborator reported in the
goal; a call of `expand` leaves `best` as it is or replaces it by a node of
strictly smaller cost (any node replaces the sentinel), so the cost of `best`
never increases. -/
theorem best_is_least {E : collaborators K} {I : setup K} {P : trajectory_planner K}
    (h : Reachable E I P) :
    (∀ a ∈ P.hist_admitted, (E.inGoal a.arc).1 = true →
      ∃ b, P.best = some b ∧ (deref P.heap b).cost ≤ (deref P.heap a.child).cost) ∧
    ((expand E P).best = P.best ∨ ∃ b1, (expand E P).best = some b1 ∧
      below_best P.heap P.best (deref (expand E P).heap b1).cost = true) ∧
    (∀ b, P.best = some b → ∃ b1, (expand E P).best = some b1 ∧
      (deref (expand E P).heap b1).cost ≤ (deref P.heap b).cost) := by
  have hI := reachable_inv h
  have hdrop : (expand E P).best = P.best ∨ ∃ b1, (expand E P).best = some b1 ∧
      below_best P.heap P.best (deref (expand E P).heap b1).cost = true := by
    rcases best_drop_expand (E := E) hI with hd | ⟨b1, hb1, hlt⟩
    · exact Or.inl hd
    · right
      refine ⟨b1, hb1, ?_⟩
      rw [← @below_best_congr K _ _ P.heap (expand E P).heap _ _
        (fun l hl => (expand_old hI (hI.best_lt l hl)).2.2.1)]
      exact hlt
  refine ⟨reachable_best_least h, hdrop, ?_⟩
  intro b hb
  rcases hdrop with hd | ⟨b1, hb1, hlt⟩
  · refine ⟨b, by rw [hd, hb], ?_⟩
    rw [(expand_old hI (hI.best_lt b hb)).2.2.1]
  · refine ⟨b1, hb1, ?_⟩
    rw [hb] at hlt
    simp only [below_best, decide_eq_true_eq] at hlt
    exact le_of_lt hlt

end best_claims

section upper_claims
variable {K : Type} [LinearOrderedCommRing K] [FloorRing K]

/-! ### The upper bound and the tail cost -/

theorem add_child_u_idx (P : trajectory_planner K) (p c q : ℕ) :
    (deref (add_child P p c).heap q).u_idx = (deref P.heap q).u_idx := by
  rw [deref_add_child]
  split_ifs with h1 h2 h3 <;> simp_all

/-- The tail cost has a value exactly when `time[num-1]` and
`controls[u_idx][0]` exist, and then it is computed from these elements. -/
theorem tail_cost_eq_some (E : collaborators K) (U : List (List K)) (τ : traj K) (k : ℤ)
    (i : ℕ) (tail : K) :
    tail_cost E U τ k i = some tail ↔
      ∃ tk u u0, 1 ≤ k ∧ τ.time[(k - 1).toNat]? = some tk ∧ U[i]? = some u ∧
        u[0]? = some u0 ∧ tail = (τ.back_time - tk) * (1 + E.Lip_cost * sqr u0) := by
  unfold tail_cost read_at
  by_cases hk : 0 ≤ k - 1
  · rw [if_pos hk]
    simp only [Option.bind_eq_some, Option.map_eq_some']
    constructor
    · rintro ⟨tk, h1, u, h2, u0, h3, h4⟩
      exact ⟨tk, u, u0, by omega, h1, h2, h3, h4.symm⟩
    · rintro ⟨tk, u, u0, -, h1, h2, h3, h4⟩
      exact ⟨tk, h1, u, h2, u0, h3, h4.symm⟩
  · rw [if_neg hk]
    constructor
    · intro h
      exact absurd h (by simp)
    · rintro ⟨tk, u, u0, h1, -⟩
      omega

/-- With `num = 0` the read `time[num-1]` is outside the vector. -/
theorem tail_cost_first_sample (E : collaborators K) (U : List (List K)) (τ : traj K)
    (i : ℕ) : tail_cost E U τ 0 i = none := by
  simp [tail_cost, read_at]

theorem upper_recorded_admit {E : collaborators K} (cur : ℕ) (tfp : ℕ → traj K)
    (b : List ℤ) (R : refresher K) (curr : ℕ) (hq : upper_recorded E R.P) :
    upper_recorded E (admit_candidate E cur tfp b R curr).P := by
  intro l hl
  rw [admit_best_eq] at hl
  rw [admit_UPPER_eq, admit_fault_eq]
  simp only [admit_candidate_heap, admit_candidate_controls, admit_candidate_hist_admitted]
  by_cases hc : ((E.inGoal (tfp curr)).1 &&
      below_best (add_child R.P cur curr).heap R.P.best
        (deref (add_child R.P cur curr).heap curr).cost) = true
  · rw [if_pos hc] at hl
    rw [if_pos hc, if_pos hc]
    simp only [Option.some.injEq] at hl
    subst hl
    simp only [Bool.and_eq_true] at hc
    refine ⟨⟨b, R.label, cur, curr, tfp curr⟩, by simp, rfl, hc.1, ?_, ?_⟩
    · intro tail ht
      show (match tail_cost E R.P.controls (tfp curr) (E.inGoal (tfp curr)).2
          (deref (add_child R.P cur curr).heap curr).u_idx with
        | some tail => (deref (add_child R.P cur curr).heap curr).cost - tail
        | none => R.P.UPPER) = _
      rw [ht]
    · intro hf
      show (tail_cost E R.P.controls (tfp curr) (E.inGoal (tfp curr)).2
          (deref (add_child R.P cur curr).heap curr).u_idx).isSome = true
      simp only [Bool.or_eq_false_iff] at hf
      cases ht : tail_cost E R.P.controls (tfp curr) (E.inGoal (tfp curr)).2
          (deref (add_child R.P cur curr).heap curr).u_idx with
      | none => rw [ht] at hf; simp at hf
      | some t => rfl
  · rw [if_neg hc] at hl
    rw [if_neg hc, if_neg hc]
    obtain ⟨a, ha, h1, h2, h3, h4⟩ := hq l hl
    refine ⟨a, by simp [ha], h1, h2, ?_, ?_⟩
    · rw [add_child_cost, add_child_u_idx]
      exact h3
    · rw [add_child_u_idx]
      exact h4

theorem upper_recorded_expand {E : collaborators K} {P : trajectory_planner K}
    (hI : Inv E P) (hQ : upper_recorded E P) : upper_recorded E (expand E P) := by
  rcases expand_cases E P with ⟨-, h⟩ | ⟨cur, -, hm, ⟨-, h⟩ | ⟨-, h⟩⟩ <;> rw [h]
  · exact hQ
  · exact hQ
  · refine expand_node_induct (inv_popped hI hm)
      (hI.queue_lt cur hm) (upper_recorded E) hQ ?_ ?_ ?_
    · intro X i hM _ _ hq l hl
      simp only [simulate_best] at hl
      obtain ⟨a, ha, h1, h2, h3, h4⟩ := hq l hl
      refine ⟨a, ha, h1, h2, ?_, ?_⟩
      · simp only [simulate_heap, simulate_UPPER, simulate_controls]
        rw [deref_append_left _ _ _ (hM.best_lt l hl)]
        exact h3
      · simp only [simulate_heap, simulate_controls]
        rw [deref_append_left _ _ _ (hM.best_lt l hl)]
        exact h4
    · intro tfp b R curr _ _ _ _ hq
      exact upper_recorded_admit cur tfp b R curr hq
    · intro P1 dl hq
      exact hq

theorem reachable_upper_recorded {E : collaborators K} {I : setup K}
    {P : trajectory_planner K} (h : Reachable E I P) : upper_recorded E P := by
  induction h with
  | init => intro l hl; simp [construct] at hl
  | step P hP ih => exact upper_recorded_expand (reachable_inv hP) ih

/-- C11 (goal handling), as amended: in every reachable state with a recorded
`best`, the node `best` was admitted with an arc `τ` that the goal collaborator
reported in the goal, leaving the value `k` in `num`.  Where `1 ≤ k`, the
sample `τ.time[k - 1]` exists and the control `U[best.u_idx]` has a first
component,
`UPPER = best.cost - (τ.time.last - τ.time[k - 1]) * (1 + L_c * (U[best.u_idx][0])²)`,
in which only the first component of the control is squared; and these
elements exist when no read of the goal branch was outside its vector. -/
theorem upper_tail {E : collaborators K} {I : setup K} {P : trajectory_planner K}
    (h : Reachable E I P) (l : ℕ) (hb : P.best = some l) :
    ∃ a ∈ P.hist_admitted, a.child = l ∧ (E.inGoal a.arc).1 = true ∧
      (∀ tk u u0, 1 ≤ (E.inGoal a.arc).2 →
        a.arc.time[((E.inGoal a.arc).2 - 1).toNat]? = some tk →
        I.controls[(deref P.heap l).u_idx]? = some u → u[0]? = some u0 →
        P.UPPER = (deref P.heap l).cost
          - (a.arc.back_time - tk) * (1 + E.Lip_cost * sqr u0)) ∧
      (P.fault = false → ∃ tk u u0, 1 ≤ (E.inGoal a.arc).2 ∧
        a.arc.time[((E.inGoal a.arc).2 - 1).toNat]? = some tk ∧
        I.controls[(deref P.heap l).u_idx]? = some u ∧ u[0]? = some u0) := by
  obtain ⟨a, ha, h1, h2, h3, h4⟩ := reachable_upper_recorded h l hb
  rw [(reachable_params h).2.2.2.2.1] at h3 h4
  refine ⟨a, ha, h1, h2, ?_, ?_⟩
  · intro tk u u0 k1 k2 k3 k4
    exact h3 _ ((tail_cost_eq_some E _ _ _ _ _).2 ⟨tk, u, u0, k1, k2, k3, k4, rfl⟩)
  · intro hf
    have hs := h4 hf
    obtain ⟨tail, ht⟩ := Option.isSome_iff_exists.1 hs
    obtain ⟨tk, u, u0, k1, k2, k3, k4, -⟩ := (tail_cost_eq_some E _ _ _ _ _).1 ht
    exact ⟨tk, u, u0, k1, k2, k3, k4⟩

end upper_claims

section exit_claims
variable {K : Type} [LinearOrderedCommRing K] [FloorRing K]

/-! ### The early exits of `expand` and the candidate queues -/

/-- C14 (early exits): when the open queue is empty, or the node at its top has
a depth of at least `depth_limit`, `expand` unsets `live` and increments
`iter`; it creates no node, calls `add_child` on none and offers none to a
domain, and leaves the heap (so the tree), the root, the partition index,
`best`, `UPPER` and `foundGoal` as they were.  On an empty queue the queue is
unchanged too; at the depth limit it loses the node that was popped. -/
theorem early_exit (E : collaborators K) (P : trajectory_planner K) (h : stops_early P) :
    (expand E P).live = false ∧ (expand E P).iter = P.iter + 1 ∧
    (expand E P).heap = P.heap ∧ (expand E P).root_ptr = P.root_ptr ∧
    (expand E P).hist_admitted = P.hist_admitted ∧
    (expand E P).hist_offered = P.hist_offered ∧
    (expand E P).domain_labels = P.domain_labels ∧
    (expand E P).best = P.best ∧ (expand E P).UPPER = P.UPPER ∧
    (expand E P).foundGoal = P.foundGoal ∧
    (P.queue = [] → (expand E P).queue = P.queue) ∧
    (∀ cur, pq_top (queue_order P.heap) P.queue = some cur →
      (expand E P).queue = P.queue.erase cur) := by
  rcases expand_cases E P with ⟨h0, he⟩ | ⟨cur, htop, hm, ⟨hd, he⟩ | ⟨hd, he⟩⟩
  · rw [he]
    refine ⟨rfl, rfl, rfl, rfl, rfl, rfl, rfl, rfl, rfl, rfl, fun _ => rfl, ?_⟩
    intro c hc
    rw [h0] at hc
    simp [pq_top] at hc
  · rw [he]
    refine ⟨rfl, rfl, rfl, rfl, rfl, rfl, rfl, rfl, rfl, rfl, ?_, ?_⟩
    · intro h0
      rw [h0] at hm
      simp at hm
    · intro c hc
      rw [htop] at hc
      simp only [Option.some.injEq] at hc
      subst hc
      rfl
  · exfalso
    rcases h with h | ⟨c, hc, hle⟩
    · rw [h] at hm
      simp at hm
    · rw [htop] at hc
      simp only [Option.some.injEq] at hc
      subst hc
      omega

theorem admitted_by_expand_node {E : collaborators K} {P0 : trajectory_planner K}
    (hI : Inv E P0) {cur : ℕ} (hc : cur < P0.heap.length) :
    ∃ l, (expand_node E cur P0).hist_admitted = P0.hist_admitted ++ l ∧
      ∀ a ∈ l, a.parent = cur ∧ P0.heap.length ≤ a.child ∧
        a.child - P0.heap.length < P0.controls.length ∧
        a.arc = arc_of E P0 cur (a.child - P0.heap.length) := by
  refine expand_node_induct hI hc
    (fun P1 => ∃ l, P1.hist_admitted = P0.hist_admitted ++ l ∧
      ∀ a ∈ l, a.parent = cur ∧ P0.heap.length ≤ a.child ∧
        a.child - P0.heap.length < P0.controls.length ∧
        a.arc = arc_of E P0 cur (a.child - P0.heap.length))
    ⟨[], by simp, by simp⟩ ?_ ?_ ?_
  · intro X i _ _ _ hq
    exact hq
  · intro tfp b R curr hR hcand _ _ hq
    obtain ⟨l, hl, hall⟩ := hq
    obtain ⟨hM, -, hcands⟩ := hR
    obtain ⟨hge, hlt⟩ := hcands curr hcand
    obtain ⟨hf1, hf2, -⟩ := hM.fresh curr hge hlt
    refine ⟨l ++ [⟨b, R.label, cur, curr, tfp curr⟩], ?_, ?_⟩
    · simp only [admit_candidate_hist_admitted, hl, List.append_assoc]
    · intro a ha
      simp only [List.mem_append, List.mem_singleton] at ha
      rcases ha with ha | ha
      · exact hall a ha
      · subst ha
        exact ⟨rfl, hge, hf1, hf2⟩
  · intro P1 dl hq
    exact hq

/-- A call of `expand` only appends to the record of admissions. -/
theorem expand_hist_admitted {E : collaborators K} {P : trajectory_planner K} (hI : Inv E P) :
    ∃ l, (expand E P).hist_admitted = P.hist_admitted ++ l := by
  rcases expand_cases E P with ⟨-, he⟩ | ⟨cur, htop, hm, ⟨-, he⟩ | ⟨-, he⟩⟩
  · exact ⟨[], by rw [he]; simp⟩
  · exact ⟨[], by rw [he]; simp [pop_open]⟩
  · obtain ⟨l, hl, -⟩ := admitted_by_expand_node (E := E) (inv_popped hI hm)
      (hI.queue_lt cur hm)
    exact ⟨l, by rw [he]; exact hl⟩

/-- C19 (drained candidate queues): in every reachable state every domain of
the partition index has an empty candidate queue, and every call of
`add_child` that the next call of `expand` makes is on a node this call
created, under the node this call popped, with the arc this call integrated
for the node. -/
theorem candidates_drained {E : collaborators K} {I : setup K} {P : trajectory_planner K}
    (h : Reachable E I P) :
    (∀ d ∈ P.domain_labels, d.candidates = []) ∧
    ∃ l, (expand E P).hist_admitted = P.hist_admitted ++ l ∧ ∀ a ∈ l, admitted_by E P a := by
  have hI := reachable_inv h
  refine ⟨hI.cands_nil, ?_⟩
  rcases expand_cases E P with ⟨-, he⟩ | ⟨cur, htop, hm, ⟨-, he⟩ | ⟨-, he⟩⟩
  · exact ⟨[], by rw [he]; simp, by simp⟩
  · exact ⟨[], by rw [he]; simp [pop_open], by simp⟩
  · obtain ⟨l, hl, hall⟩ := admitted_by_expand_node (E := E) (inv_popped hI hm)
      (hI.queue_lt cur hm)
    refine ⟨l, by rw [he]; exact hl, ?_⟩
    intro a ha
    obtain ⟨h1, h2, h3, h4⟩ := hall a ha
    exact ⟨cur, htop, h1, h2, h3, h4⟩

end exit_claims

section path_claims
variable {K : Type} [LinearOrderedCommRing K] [FloorRing K]

/-! ### The path to the root -/

theorem anchored_mono {P P1 : trajectory_planner K} {c : ℕ}
    (hsub : ∀ a ∈ P.hist_admitted, a ∈ P1.hist_admitted) (h : anchored P c) : anchored P1 c := by
  rcases h with h | ⟨a, ha, h2⟩
  · exact Or.inl h
  · exact Or.inr ⟨a, hsub a ha, h2⟩

theorem chained_expand_node {E : collaborators K} {P0 : trajectory_planner K}
    (hI : Inv E P0) {cur : ℕ} (hc : cur < P0.heap.length) (hcur : anchored P0 cur)
    (hQ : chained P0) : chained (expand_node E cur P0) := by
  have key := expand_node_induct hI hc
    (fun P1 => chained P1 ∧ anchored P1 cur) ⟨hQ, hcur⟩ ?_ ?_ ?_
  · exact key.1
  · intro X i _ _ _ hq
    exact hq
  · intro tfp b R curr hR hcand _ _ hq
    obtain ⟨⟨h1, h2⟩, h3⟩ := hq
    obtain ⟨hM, -, hcands⟩ := hR
    obtain ⟨hge, hlt⟩ := hcands curr hcand
    have hsub : ∀ a ∈ R.P.hist_admitted,
        a ∈ (admit_candidate E cur tfp b R curr).P.hist_admitted := by
      intro a ha
      simp [ha]
    have hnew : admitted (admit_candidate E cur tfp b R curr).P curr :=
      ⟨⟨b, R.label, cur, curr, tfp curr⟩, by simp, rfl⟩
    refine ⟨⟨?_, ?_⟩, anchored_mono hsub h3⟩
    · intro a ha
      simp only [admit_candidate_hist_admitted, List.mem_append, List.mem_singleton] at ha
      rcases ha with ha | ha
      · exact ⟨(h1 a ha).1, anchored_mono hsub (h1 a ha).2⟩
      · subst ha
        have := hM.cur_lt
        exact ⟨by show cur < curr; omega, anchored_mono hsub h3⟩
    · intro q hq
      rw [admit_candidate_queue] at hq
      split at hq
      · exact anchored_mono hsub (h2 q hq)
      · simp only [List.mem_append, List.mem_singleton] at hq
        rcases hq with hq | hq
        · exact anchored_mono hsub (h2 q hq)
        · subst hq
          exact Or.inr hnew
  · intro P1 dl hq
    exact hq

theorem chained_expand {E : collaborators K} {P : trajectory_planner K} (hI : Inv E P)
    (hQ : chained P) : chained (expand E P) := by
  rcases expand_cases E P with ⟨-, h⟩ | ⟨cur, -, hm, ⟨-, h⟩ | ⟨-, h⟩⟩ <;> rw [h]
  · exact hQ
  · exact ⟨hQ.1, fun q hq => hQ.2 q (List.mem_of_mem_erase hq)⟩
  · refine chained_expand_node (inv_popped hI hm) (hI.queue_lt cur hm) (hQ.2 cur hm)
      ⟨hQ.1, fun q hq => hQ.2 q (List.mem_of_mem_erase hq)⟩

theorem reachable_chained {E : collaborators K} {I : setup K} {P : trajectory_planner K}
    (h : Reachable E I P) : chained P := by
  induction h with
  | init =>
    refine ⟨fun a ha => by simp [construct] at ha, fun q hq => ?_⟩
    simp [construct] at hq
    exact Or.inl hq
  | step P hP ih => exact chained_expand (reachable_inv hP) ih

theorem parent_walk_anchored {E : collaborators K} {P : trajectory_planner K} (hI : Inv E P)
    (hC : chained P) (c : ℕ) : anchored P c →
    ∃ path : List ℕ,
      (∀ fuel : ℕ, (deref P.heap c).depth < (fuel : ℤ) →
        parent_walk P.heap fuel c = some path) ∧
      (path.length : ℤ) = (deref P.heap c).depth + 1 ∧
      path.head? = some c ∧ path.getLast? = some 0 ∧ parent_chain P.heap path ∧
      ∀ q ∈ path, (deref P.heap q).parent = none → q = 0 := by
  induction c using Nat.strong_induction_on with
  | _ c ih =>
    intro hc
    by_cases h0 : c = 0
    · subst h0
      refine ⟨[0], ?_, ?_, rfl, rfl, trivial, ?_⟩
      · intro fuel hf
        rw [hI.root_depth] at hf
        obtain ⟨k, rfl⟩ : ∃ k, fuel = k + 1 := ⟨fuel - 1, by omega⟩
        simp only [parent_walk, hI.root_parent]
      · rw [hI.root_depth]
        rfl
      · intro q hq _
        simpa using hq
    · rcases hc with hc | ⟨a, ha, hac⟩
      · exact absurd hc h0
      · obtain ⟨hlt, hanc⟩ := hC.1 a ha
        obtain ⟨hpar, hdep⟩ := hI.admitted_parent a ha
        rw [hac] at hpar hdep hlt
        obtain ⟨path, h1, h2, h3, h4, h5, h6⟩ := ih a.parent hlt hanc
        obtain ⟨l, rfl⟩ : ∃ l, path = a.parent :: l := by
          cases path with
          | nil => simp at h3
          | cons p l =>
            simp only [List.head?_cons, Option.some.injEq] at h3
            exact ⟨l, by rw [h3]⟩
        refine ⟨c :: a.parent :: l, ?_, ?_, rfl, ?_, ⟨hpar, h5⟩, ?_⟩
        · intro fuel hf
          obtain ⟨k, rfl⟩ : ∃ k, fuel = k + 1 := ⟨fuel - 1, by omega⟩
          simp only [parent_walk, hpar]
          rw [h1 k (by push_cast at hf; omega)]
          rfl
        · simp only [List.length_cons] at h2 ⊢
          push_cast at h2 ⊢
          omega
        · rw [List.getLast?_cons_cons]
          exact h4
        · intro q hq hnone
          simp only [List.mem_cons] at hq
          rcases hq with hq | hq
          · subst hq
            rw [hpar] at hnone
            exact absurd hnone (by simp)
          · exact h6 q (by simpa using hq) hnone

/-- C17 (`path_to_root`): in every reachable state with a recorded `best`, the
walk of `path_to_root` stops after `best.depth + 1` nodes; `path_to_root(false)`
is the chain `best = q₀, q₁, …, q_k = root` with `q_{j+1} = q_j.parent` and
`k = best.depth`, the root is the only node of the chain without a parent, and
`path_to_root(true)` is the same list reversed. -/
theorem path_to_root_spec {E : collaborators K} {I : setup K} {P : trajectory_planner K}
    (h : Reachable E I P) (b : ℕ) (hb : P.best = some b) :
    ∃ path : List ℕ,
      (∀ fuel : ℕ, (deref P.heap b).depth < (fuel : ℤ) →
        path_to_root P false fuel = some (path.map some) ∧
        path_to_root P true fuel = some ((path.map some).reverse)) ∧
      (path.length : ℤ) = (deref P.heap b).depth + 1 ∧
      path.head? = some b ∧ path.getLast? = some P.root_ptr ∧
      (deref P.heap P.root_ptr).parent = none ∧ parent_chain P.heap path ∧
      ∀ q ∈ path, (deref P.heap q).parent = none → q = P.root_ptr := by
  have hI := reachable_inv h
  obtain ⟨a, ha, hab, -⟩ := reachable_upper_recorded h b hb
  obtain ⟨path, h1, h2, h3, h4, h5, h6⟩ :=
    parent_walk_anchored hI (reachable_chained h) b (Or.inr ⟨a, ha, hab⟩)
  rw [hI.root_ptr]
  refine ⟨path, ?_, h2, h3, h4, hI.root_parent, h5, h6⟩
  intro fuel hf
  simp only [path_to_root, hb, h1 fuel hf, Option.map_some']
  exact ⟨rfl, by rw [if_pos trivial, List.map_reverse]⟩

end path_claims

section recovery_claims
variable {K : Type} [LinearOrderedCommRing K] [FloorRing K]

/-! ### The recovered trajectory -/

/-- C15 (`recover_traj` on short paths): on a path of one node `recover_traj`
returns the empty trajectory, but on the empty path its first statement reads
`path[0]`, an element that does not exist. -/
theorem recover_traj_short (E : collaborators K) (P : trajectory_planner K) :
    recover_traj E P [] = none ∧ ∀ p, recover_traj E P [p] = some ⟨[], []⟩ :=
  ⟨rfl, fun _ => rfl⟩

end recovery_claims

section order_claims
variable {K : Type} [LinearOrderedCommRing K] [FloorRing K]

/-! ### The order of the domain refreshes -/

theorem orderedInsert_iff {α : Type} (r1 r2 : α → α → Prop) [DecidableRel r1]
    [DecidableRel r2] (h : ∀ a b, r1 a b ↔ r2 a b) (a : α) :
    ∀ l : List α, l.orderedInsert r1 a = l.orderedInsert r2 a
  | [] => rfl
  | b :: l => by
    simp only [List.orderedInsert, h a b, orderedInsert_iff r1 r2 h a l]

theorem insertionSort_iff {α : Type} (r1 r2 : α → α → Prop) [DecidableRel r1]
    [DecidableRel r2] (h : ∀ a b, r1 a b ↔ r2 a b) :
    ∀ l : List α, l.insertionSort r1 = l.insertionSort r2
  | [] => rfl
  | a :: l => by
    simp only [List.insertionSort, insertionSort_iff r1 r2 h l, orderedInsert_iff r1 r2 h]

theorem visit_order_congr {E1 E2 : collaborators K} (h : same_order E1 E2) (iter : ℤ)
    (l : List (List ℤ)) : visit_order E1 iter l = visit_order E2 iter l :=
  insertionSort_iff _ _ (h iter) l

theorem refresh_loop_address (sim : K → K → List K → List K → traj K)
    (cost : traj K → List K → K) (Lc : K) (ctg : List K → K) (free : traj K → Bool)
    (goal : traj K → Bool × ℤ) (a1 a2 : ℤ → List ℤ → ℕ) (cur : ℕ) (tfp : ℕ → traj K)
    (b : List ℤ) : ∀ (n : ℕ) (R : refresher K),
    refresh_loop ⟨sim, cost, Lc, ctg, free, goal, a1⟩ cur tfp b n R
      = refresh_loop ⟨sim, cost, Lc, ctg, free, goal, a2⟩ cur tfp b n R
  | 0, _ => rfl
  | n + 1, R => by
    simp only [refresh_loop]
    cases pq_top (candidate_order R.P.heap) R.candidates with
    | none => rfl
    | some curr =>
      exact refresh_loop_address sim cost Lc ctg free goal a1 a2 cur tfp b n _

theorem expand_address (sim : K → K → List K → List K → traj K)
    (cost : traj K → List K → K) (Lc : K) (ctg : List K → K) (free : traj K → Bool)
    (goal : traj K → Bool × ℤ) (a1 a2 : ℤ → List ℤ → ℕ)
    (h : same_order (⟨sim, cost, Lc, ctg, free, goal, a1⟩ : collaborators K)
      ⟨sim, cost, Lc, ctg, free, goal, a2⟩) (P : trajectory_planner K) :
    expand ⟨sim, cost, Lc, ctg, free, goal, a1⟩ P
      = expand ⟨sim, cost, Lc, ctg, free, goal, a2⟩ P := by
  have hrefresh : ∀ (cur : ℕ) (tfp : ℕ → traj K),
      refresh (⟨sim, cost, Lc, ctg, free, goal, a1⟩ : collaborators K) cur tfp
        = refresh ⟨sim, cost, Lc, ctg, free, goal, a2⟩ cur tfp := by
    intro cur tfp
    funext P1 b
    unfold refresh
    cases find_domain P1.domain_labels b with
    | none => rfl
    | some d =>
      show close_domain b _ = close_domain b _
      rw [refresh_loop_address sim cost Lc ctg free goal a1 a2]
  have hnode : ∀ (cur : ℕ) (P1 : trajectory_planner K),
      expand_node (⟨sim, cost, Lc, ctg, free, goal, a1⟩ : collaborators K) cur P1
        = expand_node ⟨sim, cost, Lc, ctg, free, goal, a2⟩ cur P1 := by
    intro cur P1
    unfold expand_node
    have hsim : simulate (⟨sim, cost, Lc, ctg, free, goal, a1⟩ : collaborators K) cur
        = simulate ⟨sim, cost, Lc, ctg, free, goal, a2⟩ cur := rfl
    simp only [hsim, hrefresh, visit_order_congr h]
  unfold expand
  simp only [hnode]

/-- C18 (determinism), as amended: the result of `expand`, and so the result
of `plan`, is a function of the planner state, the parameters, the
collaborators and the order of the addresses of the domain objects: two runs
whose collaborators compute the same functions and whose domain objects lie in
the same order give the same planner after every call of `expand` and the same
result of `plan`. -/
theorem expand_deterministic (E1 E2 : collaborators K) (hfun : same_functions E1 E2)
    (hord : same_order E1 E2) (P : trajectory_planner K) :
    expand E1 P = expand E2 P ∧ ∀ fuel, plan E1 fuel P = plan E2 fuel P := by
  obtain ⟨s1, c1, L1, g1, f1, i1, a1⟩ := E1
  obtain ⟨s2, c2, L2, g2, f2, i2, a2⟩ := E2
  obtain ⟨h1, h2, h3, h4, h5, h6⟩ := hfun
  simp only at h1 h2 h3 h4 h5 h6
  subst h1 h2 h3 h4 h5 h6
  have hexp := expand_address s1 c1 L1 g1 f1 i1 a1 a2 hord
  refine ⟨hexp P, ?_⟩
  intro fuel
  induction fuel generalizing P with
  | zero => rfl
  | succ n ih =>
    simp only [plan]
    split
    · rw [hexp P]
      exact ih _
    · rfl

end order_claims

section scaling_claims
variable {F : Type} [LinearOrderedField F] [FloorRing F]

/-! ### The constructor -/

/-- C12 (depth limit), as amended: for every resolution `R > 0` and depth scale
`D > 0` the constructor sets `depth_limit` to `D * R * floor(log(R))` with its
fraction dropped: the floor is taken of the logarithm alone.  Where
`log(R) ≥ 0` this is `floor(D * R * floor(log(R)))`, which is at most
`floor(D * R * log(R))`. -/
theorem depth_limit_floor (M : cmath F) (E : collaborators F) (Lip_flow : F)
    (params : parameters F) (controls : List (List F)) (upper0 : F) (num0 : ℤ)
    (d0 : List ℤ) (hR : 0 < params.res) (hD : 0 < params.depth_scale) :
    (scaling M E Lip_flow params controls upper0 num0 d0).depth_limit
      = trunc (params.depth_scale * params.res * (⌊M.log params.res⌋ : F)) ∧
    (0 ≤ M.log params.res →
      (scaling M E Lip_flow params controls upper0 num0 d0).depth_limit
        = ⌊params.depth_scale * params.res * (⌊M.log params.res⌋ : F)⌋ ∧
      (scaling M E Lip_flow params controls upper0 num0 d0).depth_limit
        ≤ ⌊params.depth_scale * params.res * M.log params.res⌋) := by
  refine ⟨rfl, fun hlog => ?_⟩
  have hDR : 0 < params.depth_scale * params.res := mul_pos hD hR
  have hfl : (0 : F) ≤ (⌊M.log params.res⌋ : F) := by
    exact_mod_cast Int.floor_nonneg.2 hlog
  have hnn : 0 ≤ params.depth_scale * params.res * (⌊M.log params.res⌋ : F) :=
    mul_nonneg (le_of_lt hDR) hfl
  have heq : (scaling M E Lip_flow params controls upper0 num0 d0).depth_limit
      = ⌊params.depth_scale * params.res * (⌊M.log params.res⌋ : F)⌋ := by
    show trunc _ = _
    unfold trunc
    rw [if_pos hnn]
  refine ⟨heq, ?_⟩
  rw [heq]
  exact Int.floor_mono
    (mul_le_mul_of_nonneg_left (Int.floor_le _) (le_of_lt hDR))

/-- C13 (construction), as amended: the constructor tests none of its
parameters and never fails: for every parameter bundle and every control grid
it builds a live planner with `foundGoal` unset, the sentinel as `best`, the
root in the open queue and the control grid as given. -/
theorem build_total (M : cmath F) (E : collaborators F) (Lip_flow : F)
    (params : parameters F) (controls : List (List F)) (upper0 : F) (num0 : ℤ)
    (d0 : List ℤ) :
    ∃ P, build M E Lip_flow params controls upper0 num0 d0 = some P ∧
      P.live = true ∧ P.foundGoal = false ∧ P.best = none ∧ P.queue = [P.root_ptr] ∧
      P.controls = controls ∧ (deref P.heap P.root_ptr).x = params.x0 :=
  ⟨_, rfl, rfl, rfl, rfl, rfl, rfl, rfl⟩

end scaling_claims

section best_first_claim
variable {K : Type} [LinearOrderedCommRing K] [FloorRing K]

/-! ### P2: best-first order -/

/-- The top of the open queue has the least merit of the queue. -/
theorem queue_top_least (h : List (node K)) (l : List ℕ) (a : ℕ)
    (ht : pq_top (queue_order h) l = some a) :
    ∀ b ∈ l, (deref h a).merit ≤ (deref h b).merit := by
  intro b hb
  have key := pq_top_first (queue_order h)
    (by intro x; simp [queue_order])
    (by
      intro x y hxy
      simp only [queue_order, decide_eq_true_eq, decide_eq_false_iff_not] at hxy ⊢
      rintro (h1 | ⟨h1, h2⟩) <;> rcases hxy with h3 | ⟨h3, h4⟩
      · exact absurd h1 (not_lt.2 h3.le)
      · rw [h3] at h1; exact lt_irrefl _ h1
      · rw [h1] at h3; exact lt_irrefl _ h3
      · exact absurd h2 (not_lt.2 h4.le))
    (by
      intro x y z hxz
      simp only [queue_order, decide_eq_true_eq] at hxz ⊢
      by_contra hc
      push_neg at hc
      obtain ⟨⟨c1, c2⟩, c3, c4⟩ := hc
      rcases hxz with h1 | ⟨h1, h2⟩
      · rcases lt_or_eq_of_le c1 with e | e
        · rcases lt_or_eq_of_le c3 with e2 | e2
          · exact absurd (lt_trans e2 e) (not_lt.2 h1.le)
          · rw [← e2] at e; exact absurd e (not_lt.2 h1.le)
        · rw [← e] at h1
          exact absurd h1 (not_lt.2 c3)
      · rcases lt_or_eq_of_le c1 with e | e
        · rw [h1] at e; exact absurd e (not_lt.2 c3)
        · have e3 : (deref h z).merit = (deref h y).merit := by rw [← h1, ← e]
          have k1 := c2 e.symm
          have k2 := c4 e3.symm
          exact absurd (lt_of_lt_of_le h2 k2) (not_lt.2 k1))
    l a ht b hb
  simp only [queue_order, decide_eq_false_iff_not, not_or, not_lt] at key
  exact key.1

/-- While the node `cur` is expanded no node is popped, and every node of the
open queue was in it before or was admitted under `cur`. -/
theorem queue_origin_expand_node {E : collaborators K} {P0 : trajectory_planner K}
    (hI : Inv E P0) {cur : ℕ} (hc : cur < P0.heap.length) :
    (expand_node E cur P0).hist_popped = P0.hist_popped ∧
      ∀ q ∈ (expand_node E cur P0).queue, q ∈ P0.queue ∨
        ∃ a ∈ (expand_node E cur P0).hist_admitted, a.child = q ∧ a.parent = cur := by
  refine expand_node_induct hI hc
    (fun P1 => P1.hist_popped = P0.hist_popped ∧
      ∀ q ∈ P1.queue, q ∈ P0.queue ∨ ∃ a ∈ P1.hist_admitted, a.child = q ∧ a.parent = cur)
    ⟨rfl, fun q hq => Or.inl hq⟩ ?_ ?_ ?_
  · intro X i _ _ _ hq
    exact hq
  · rintro tfp b R curr _ _ _ _ ⟨q1, q2⟩
    have hold : ∀ q, (q ∈ P0.queue ∨ ∃ a ∈ R.P.hist_admitted, a.child = q ∧ a.parent = cur) →
        q ∈ P0.queue ∨ ∃ a ∈ (admit_candidate E cur tfp b R curr).P.hist_admitted,
          a.child = q ∧ a.parent = cur := by
      rintro q (h | ⟨a, ha, h1, h2⟩)
      · exact Or.inl h
      · exact Or.inr ⟨a, by simp [ha], h1, h2⟩
    refine ⟨by rw [admit_candidate_hist_popped]; exact q1, ?_⟩
    intro q hq
    rw [admit_candidate_queue] at hq
    split at hq
    · exact hold q (q2 q hq)
    · rcases List.mem_append.1 hq with hq | hq
      · exact hold q (q2 q hq)
      · simp only [List.mem_singleton] at hq
        subst hq
        exact Or.inr ⟨⟨b, R.label, cur, q, tfp q⟩, by simp, rfl, rfl⟩
  · intro P1 dl hq
    exact hq

theorem queue_above_expand_node {E : collaborators K} {P0 : trajectory_planner K}
    (hI : Inv E P0) {cur : ℕ} (hc : cur < P0.heap.length) (hQ : queue_above P0)
    (hlast : ∀ p ∈ P0.hist_popped, (deref P0.heap p).merit ≤ (deref P0.heap cur).merit)
    (hmono : ∀ a ∈ (expand_node E cur P0).hist_admitted,
      (deref (expand_node E cur P0).heap a.parent).merit
        ≤ (deref (expand_node E cur P0).heap a.child).merit) :
    queue_above (expand_node E cur P0) := by
  obtain ⟨tfp, hM, -⟩ := expand_node_mid hI hc
  obtain ⟨hpop, horigin⟩ := queue_origin_expand_node (E := E) hI hc
  have hold : ∀ q, q < P0.heap.length →
      (deref (expand_node E cur P0).heap q).merit = (deref P0.heap q).merit := by
    intro q hq
    by_cases hqc : q = cur
    · subst hqc
      exact hM.old_cur.2.2.2.1
    · rw [hM.old q hq hqc]
  have hmer : popped_merits (expand_node E cur P0) = popped_merits P0 := by
    unfold popped_merits
    rw [hpop]
    apply List.map_congr_left
    intro q hq
    exact hold q (hI.popped_lt q hq)
  refine ⟨?_, ?_⟩
  · unfold best_first
    rw [hmer]
    exact hQ.1
  · intro q hq p hp
    rw [hpop] at hp
    rw [hold p (hI.popped_lt p hp)]
    rcases horigin q hq with h0 | ⟨a, ha, h1, h2⟩
    · rw [hold q (hI.queue_lt q h0)]
      exact hQ.2 q h0 p hp
    · have h3 := hmono a ha
      rw [h1, h2, hold cur hc] at h3
      exact le_trans (hlast p hp) h3

theorem queue_above_expand {E : collaborators K} {P : trajectory_planner K} (hI : Inv E P)
    (hQ : queue_above P)
    (hmono : ∀ a ∈ (expand E P).hist_admitted,
      (deref (expand E P).heap a.parent).merit ≤ (deref (expand E P).heap a.child).merit) :
    queue_above (expand E P) := by
  rcases expand_cases E P with ⟨-, h⟩ | ⟨cur, htop, hm, hrest⟩
  · rw [h]
    exact hQ
  · have hmin := queue_top_least P.heap P.queue cur htop
    have hpop : queue_above (pop_open cur { P with iter := P.iter + 1 }) ∧
        ∀ p ∈ (pop_open cur { P with iter := P.iter + 1 }).hist_popped,
          (deref P.heap p).merit ≤ (deref P.heap cur).merit := by
      have hall : ∀ p ∈ P.hist_popped ++ [cur],
          (deref P.heap p).merit ≤ (deref P.heap cur).merit := by
        intro p hp
        rcases List.mem_append.1 hp with hp | hp
        · exact hQ.2 cur hm p hp
        · simp only [List.mem_singleton] at hp
          rw [hp]
      refine ⟨⟨?_, ?_⟩, hall⟩
      · show List.Pairwise _ (List.map _ (P.hist_popped ++ [cur]))
        rw [List.map_append, List.pairwise_append]
        refine ⟨hQ.1, by simp, ?_⟩
        intro a ha b hb
        simp only [List.map_cons, List.map_nil, List.mem_singleton] at hb
        obtain ⟨p, hp, rfl⟩ := List.mem_map.1 ha
        rw [hb]
        exact hQ.2 cur hm p hp
      · intro q hq p hp
        have hq2 : q ∈ P.queue := List.mem_of_mem_erase hq
        exact le_trans (hall p hp) (hmin q hq2)
    rcases hrest with ⟨-, h⟩ | ⟨-, h⟩
    · rw [h]
      exact hpop.1
    · rw [h] at hmono ⊢
      exact queue_above_expand_node (inv_popped hI hm) (hI.queue_lt cur hm) hpop.1 hpop.2 hmono

theorem reachable_queue_above {E : collaborators K} {I : setup K} {P : trajectory_planner K}
    (h : Reachable E I P) :
    (∀ a ∈ P.hist_admitted, (deref P.heap a.parent).merit ≤ (deref P.heap a.child).merit) →
      queue_above P := by
  induction h with
  | init =>
    intro _
    exact ⟨by simp [best_first, popped_merits, construct], by simp [construct]⟩
  | step P hP ih =>
    intro hmono
    have hI := reachable_inv hP
    obtain ⟨l, hl⟩ := expand_hist_admitted (E := E) hI
    refine queue_above_expand hI (ih ?_) hmono
    intro a ha
    have h1 := hmono a (by rw [hl]; exact List.mem_append_left _ ha)
    obtain ⟨k1, k2, -⟩ := hI.admitted_lt a ha
    rw [(expand_old hI k1).2.2.2.1, (expand_old hI k2).2.2.2.1] at h1
    exact h1

/-- C4 (P2, best-first), as amended: every call of `expand` pops a node of
least merit in the open queue; and in every reachable state in which each
admitted node has a merit of at least the merit of the node it was admitted
under, the merits of the nodes popped so far are non-decreasing and none of
them exceeds the merit of a node of the open queue.  The condition is on the
merits as stored, whatever the rounding of `cost + h`. -/
theorem best_first_monotone {E : collaborators K} {I : setup K} {P : trajectory_planner K}
    (h : Reachable E I P)
    (hmono : ∀ a ∈ P.hist_admitted,
      (deref P.heap a.parent).merit ≤ (deref P.heap a.child).merit) :
    (∀ cur, pq_top (queue_order P.heap) P.queue = some cur →
      ∀ q ∈ P.queue, (deref P.heap cur).merit ≤ (deref P.heap q).merit) ∧
    best_first P ∧
    ∀ q ∈ P.queue, ∀ p ∈ P.hist_popped, (deref P.heap p).merit ≤ (deref P.heap q).merit :=
  ⟨fun cur htop => queue_top_least P.heap P.queue cur htop,
    (reachable_queue_above h hmono).1, (reachable_queue_above h hmono).2⟩

end best_first_claim

/-! ## The claims at concrete planners -/

section witnesses

theorem line_1_reachable : Reachable line_world line_setup line_1 :=
  Reachable.step _ Reachable.init

theorem line_2_reachable : Reachable line_world line_setup line_2 :=
  Reachable.step _ line_1_reachable

theorem hover_2_reachable : Reachable line_world hover_setup hover_2 :=
  Reachable.step _ (Reachable.step _ Reachable.init)

theorem line_cost_nonneg (τ : traj ℤ) (u : List ℤ) : 0 ≤ line_world.cost τ u :=
  show (0 : ℤ) ≤ 1 by decide

theorem add_child_spec_witness :
    (1 < line_1.heap.length ∧ 2 < line_1.heap.length ∧
      (deref line_1.heap 2).u_idx < (deref line_1.heap 1).children.length) ∧
    (deref (add_child line_1 1 2).heap 2).parent = some 1 ∧
    (deref (add_child line_1 1 2).heap 1).children = [none, some 2] :=
  ⟨by decide,
    (add_child_spec line_1 1 2 (by decide) (by decide) (by decide)).1.1,
    by decide⟩

theorem cell_pruning_witness :
    Reachable line_world hover_setup hover_2 ∧
    (⟨[0], some 1, 1, 2, ⟨[1, 2], [[0], [0]]⟩⟩ : admission ℤ) ∈ hover_2.hist_admitted ∧
    (deref hover_2.heap 2).cost < (deref hover_2.heap 1).cost + hover_setup.eps :=
  ⟨hover_2_reachable, by decide,
    cell_pruning hover_2_reachable ⟨[0], some 1, 1, 2, ⟨[1, 2], [[0], [0]]⟩⟩ (by decide) 1 rfl⟩

theorem depth_bound_witness :
    Reachable line_world line_setup line_2 ∧ 0 ≤ line_setup.depth_limit ∧
    admitted line_2 4 ∧ (deref line_2.heap 4).depth ≤ line_setup.depth_limit :=
  ⟨line_2_reachable, by decide,
    ⟨⟨[3], none, 1, 4, ⟨[1, 2], [[1], [3]]⟩⟩, by decide, rfl⟩,
    depth_bound line_2_reachable (by decide) 4
      (Or.inr ⟨⟨[3], none, 1, 4, ⟨[1, 2], [[1], [3]]⟩⟩, by decide, rfl⟩)⟩

theorem tree_invariant_witness :
    Reachable line_world line_setup line_2 ∧ in_tree line_2 1 ∧ slot line_2.heap 1 1 4 ∧
    (1 < line_2.controls.length ∧ (deref line_2.heap 4).u_idx = 1 ∧
      (deref line_2.heap 4).parent = some 1 ∧
      (deref line_2.heap 4).depth = (deref line_2.heap 1).depth + 1) :=
  ⟨line_2_reachable, in_tree.child 0 0 1 in_tree.root (by decide), by decide,
    (tree_invariant line_2_reachable).1 1 1 4
      (in_tree.child 0 0 1 in_tree.root (by decide)) (by decide)⟩

theorem merit_admissible_witness :
    Reachable line_world line_setup line_2 ∧ (∀ x, 0 ≤ line_world.cost_to_go x) ∧
    (∀ τ u, 0 ≤ line_world.cost τ u) ∧ 4 ∈ line_2.hist_pushed ∧
    (deref line_2.heap 4).cost ≤ (deref line_2.heap 4).merit ∧
    admitted line_2 4 ∧ (deref line_2.heap 4).parent = some 1 ∧
    (deref line_2.heap 1).cost ≤ (deref line_2.heap 4).cost :=
  ⟨line_2_reachable, fun _ => le_refl _, line_cost_nonneg, by decide,
    (merit_admissible line_2_reachable (fun _ => le_refl _) line_cost_nonneg).1 4
      (by decide),
    ⟨⟨[3], none, 1, 4, ⟨[1, 2], [[1], [3]]⟩⟩, by decide, rfl⟩, by decide, by decide⟩

theorem goal_flags_witness :
    Reachable line_world line_setup line_2 ∧ line_2.foundGoal = true ∧
    (line_2.live = false ∧ ∃ l a, line_2.best = some l ∧ a ∈ line_2.hist_admitted ∧
      a.child = l ∧ line_world.collisionFree a.arc = true ∧
      (line_world.inGoal a.arc).1 = true) :=
  ⟨line_2_reachable, by decide, (goal_flags line_2_reachable).2.2 (by decide)⟩

end witnesses

section best_first_runs

theorem detour_cost (us : List (List ℤ)) :
    ∀ (t : ℤ) (x : List ℤ),
      rollout_cost detour_world (rollout detour_world 1 t x us) = (us.length : ℤ) := by
  induction us with
  | nil => intro t x; simp [rollout, rollout_cost]
  | cons u us ih =>
    intro t x
    have h := ih (t + 1) (detour_world.sim t (t + 1) x u).back_state
    simp only [rollout_cost] at h
    simp only [rollout, rollout_cost, List.map_cons, List.sum_cons, List.length_cons, h]
    simp [detour_world, line_world]
    ring

theorem detour_admissible :
    admissible detour_world detour_setup.expand_time detour_setup.controls := by
  intro t x us hU hgoal
  show (if x = [0] then (2 : ℤ) else 0) ≤ _
  have hcost : rollout_cost detour_world (rollout detour_world detour_setup.expand_time t x us)
      = (us.length : ℤ) := detour_cost us t x
  rw [hcost]
  by_cases hx : x = [0]
  · rw [if_pos hx]
    subst hx
    obtain ⟨a, ha, hg⟩ := hgoal
    cases us with
    | nil => simp [rollout] at ha
    | cons u us =>
      cases us with
      | nil =>
        have hu : u = [1] := by simpa [detour_setup] using hU u (by simp)
        subst hu
        simp only [rollout, List.getLast?_singleton, Option.some.injEq] at ha
        subst ha
        simp [detour_world, line_world, traj.back_state] at hg
      | cons v us =>
        simp only [List.length_cons]
        push_cast
        have : (0 : ℤ) ≤ (us.length : ℤ) := Int.natCast_nonneg _
        linarith
  · rw [if_neg hx]
    exact Int.natCast_nonneg _

/-- C4, counterexample: in the detour world the heuristic is admissible and never
negative and no arc has a negative cost, yet the root is popped with merit 2
and its child, popped next while `foundGoal` is still unset, has merit 1. -/
theorem best_first_counterexample :
    admissible detour_world detour_setup.expand_time detour_setup.controls ∧
    (∀ x, 0 ≤ detour_world.cost_to_go x) ∧ (∀ τ u, 0 ≤ detour_world.cost τ u) ∧
    Reachable detour_world detour_setup detour_2 ∧ detour_1.foundGoal = false ∧
    popped_merits detour_2 = [2, 1] ∧ ¬ best_first detour_2 :=
  ⟨detour_admissible,
    fun x => by
      show (0 : ℤ) ≤ if x = [0] then 2 else 0
      split <;> decide,
    fun _ _ => show (0 : ℤ) ≤ 1 by decide,
    Reachable.step _ (Reachable.step _ Reachable.init), by decide, by decide, by decide⟩

theorem best_first_monotone_witness :
    Reachable line_world line_setup line_2 ∧
    (∀ a ∈ line_2.hist_admitted,
      (deref line_2.heap a.parent).merit ≤ (deref line_2.heap a.child).merit) ∧
    popped_merits line_2 = [0, 1] ∧ best_first line_2 :=
  ⟨line_2_reachable, by decide, by decide,
    (best_first_monotone line_2_reachable (by decide)).2.1⟩

end best_first_runs

section unique_labels_runs

end unique_labels_runs

section relabel_runs

end relabel_runs

section later_witnesses

theorem wind_2_reachable : Reachable wind_world wind_setup wind_2 :=
  Reachable.step _ (Reachable.step _ Reachable.init)

theorem glide_1_reachable : Reachable glide_world glide_setup glide_1 :=
  Reachable.step _ Reachable.init

/-- C16 (path reconstruction): in the wind search after two calls of `expand`
the node `best` is node 2 with `x = 3`, admitted under node 1 with the arc from
time 1 to time 2, and the forward path is root, node 1, node 2.  `recover_traj`
integrates the first arc from time 0 to time 1, drops its last sample, and
takes the new `t0` from what is left: the second arc is integrated from time 0
to time 1 again, not from `t = 1` of node 1, and ends in `x = 2`. -/
theorem recover_restarts_clock :
    Reachable wind_world wind_setup wind_2 ∧ wind_2.best = some 2 ∧
    path_to_root wind_2 true 3 = some [some 0, some 1, some 2] ∧
    (⟨[3], none, 1, 2, ⟨[1, 2], [[1], [3]]⟩⟩ : admission ℤ) ∈ wind_2.hist_admitted ∧
    (deref wind_2.heap 1).t = 1 ∧ (deref wind_2.heap 2).x = [3] ∧
    (recover_loop wind_world wind_2 [some 0, some 1, some 2]).arcs
      = [⟨[0, 1], [[0], [1]]⟩, ⟨[0, 1], [[1], [2]]⟩] ∧
    recover_traj wind_world wind_2 [some 0, some 1, some 2]
      = some ⟨[0, 0, 1], [[0], [1], [2]]⟩ :=
  ⟨wind_2_reachable, by decide, by decide, by decide, by decide, by decide, by decide,
    by decide⟩

/-- C11, counterexample: in the glide search the arc of the node `best` has the
times `0, 1, 2`, the goal collaborator reports it with the index `k = 1`, the
control is `(1, 2)` with `L_c = 1`, and every read exists.  The code takes the
tail `(2 - 0) * (1 + 1²) = 4` and sets `UPPER = 10 - 4 = 6`; the stated tail is
`(2 - 1) * (1 + 1² + 2²) = 6`, which gives `4`.  The stated tail at the sample
before `k` is `12`, and the code's tail read at the sample `k` is `2`. -/
theorem upper_tail_counterexample :
    Reachable glide_world glide_setup glide_1 ∧ glide_1.best = some 1 ∧
    glide_1.fault = false ∧
    (⟨[2, 4], none, 0, 1, ⟨[0, 1, 2], [[0, 0], [1, 2], [2, 4]]⟩⟩ : admission ℤ)
      ∈ glide_1.hist_admitted ∧
    glide_world.inGoal ⟨[0, 1, 2], [[0, 0], [1, 2], [2, 4]]⟩ = (true, 1) ∧
    (deref glide_1.heap 1).cost = 10 ∧ glide_1.UPPER = 6 ∧
    tail_cost glide_world glide_1.controls ⟨[0, 1, 2], [[0, 0], [1, 2], [2, 4]]⟩ 1
      (deref glide_1.heap 1).u_idx = some 4 ∧
    tail_spec glide_world glide_1.controls ⟨[0, 1, 2], [[0, 0], [1, 2], [2, 4]]⟩ 1
      (deref glide_1.heap 1).u_idx = some 6 ∧
    tail_spec glide_world glide_1.controls ⟨[0, 1, 2], [[0, 0], [1, 2], [2, 4]]⟩ 0
      (deref glide_1.heap 1).u_idx = some 12 ∧
    tail_cost glide_world glide_1.controls ⟨[0, 1, 2], [[0, 0], [1, 2], [2, 4]]⟩ (1 + 1)
      (deref glide_1.heap 1).u_idx = some 2 :=
  ⟨glide_1_reachable, by decide, by decide, by decide, by decide, by decide, by decide,
    by decide, by decide, by decide, by decide⟩

theorem upper_tail_witness :
    Reachable glide_world glide_setup glide_1 ∧ glide_1.best = some 1 ∧
    glide_1.fault = false ∧
    ∃ a ∈ glide_1.hist_admitted, a.child = 1 ∧ (glide_world.inGoal a.arc).1 = true ∧
      (∀ tk u u0, 1 ≤ (glide_world.inGoal a.arc).2 →
        a.arc.time[((glide_world.inGoal a.arc).2 - 1).toNat]? = some tk →
        glide_setup.controls[(deref glide_1.heap 1).u_idx]? = some u → u[0]? = some u0 →
        glide_1.UPPER = (deref glide_1.heap 1).cost
          - (a.arc.back_time - tk) * (1 + glide_world.Lip_cost * sqr u0)) ∧
      (glide_1.fault = false → ∃ tk u u0, 1 ≤ (glide_world.inGoal a.arc).2 ∧
        a.arc.time[((glide_world.inGoal a.arc).2 - 1).toNat]? = some tk ∧
        glide_setup.controls[(deref glide_1.heap 1).u_idx]? = some u ∧ u[0]? = some u0) :=
  ⟨glide_1_reachable, by decide, by decide, upper_tail glide_1_reachable 1 (by decide)⟩

theorem early_exit_witness :
    stops_early cutoff_0 ∧ (expand line_world cutoff_0).live = false ∧
    (expand line_world cutoff_0).heap = cutoff_0.heap ∧
    (expand line_world cutoff_0).queue = [] :=
  ⟨Or.inr ⟨0, by decide, by decide⟩,
    (early_exit line_world cutoff_0 (Or.inr ⟨0, by decide, by decide⟩)).1,
    (early_exit line_world cutoff_0 (Or.inr ⟨0, by decide, by decide⟩)).2.2.1,
    by decide⟩

theorem candidates_drained_witness :
    Reachable line_world line_setup line_1 ∧
    (∀ d ∈ line_1.domain_labels, d.candidates = []) ∧
    ∃ l, line_2.hist_admitted = line_1.hist_admitted ++ l ∧
      ∀ a ∈ l, admitted_by line_world line_1 a :=
  ⟨line_1_reachable, candidates_drained line_1_reachable⟩

theorem best_is_least_witness :
    Reachable line_world line_setup line_2 ∧
    (⟨[3], none, 1, 4, ⟨[1, 2], [[1], [3]]⟩⟩ : admission ℤ) ∈ line_2.hist_admitted ∧
    line_world.inGoal ⟨[1, 2], [[1], [3]]⟩ = (true, 2) ∧
    ∃ b, line_2.best = some b ∧ (deref line_2.heap b).cost ≤ (deref line_2.heap 4).cost :=
  ⟨line_2_reachable, by decide, by decide,
    (best_is_least line_2_reachable).1 ⟨[3], none, 1, 4, ⟨[1, 2], [[1], [3]]⟩⟩ (by decide)
      (by decide)⟩

theorem path_to_root_spec_witness :
    Reachable line_world line_setup line_2 ∧ line_2.best = some 4 ∧
    path_to_root line_2 false 3 = some [some 4, some 1, some 0] ∧
    ∃ path : List ℕ,
      (∀ fuel : ℕ, (deref line_2.heap 4).depth < (fuel : ℤ) →
        path_to_root line_2 false fuel = some (path.map some) ∧
        path_to_root line_2 true fuel = some ((path.map some).reverse)) ∧
      (path.length : ℤ) = (deref line_2.heap 4).depth + 1 ∧
      path.head? = some 4 ∧ path.getLast? = some line_2.root_ptr ∧
      (deref line_2.heap line_2.root_ptr).parent = none ∧ parent_chain line_2.heap path ∧
      ∀ q ∈ path, (deref line_2.heap q).parent = none → q = line_2.root_ptr :=
  ⟨line_2_reachable, by decide, by decide, path_to_root_spec line_2_reachable 4 (by decide)⟩

/-- C18, counterexample: the two fork worlds compute the same functions and
start from the same planner, and both controls reach the goal at cost 2, in the
cells `[2]` and `[4]`.  Where the domain of `[2]` is refreshed first, `best`
is node 1 and `UPPER = 2`; where the domain of `[4]` is refreshed first, `best`
is node 2 and `UPPER = 1`; `plan` stops after this call in both runs. -/
theorem refresh_order_counterexample :
    same_functions (fork_world false) (fork_world true) ∧
    construct (fork_world true) fork_setup = fork_0 ∧
    ((expand (fork_world false) fork_0).best = some 1 ∧
      (expand (fork_world false) fork_0).UPPER = 2 ∧
      (deref (expand (fork_world false) fork_0).heap 1).cost = 2 ∧
      (plan (fork_world false) 2 fork_0).map (fun Q => (Q.best, Q.UPPER)) = some (some 1, 2)) ∧
    ((expand (fork_world true) fork_0).best = some 2 ∧
      (expand (fork_world true) fork_0).UPPER = 1 ∧
      (deref (expand (fork_world true) fork_0).heap 2).cost = 2 ∧
      (plan (fork_world true) 2 fork_0).map (fun Q => (Q.best, Q.UPPER)) = some (some 2, 1)) :=
  ⟨⟨rfl, rfl, rfl, rfl, rfl, rfl⟩, rfl, by decide, by decide⟩

theorem expand_deterministic_witness :
    same_functions line_world line_world_moved ∧ same_order line_world line_world_moved ∧
    expand line_world line_1 = expand line_world_moved line_1 :=
  ⟨⟨rfl, rfl, rfl, rfl, rfl, rfl⟩,
    fun _ _ _ => (Nat.add_le_add_iff_right).symm,
    (expand_deterministic line_world line_world_moved ⟨rfl, rfl, rfl, rfl, rfl, rfl⟩
      (fun _ _ _ => (Nat.add_le_add_iff_right).symm) line_1).1⟩

end later_witnesses

section scaling_runs

theorem floor_log_two : ⌊Real.log 2⌋ = 0 := by
  rw [Int.floor_eq_iff]
  have h1 := Real.log_two_gt_d9
  have h2 := Real.log_two_lt_d9
  constructor
  · push_cast
    linarith
  · push_cast
    linarith

/-- C12, counterexample: with `R = 2` and `D = 1` the constructor sets
`depth_limit = 1 * 2 * floor(log 2) = 0`, while `floor(1 * 2 * log 2) = 1`. -/
theorem depth_limit_counterexample :
    (scaling ⟨Real.log, fun a b => a ^ b, Real.exp, Real.sqrt⟩ (still_world ℝ) 1
      ⟨2, 1, 1, 1, 1, [0]⟩ [[1]] 1000 0 [0]).depth_limit = 0 ∧
    ⌊(1 : ℝ) * 2 * Real.log 2⌋ = 1 := by
  constructor
  · show trunc ((1 : ℝ) * 2 * (⌊Real.log 2⌋ : ℝ)) = 0
    rw [floor_log_two]
    simp [trunc]
  · rw [Int.floor_eq_iff]
    have h1 := Real.log_two_gt_d9
    have h2 := Real.log_two_lt_d9
    constructor
    · push_cast
      linarith
    · push_cast
      linarith

theorem depth_limit_floor_witness :
    (0 : ℝ) < 2 ∧ (0 : ℝ) < 1 ∧ 0 ≤ Real.log 2 ∧
    (scaling ⟨Real.log, fun a b => a ^ b, Real.exp, Real.sqrt⟩ (still_world ℝ) 1
        ⟨2, 1, 1, 1, 1, [0]⟩ [[1]] 1000 0 [0]).depth_limit
      = ⌊(1 : ℝ) * 2 * (⌊Real.log 2⌋ : ℝ)⌋ ∧
    (scaling ⟨Real.log, fun a b => a ^ b, Real.exp, Real.sqrt⟩ (still_world ℝ) 1
        ⟨2, 1, 1, 1, 1, [0]⟩ [[1]] 1000 0 [0]).depth_limit
      ≤ ⌊(1 : ℝ) * 2 * Real.log 2⌋ :=
  ⟨two_pos, one_pos, Real.log_nonneg one_le_two,
    (depth_limit_floor ⟨Real.log, fun a b => a ^ b, Real.exp, Real.sqrt⟩ (still_world ℝ) 1
      ⟨2, 1, 1, 1, 1, [0]⟩ [[1]] 1000 0 [0] two_pos one_pos).2
      (Real.log_nonneg one_le_two)⟩

/-- C13, counterexample: with an empty control grid, and with a control of
three components for the state dimension 1, the constructor builds a live
planner with the root in its open queue. -/
theorem build_counterexample :
    (build ⟨Real.log, fun a b => a ^ b, Real.exp, Real.sqrt⟩ (still_world ℝ) 1
      ⟨2, 1, 1, 1, 1, [0]⟩ [] 1000 0 [0]).map (fun P => (P.live, P.queue, P.controls))
      = some (true, [0], []) ∧
    (build ⟨Real.log, fun a b => a ^ b, Real.exp, Real.sqrt⟩ (still_world ℝ) 1
      ⟨2, 1, 1, 1, 1, [0]⟩ [[1, 2, 3]] 1000 0 [0]).map
        (fun P => (P.live, P.queue, P.controls))
      = some (true, [0], [[1, 2, 3]]) :=
  ⟨rfl, rfl⟩

end scaling_runs

end glcm
